import Mathlib

/-! WNTR `aml` evaluator: tape evaluation and reverse-mode differentiation.

Shallow embedding of `src/wntr/aml/evaluator.cpp`.

* A `double` is modelled by an element of a field `α` (exact arithmetic); the two
  calls into the C math library, `::pow` and `log`, are the fields of `Libm α`.
* A `Leaf*` is an address (`LeafPtr`); the leaf objects live in a `Heap`.
* C arrays are lists; an access outside the allocated list, a read of a scratch
  slot that was never written, and a dereference of a dangling leaf pointer make
  the embedded function return `none`.
-/

namespace WNTR

/-- Operator codes stored in the `operators` array (a `short` per operation). The six
enumerators are those tested by `_evaluate` and `rad`; `UNDEFINED code` stands for a
`short` equal to none of them. -/
inductive Oper where
  | VALUE
  | ADD
  | SUBTRACT
  | MULTIPLY
  | DIVIDE
  | POWER
  | UNDEFINED (code : Int)
  deriving DecidableEq

/-- Address of a leaf object (`Leaf*`). -/
abbrev LeafPtr := Nat

/-- The fields of a leaf object that the evaluator touches: `value` (read by
`_evaluate` and `rad`), the answer of `is_float()` (true for the constant class
`Float`), and `refcount` (a field of `Float` only; carried but unused for a variable). -/
structure Leaf (α : Type) where
  value : α
  is_float : Bool
  refcount : Int

/-- The store of leaf objects: `none` at an address that holds no live leaf. -/
abbrev Heap (α : Type) := LeafPtr → Option (Leaf α)

/-- The two C math library functions used by the evaluator. -/
structure Libm (α : Type) where
  pow : α → α → α
  log : α → α

/-- The members of `class Evaluator`. -/
structure Evaluator where
  n_operators : Nat
  n_leaves : Nat
  operators : List Oper
  arg1_indices : List Int
  arg2_indices : List Int
  leaves : List LeafPtr

/-- Modelled from the spec: `_arg_ndx_to_operator_ndx` is declared in `evaluator.hpp`,
which is not part of the sources; the spec gives `operator index = −(reference) − 1`. -/
def _arg_ndx_to_operator_ndx (arg_ndx : Int) : Int := -arg_ndx - 1

/-- Read `a[k]` of a scratch array of doubles at a C `int` index: `none` when the index
is outside the array or the slot was never written. -/
def readSlot {α : Type} (a : List (Option α)) (k : Int) : Option α :=
  if 0 ≤ k then (a[k.toNat]?).join else none

/-- Write `a[k] = x` at a C `int` index: `none` when the index is outside the array. -/
def writeSlot {α : Type} (a : List (Option α)) (k : Int) (x : Option α) :
    Option (List (Option α)) :=
  if 0 ≤ k ∧ k.toNat < a.length then some (a.set k.toNat x) else none

/-- The expression `leaves[ndx]` for `ndx >= 0`. -/
def leafAt (e : Evaluator) (ndx : Int) : Option LeafPtr :=
  if 0 ≤ ndx then e.leaves[ndx.toNat]? else none

/-- The expression `leaves[ndx]->value`. -/
def leafValue {α : Type} (e : Evaluator) (h : Heap α) (ndx : Int) : Option α :=
  (leafAt e ndx).bind fun p => (h p).map Leaf.value

/-- Resolution of one operand reference, as done for `val1` and `val2`
(evaluator.cpp lines 90-107, repeated at 187-204, 210-227, 233-250). -/
def operand {α : Type} (e : Evaluator) (h : Heap α) (values : List (Option α))
    (arg_ndx : Int) : Option α :=
  if 0 ≤ arg_ndx then leafValue e h arg_ndx
  else readSlot values (_arg_ndx_to_operator_ndx arg_ndx)

/-- One iteration of the loop of `Evaluator::_evaluate` (body for index `i`). -/
def _evaluate_step {α : Type} [Field α] (m : Libm α) (e : Evaluator) (h : Heap α)
    (i : Nat) (values : List (Option α)) : Option (List (Option α)) :=
  (e.operators[i]?).bind fun oper =>
  (e.arg1_indices[i]?).bind fun arg1_ndx =>
  (e.arg2_indices[i]?).bind fun arg2_ndx =>
  (operand e h values arg1_ndx).bind fun val1 =>
  (operand e h values arg2_ndx).bind fun val2 =>
  match oper with
  | Oper.ADD => writeSlot values i (some (val1 + val2))
  | Oper.SUBTRACT => writeSlot values i (some (val1 - val2))
  | Oper.VALUE => writeSlot values i (some val1)
  | Oper.MULTIPLY => writeSlot values i (some (val1 * val2))
  | Oper.DIVIDE => writeSlot values i (some (val1 / val2))
  | Oper.POWER => writeSlot values i (some (m.pow val1 val2))
  | Oper.UNDEFINED _ => some values

/-- The loop `for (int i=0; i<k; ++i)` of `_evaluate`: iterations `0 .. k-1` in
increasing order. -/
def _evaluate_loop {α : Type} [Field α] (m : Libm α) (e : Evaluator) (h : Heap α) :
    Nat → List (Option α) → Option (List (Option α))
  | 0, values => some values
  | k + 1, values => (_evaluate_loop m e h k values).bind (_evaluate_step m e h k)

/-- The method `Evaluator::_evaluate(double *values)`. -/
def _evaluate {α : Type} [Field α] (m : Libm α) (e : Evaluator) (h : Heap α)
    (values : List (Option α)) : Option (List (Option α)) :=
  _evaluate_loop m e h e.n_operators values

/-- The method `Evaluator::evaluate()`: a fresh scratch array `values[n_operators]`, one
forward pass, and the read of `values[n_operators - 1]`. -/
def evaluate {α : Type} [Field α] (m : Libm α) (e : Evaluator) (h : Heap α) : Option α :=
  (_evaluate m e h (List.replicate e.n_operators none)).bind fun values =>
  readSlot values ((e.n_operators : Int) - 1)

/-- Lookup in the result map `std::unordered_map<Leaf*, double>`, kept as an association
list in which every key occurs at most once. -/
def mapFind {α : Type} : List (LeafPtr × α) → LeafPtr → Option α
  | [], _ => none
  | (k', v) :: r, k => if k' = k then some v else mapFind r k

/-- The statement `(*res)[k] += d`: `operator[]` inserts the value-initialised entry `0.0`
when the key is absent, and `d` is then added to the entry. -/
def mapAdd {α : Type} [Field α] : List (LeafPtr × α) → LeafPtr → α → List (LeafPtr × α)
  | [], k, d => [(k, 0 + d)]
  | (k', v) :: r, k, d => if k' = k then (k', v + d) :: r else (k', v) :: mapAdd r k d

/-- The locals of `Evaluator::rad` that live across loop iterations: the adjoint array
`ders`, the locals `der1` and `der2` (unset until first assigned) and the map `res`. -/
structure RadState (α : Type) where
  ders : List (Option α)
  der1 : Option α
  der2 : Option α
  res : List (LeafPtr × α)

/-- The operator dispatch of `rad` (evaluator.cpp lines 170-253): the new contents of
`der1` and `der2`. For a code that is none of the six, both keep their old contents. -/
def rad_local {α : Type} [Field α] (m : Libm α) (e : Evaluator) (h : Heap α)
    (values : List (Option α)) (oper : Oper) (arg1_ndx arg2_ndx : Int) (der : α)
    (der1 der2 : Option α) : Option (Option α × Option α) :=
  match oper with
  | Oper.ADD => some (some der, some der)
  | Oper.SUBTRACT => some (some der, some (-der))
  | Oper.VALUE => some (some der, some 0)
  | Oper.MULTIPLY =>
    (operand e h values arg1_ndx).bind fun val1 =>
    (operand e h values arg2_ndx).bind fun val2 =>
    some (some (der * val2), some (der * val1))
  | Oper.DIVIDE =>
    (operand e h values arg1_ndx).bind fun val1 =>
    (operand e h values arg2_ndx).bind fun val2 =>
    some (some (der / val2), some (-der * val1 / (val2 * val2)))
  | Oper.POWER =>
    (operand e h values arg1_ndx).bind fun val1 =>
    (operand e h values arg2_ndx).bind fun val2 =>
    some (some (der * val2 * m.pow val1 (val2 - 1)), some (der * m.pow val1 val2 * m.log val1))
  | Oper.UNDEFINED _ => some (der1, der2)

/-- Propagation of one local derivative `d` to its operand (lines 255-263 for `arg1`,
264-272 for `arg2`): added into the map entry of a leaf, or stored over the adjoint
slot of an earlier operation. -/
def rad_propagate {α : Type} [Field α] (e : Evaluator) (arg_ndx : Int) (d : Option α)
    (ders : List (Option α)) (res : List (LeafPtr × α)) :
    Option (List (Option α) × List (LeafPtr × α)) :=
  if 0 ≤ arg_ndx then
    (leafAt e arg_ndx).bind fun p => d.bind fun x => some (ders, mapAdd res p x)
  else
    (writeSlot ders (_arg_ndx_to_operator_ndx arg_ndx) d).bind fun ders' => some (ders', res)

/-- One iteration of the loop of `Evaluator::rad` (body for index `i`). -/
def rad_step {α : Type} [Field α] (m : Libm α) (e : Evaluator) (h : Heap α)
    (values : List (Option α)) (i : Nat) (s : RadState α) : Option (RadState α) :=
  (e.operators[i]?).bind fun oper =>
  (e.arg1_indices[i]?).bind fun arg1_ndx =>
  (e.arg2_indices[i]?).bind fun arg2_ndx =>
  (readSlot s.ders i).bind fun der =>
  (rad_local m e h values oper arg1_ndx arg2_ndx der s.der1 s.der2).bind fun d =>
  (rad_propagate e arg1_ndx d.1 s.ders s.res).bind fun r1 =>
  (rad_propagate e arg2_ndx d.2 r1.1 r1.2).bind fun r2 =>
  some { ders := r2.1, der1 := d.1, der2 := d.2, res := r2.2 }

/-- The loop `for (int i=k-1; i>=0; --i)` of `rad`: iterations `k-1 .. 0` in decreasing
order. -/
def rad_loop {α : Type} [Field α] (m : Libm α) (e : Evaluator) (h : Heap α)
    (values : List (Option α)) : Nat → RadState α → Option (RadState α)
  | 0, s => some s
  | k + 1, s => (rad_step m e h values k s).bind (rad_loop m e h values k)

/-- The method `Evaluator::rad()`: forward pass, `ders[n_operators-1] = 1.0`, the reverse
loop, and the map `res`. -/
def rad {α : Type} [Field α] (m : Libm α) (e : Evaluator) (h : Heap α) :
    Option (List (LeafPtr × α)) :=
  (_evaluate m e h (List.replicate e.n_operators none)).bind fun values =>
  (writeSlot (List.replicate e.n_operators none) ((e.n_operators : Int) - 1) (some 1)).bind
    fun ders =>
  (rad_loop m e h values e.n_operators
    { ders := ders, der1 := none, der2 := none, res := [] }).bind fun s =>
  some s.res

/-- What the constructor reads of its argument `ExpressionBase* expr`: the answer of
`is_leaf()`, and for a composite `Expression` its members `num_operators`, `num_leaves`,
`operators`, `args1`, `args2` and `leaves`. -/
inductive ExpressionBase where
  | leaf (p : LeafPtr)
  | expression (num_operators num_leaves : Nat) (operators : List Oper)
      (args1 args2 : List Int) (leaves : List LeafPtr)

/-- A copy loop `for (int i=0; i<k; ++i) dst[i] = src[i]` into fresh storage. -/
def copyLoop {β : Type} (src : List β) : Nat → Option (List β)
  | 0 => some []
  | k + 1 => (copyLoop src k).bind fun dst => (src[k]?).bind fun x => some (dst ++ [x])

/-- The leaf loop of the constructor (lines 38-47): copies `k` leaf pointers and adds one
to the `refcount` of each one that answers `is_float()`. -/
def captureLoop {α : Type} (src : List LeafPtr) :
    Nat → Heap α → Option (List LeafPtr × Heap α)
  | 0, h => some ([], h)
  | k + 1, h =>
    (captureLoop src k h).bind fun r =>
    (src[k]?).bind fun leaf =>
    (r.2 leaf).bind fun o =>
    some (r.1 ++ [leaf],
      if o.is_float then
        Function.update r.2 leaf (some { o with refcount := o.refcount + 1 })
      else r.2)

/-- The constructor `Evaluator::Evaluator(ExpressionBase* expr)`: the new object and the
heap after construction. -/
def Evaluator.ctor {α : Type} (expr : ExpressionBase) (h : Heap α) :
    Option (Evaluator × Heap α) :=
  match expr with
  | ExpressionBase.leaf leaf =>
    (h leaf).bind fun _ =>
    some ({ n_operators := 1, n_leaves := 1, operators := [Oper.VALUE],
            arg1_indices := [0], arg2_indices := [0], leaves := [leaf] }, h)
  | ExpressionBase.expression num_operators num_leaves operators args1 args2 leaves =>
    (copyLoop operators num_operators).bind fun ops =>
    (copyLoop args1 num_operators).bind fun a1 =>
    (copyLoop args2 num_operators).bind fun a2 =>
    (captureLoop leaves num_leaves h).bind fun r =>
    some ({ n_operators := num_operators, n_leaves := num_leaves, operators := ops,
            arg1_indices := a1, arg2_indices := a2, leaves := r.1 }, r.2)

/-- The leaf loop of the destructor (lines 56-68) for indices `0 .. k-1`: subtracts one
from the `refcount` of each leaf that answers `is_float()` and deletes the leaf when the
count has become zero. -/
def destroyLoop {α : Type} (e : Evaluator) : Nat → Heap α → Option (Heap α)
  | 0, h => some h
  | k + 1, h =>
    (destroyLoop e k h).bind fun h1 =>
    (e.leaves[k]?).bind fun leaf =>
    (h1 leaf).bind fun o =>
    if o.is_float then
      if o.refcount - 1 = 0 then some (Function.update h1 leaf none)
      else some (Function.update h1 leaf (some { o with refcount := o.refcount - 1 }))
    else some h1

/-- The destructor `Evaluator::~Evaluator()`: the heap after destruction. -/
def Evaluator.dtor {α : Type} (e : Evaluator) (h : Heap α) : Option (Heap α) :=
  destroyLoop e e.n_leaves h

/-! ## Tape invariants and the recursive value of an operation -/

/-- Whether an operator code is one of the six enumerators. -/
def Oper.isDefined : Oper → Bool
  | Oper.UNDEFINED _ => false
  | _ => true

/-- The parallel arrays have the allocated lengths `n_operators` and `n_leaves`. -/
def Evaluator.arraysOk (e : Evaluator) : Prop :=
  e.operators.length = e.n_operators ∧ e.arg1_indices.length = e.n_operators ∧
  e.arg2_indices.length = e.n_operators ∧ e.leaves.length = e.n_leaves

/-- A reference of operation `i` is in range: a leaf reference lies in `[0, n_leaves)`, a
back-reference decodes to an operation index below `i`. -/
def refOk (e : Evaluator) (i : Nat) (a : Int) : Prop :=
  if 0 ≤ a then a < e.n_leaves else _arg_ndx_to_operator_ndx a < i

/-- Every reference of every operation is in range (no forward references). -/
def Evaluator.refsOk (e : Evaluator) : Prop :=
  ∀ i, i < e.n_operators →
    refOk e i (e.arg1_indices.getD i 0) ∧ refOk e i (e.arg2_indices.getD i 0)

/-- Every operator code of the tape is one of the six enumerators. -/
def Evaluator.opsDefined (e : Evaluator) : Prop :=
  ∀ oper, oper ∈ e.operators → oper.isDefined = true

/-- Every pointer in the leaves array points to a live leaf. -/
def leavesLive {α : Type} (e : Evaluator) (h : Heap α) : Prop :=
  ∀ p, p ∈ e.leaves → (h p).isSome = true

instance (e : Evaluator) : Decidable e.arraysOk := by
  unfold Evaluator.arraysOk; infer_instance

instance (e : Evaluator) (i : Nat) (a : Int) : Decidable (refOk e i a) := by
  unfold refOk; infer_instance

instance (e : Evaluator) : Decidable e.refsOk := by
  unfold Evaluator.refsOk; infer_instance

instance (e : Evaluator) : Decidable e.opsDefined := by
  unfold Evaluator.opsDefined; infer_instance

instance {α : Type} (e : Evaluator) (h : Heap α) : Decidable (leavesLive e h) := by
  unfold leavesLive; infer_instance

/-- The result of one operator applied to two operand values, in the words of the
specification: sum, difference, product, quotient, power, first operand. -/
def applyOper {α : Type} [Field α] (m : Libm α) (oper : Oper) (val1 val2 : α) : Option α :=
  match oper with
  | Oper.ADD => some (val1 + val2)
  | Oper.SUBTRACT => some (val1 - val2)
  | Oper.MULTIPLY => some (val1 * val2)
  | Oper.DIVIDE => some (val1 / val2)
  | Oper.POWER => some (m.pow val1 val2)
  | Oper.VALUE => some val1
  | Oper.UNDEFINED _ => none

/-- The value of operation `i`, defined recursively over the tape: the operator applied
to its two resolved operands, where a reference `>= 0` resolves to the current value of
that leaf and a reference `< 0` to the value of the earlier operation it names. -/
def opValue {α : Type} [Field α] (m : Libm α) (e : Evaluator) (h : Heap α) (i : Nat) :
    Option α :=
  match e.operators[i]?, e.arg1_indices[i]?, e.arg2_indices[i]? with
  | some oper, some a1, some a2 =>
    let r1 : Option α :=
      if 0 ≤ a1 then leafValue e h a1
      else if _ : (-a1 - 1).toNat < i then opValue m e h (-a1 - 1).toNat else none
    let r2 : Option α :=
      if 0 ≤ a2 then leafValue e h a2
      else if _ : (-a2 - 1).toNat < i then opValue m e h (-a2 - 1).toNat else none
    r1.bind fun val1 => r2.bind fun val2 => applyOper m oper val1 val2
  | _, _, _ => none
termination_by i

/-! ## Test inputs -/

/-- The tape of the single operation `oper(a, b)` over the leaves array `[a, b]`. -/
def binaryTape (oper : Oper) (a b : LeafPtr) : Evaluator :=
  { n_operators := 1, n_leaves := 2, operators := [oper], arg1_indices := [0],
    arg2_indices := [1], leaves := [a, b] }

/-- The tape of the single operation `oper(a, a)` over the leaves array `[a]`. -/
def squareTape (oper : Oper) (a : LeafPtr) : Evaluator :=
  { n_operators := 1, n_leaves := 1, operators := [oper], arg1_indices := [0],
    arg2_indices := [0], leaves := [a] }

/-- The tape of `g = x^2 + y^2`: `op0 = POWER(x, c)`, `op1 = POWER(y, c)`,
`op2 = ADD(op0, op1)` over the leaves array `[x, y, c]`. -/
def sumSquaresTape (x y c : LeafPtr) : Evaluator :=
  { n_operators := 3, n_leaves := 3, operators := [Oper.POWER, Oper.POWER, Oper.ADD],
    arg1_indices := [0, 1, -1], arg2_indices := [2, 2, -2], leaves := [x, y, c] }

/-- The tape `op0 = ADD(a, b)`, `op1 = MULTIPLY(op0, op0)` over the leaves array `[a, b]`:
the result of `op0` is used by both operand slots of `op1`. -/
def sharedTape (a b : LeafPtr) : Evaluator :=
  { n_operators := 2, n_leaves := 2, operators := [Oper.ADD, Oper.MULTIPLY],
    arg1_indices := [0, -1], arg2_indices := [1, -1], leaves := [a, b] }

/-- The assignment `leaf->value = t` on the leaf at address `p`. -/
def setValue {α : Type} (h : Heap α) (p : LeafPtr) (t : α) : Heap α := fun q =>
  if q = p then (h q).map fun l => { l with value := t } else h q

/-- A math library for the rationals, for test inputs that do not use `POWER`. -/
def ratLibm : Libm ℚ := { pow := fun _ _ => 0, log := fun _ => 0 }

/-- A test heap: a variable at address 10 and a constant with reference count 1 at
address 11. -/
def heap2 {α : Type} (va vb : α) : Heap α := fun p =>
  if p = 10 then some { value := va, is_float := false, refcount := 0 }
  else if p = 11 then some { value := vb, is_float := true, refcount := 1 }
  else none

/-- A test heap: variables at addresses 10 and 11 and a constant with reference count 1
at address 12. -/
def heap3 {α : Type} (vx vy vc : α) : Heap α := fun p =>
  if p = 10 then some { value := vx, is_float := false, refcount := 0 }
  else if p = 11 then some { value := vy, is_float := false, refcount := 0 }
  else if p = 12 then some { value := vc, is_float := true, refcount := 1 }
  else none

/-! ## Observation of the reverse pass -/

/-- The first `c` iterations of the loop of `rad` on a tape of `n` operations: the
iterations for the indices `n-1, n-2, .., n-c`, in this order. -/
def rad_iter {α : Type} [Field α] (m : Libm α) (e : Evaluator) (h : Heap α)
    (values : List (Option α)) (n : Nat) : Nat → RadState α → Option (RadState α)
  | 0, s => some s
  | c + 1, s => (rad_iter m e h values n c s).bind (rad_step m e h values (n - 1 - c))

/-- The locals of `rad()` right after the loop iteration for index `i`. -/
def radStateAfter {α : Type} [Field α] (m : Libm α) (e : Evaluator) (h : Heap α)
    (i : Nat) : Option (RadState α) :=
  (_evaluate m e h (List.replicate e.n_operators none)).bind fun values =>
  (writeSlot (List.replicate e.n_operators none) ((e.n_operators : Int) - 1) (some 1)).bind
    fun ders =>
  rad_iter m e h values e.n_operators (e.n_operators - i)
    { ders := ders, der1 := none, der2 := none, res := [] }

/-- Whether the operand reference `a` is a reference to the leaf `L`. -/
def slotRefs (e : Evaluator) (L : LeafPtr) (a : Int) : Bool :=
  decide (leafAt e a = some L)

/-- The sum of the local contributions that the two operand slots of operation `i` make
to the leaf `L`, read off the locals `st` right after iteration `i`: `der1` when `arg1`
references `L`, plus `der2` when `arg2` references `L`. -/
def contributionOf {α : Type} [Field α] (e : Evaluator) (L : LeafPtr) (i : Nat)
    (st : Option (RadState α)) : α :=
  match st with
  | some s =>
    (if slotRefs e L (e.arg1_indices.getD i 0) then s.der1.getD 0 else 0) +
    (if slotRefs e L (e.arg2_indices.getD i 0) then s.der2.getD 0 else 0)
  | none => 0

/-- The local contributions to the leaf `L` computed at operation `i` by `rad()`. -/
def slotContribution {α : Type} [Field α] (m : Libm α) (e : Evaluator) (h : Heap α)
    (L : LeafPtr) (i : Nat) : α :=
  contributionOf e L i (radStateAfter m e h i)

/-- Whether some operand slot of operation `i` references the leaf `L`. -/
def opRefs (e : Evaluator) (L : LeafPtr) (i : Nat) : Bool :=
  slotRefs e L (e.arg1_indices.getD i 0) || slotRefs e L (e.arg2_indices.getD i 0)

/-- The tape of `a*a + a`: `op0 = MULTIPLY(a, a)`, `op1 = ADD(op0, a)` over the leaves
array `[a]`; the leaf is referenced by three operand slots. -/
def squarePlusTape (a : LeafPtr) : Evaluator :=
  { n_operators := 2, n_leaves := 1, operators := [Oper.MULTIPLY, Oper.ADD],
    arg1_indices := [0, -1], arg2_indices := [0, 0], leaves := [a] }

/-- A test heap: a variable at address 10 and a constant at address 11 that no tape has
captured yet (reference count 0). -/
def heapFresh {α : Type} (va vb : α) : Heap α := fun p =>
  if p = 10 then some { value := va, is_float := false, refcount := 0 }
  else if p = 11 then some { value := vb, is_float := true, refcount := 0 }
  else none

/-- A composite expression for `a * b` over the leaves array `[10, 11]`. -/
def productExpr : ExpressionBase :=
  ExpressionBase.expression 1 2 [Oper.MULTIPLY] [0] [1] [10, 11]

/-! ## Single-consumer tapes and the tangent of an operation -/

/-- Whether the operand reference `a` is a back-reference to operation `j`. -/
def backRef (a : Int) (j : Nat) : Bool :=
  decide (a < 0 ∧ _arg_ndx_to_operator_ndx a = (j : Int))

/-- Whether some operand slot of operation `i` references the result of operation `j`. -/
def usedBy (e : Evaluator) (j i : Nat) : Bool :=
  backRef (e.arg1_indices.getD i 0) j || backRef (e.arg2_indices.getD i 0) j

/-- Every non-final operation is referenced by some operation. -/
def Evaluator.everyOpUsed (e : Evaluator) : Prop :=
  ∀ j, j < e.n_operators - 1 → ∃ i, i < e.n_operators ∧ usedBy e j i = true

/-- The result of every non-final operation is referenced by exactly one operand slot of
exactly one operation. -/
def Evaluator.singleConsumer (e : Evaluator) : Prop :=
  ∀ j, j < e.n_operators - 1 →
    (∃ i, i < e.n_operators ∧ usedBy e j i = true) ∧
    (∀ i, i < e.n_operators →
      ¬ (backRef (e.arg1_indices.getD i 0) j = true ∧
         backRef (e.arg2_indices.getD i 0) j = true)) ∧
    (∀ i, i < e.n_operators → ∀ i', i' < e.n_operators →
      usedBy e j i = true → usedBy e j i' = true → i = i')

/-- Every operator code is one of `ADD`, `SUBTRACT`, `MULTIPLY`, `DIVIDE`, `VALUE`. -/
def Evaluator.arithOnly (e : Evaluator) : Prop :=
  ∀ oper, oper ∈ e.operators →
    oper = Oper.ADD ∨ oper = Oper.SUBTRACT ∨ oper = Oper.MULTIPLY ∨ oper = Oper.DIVIDE ∨
      oper = Oper.VALUE

instance (e : Evaluator) : Decidable e.everyOpUsed := by
  unfold Evaluator.everyOpUsed; infer_instance

instance (e : Evaluator) : Decidable e.singleConsumer := by
  unfold Evaluator.singleConsumer; infer_instance

instance (e : Evaluator) : Decidable e.arithOnly := by
  unfold Evaluator.arithOnly; infer_instance

/-- The value an operand reference resolves to: the current value of the leaf, or the
recursive value of the operation it names. -/
def argVal {α : Type} [Field α] (m : Libm α) (e : Evaluator) (h : Heap α) (a : Int) : α :=
  if 0 ≤ a then (leafValue e h a).getD 0
  else (opValue m e h (_arg_ndx_to_operator_ndx a).toNat).getD 0

/-- No `DIVIDE` operation of the tape has a divisor equal to zero. -/
def divisorsNonzero {α : Type} [Field α] (m : Libm α) (e : Evaluator) (h : Heap α) : Prop :=
  ∀ i, i < e.n_operators → e.operators.getD i Oper.VALUE = Oper.DIVIDE →
    argVal m e h (e.arg2_indices.getD i 0) ≠ 0

/-- The local derivatives of an operator with respect to its first and second operand, at
operand values `v1`, `v2`: `ADD: 1, 1`; `SUBTRACT: 1, -1`; `VALUE: 1, 0`;
`MULTIPLY: v2, v1`; `DIVIDE: 1/v2, -v1/v2^2`; `POWER: v2*v1^(v2-1), v1^v2*ln(v1)`. -/
def localDer {α : Type} [Field α] (m : Libm α) (oper : Oper) (v1 v2 : α) : α × α :=
  match oper with
  | Oper.ADD => (1, 1)
  | Oper.SUBTRACT => (1, -1)
  | Oper.VALUE => (1, 0)
  | Oper.MULTIPLY => (v2, v1)
  | Oper.DIVIDE => (1 / v2, -v1 / (v2 * v2))
  | Oper.POWER => (v2 * m.pow v1 (v2 - 1), m.pow v1 v2 * m.log v1)
  | Oper.UNDEFINED _ => (0, 0)

/-- The forward-mode (tangent) derivative of the value of operation `i` with respect to
the leaf `L`, by the chain rule over the tape: the local derivative at each operand times
the tangent of that operand, where a reference to `L` has tangent 1, a reference to
another leaf has tangent 0, and a back-reference has the tangent of the operation it
names. -/
def opTangent {α : Type} [Field α] (m : Libm α) (e : Evaluator) (h : Heap α) (L : LeafPtr)
    (i : Nat) : α :=
  match e.operators[i]?, e.arg1_indices[i]?, e.arg2_indices[i]? with
  | some oper, some a1, some a2 =>
    let t1 : α :=
      if 0 ≤ a1 then (if leafAt e a1 = some L then 1 else 0)
      else if _ : (-a1 - 1).toNat < i then opTangent m e h L (-a1 - 1).toNat else 0
    let t2 : α :=
      if 0 ≤ a2 then (if leafAt e a2 = some L then 1 else 0)
      else if _ : (-a2 - 1).toNat < i then opTangent m e h L (-a2 - 1).toNat else 0
    (localDer m oper (argVal m e h a1) (argVal m e h a2)).1 * t1 +
    (localDer m oper (argVal m e h a1) (argVal m e h a2)).2 * t2
  | _, _, _ => 0
termination_by i

/-- The tangent of an operand reference of a well-formed tape. -/
def argTangent {α : Type} [Field α] (m : Libm α) (e : Evaluator) (h : Heap α) (L : LeafPtr)
    (a : Int) : α :=
  if 0 ≤ a then (if leafAt e a = some L then 1 else 0)
  else opTangent m e h L (_arg_ndx_to_operator_ndx a).toNat

/-- The map returned by `rad()` is the gradient of the tape output: every live leaf `L`
that some operand slot references has an entry, and the entry is the derivative, at the
current value of `L`, of `evaluate()` as a function of the value of `L`. -/
def radIsGradient (m : Libm ℝ) (e : Evaluator) (h : Heap ℝ) : Prop :=
  ∃ res, rad m e h = some res ∧
    ∀ L l, h L = some l → (∃ i, i < e.n_operators ∧ opRefs e L i = true) →
      ∃ d, mapFind res L = some d ∧
        HasDerivAt (fun t => (evaluate m e (setValue h L t)).getD 0) d l.value

/-- The tape of `(a - b) / b + a`: `op0 = SUBTRACT(a, b)`, `op1 = DIVIDE(op0, b)`,
`op2 = ADD(op1, a)` over the leaves array `[a, b]`; every intermediate result has a
single consumer. -/
def chainTape (a b : LeafPtr) : Evaluator :=
  { n_operators := 3, n_leaves := 2, operators := [Oper.SUBTRACT, Oper.DIVIDE, Oper.ADD],
    arg1_indices := [0, -1, -2], arg2_indices := [1, 1, 0], leaves := [a, b] }

/-- The content of the adjoint slot `j`, read as 0 when the slot is unwritten. -/
def dersVal {α : Type} [Field α] (ders : List (Option α)) (j : Nat) : α :=
  ((ders[j]?).join).getD 0

/-- Whether the adjoint slot `j` has been written. -/
def isWritten {α : Type} (ders : List (Option α)) (j : Nat) : Bool :=
  ((ders[j]?).join).isSome

/-- Loop invariant of the reverse pass before the iteration for index `k - 1`: the
adjoint array has its allocated length; a slot below `k` is written exactly when it is
the last one or its consumer has been processed; and the entry of `L` plus the pending
adjoints weighted by the tangents of their operations is the tangent of the output. -/
def radInv {α : Type} [Field α] (m : Libm α) (e : Evaluator) (h : Heap α) (L : LeafPtr)
    (k : Nat) (s : RadState α) : Prop :=
  s.ders.length = e.n_operators ∧
  (∀ j, j < k → (isWritten s.ders j = true ↔
    (j + 1 = e.n_operators ∨ ∃ i, k ≤ i ∧ i < e.n_operators ∧ usedBy e j i = true))) ∧
  (mapFind s.res L).getD 0 + ∑ j in Finset.range k, dersVal s.ders j * opTangent m e h L j =
    opTangent m e h L (e.n_operators - 1)

/-! ## The solver adapter `aml_tnlp.cpp`: data model -/

/-- Address of a `Var` object (`std::shared_ptr<Var>`). -/
abbrev VarPtr := Nat

/-- Address of a `Constraint` object (`std::shared_ptr<Constraint>`). -/
abbrev ConPtr := Nat

/-- Address of an objective object. -/
abbrev ObjPtr := Nat

/-- The members of `Var` that `aml_tnlp.cpp` reads or writes (the class is declared in a
header outside the sources). -/
structure Var (α : Type) where
  value : α
  lb : α
  ub : α
  lb_dual : α
  ub_dual : α
  index : Int

/-- The members of `Constraint` that the embedded adapter functions read or write, with
the vector returned by `get_vars()` as the field `vars`. -/
structure Constraint (α : Type) where
  lb : α
  ub : α
  dual : α
  index : Int
  vars : List VarPtr

/-- The innermost value of `hessian_map`, a map from the strings `"obj"` and `"cons"` to
vectors of pointers; an absent string key and an empty vector are not distinguished. -/
structure HessCell where
  obj : List ObjPtr
  cons : List ConPtr

/-- One row of `hessian_map`: the column variables in iteration order, each with its
cell. -/
abbrev HessRow := List (VarPtr × HessCell)

/-- The member `hessian_map`, a `std::map` keyed by variable pointers whose values are
`std::map`s keyed by variable pointers: the rows in iteration order. -/
abbrev HessMap := List (VarPtr × HessRow)

/-- The outcome codes `status` of the solver, type `Ipopt::SolverReturn`: the twelve
enumerators that `finalize_solution` tests, and `OTHER code` for every other value. -/
inductive SolverReturn where
  | SUCCESS
  | MAXITER_EXCEEDED
  | CPUTIME_EXCEEDED
  | STOP_AT_TINY_STEP
  | STOP_AT_ACCEPTABLE_POINT
  | LOCAL_INFEASIBILITY
  | USER_REQUESTED_STOP
  | DIVERGING_ITERATES
  | RESTORATION_FAILURE
  | ERROR_IN_STEP_COMPUTATION
  | INVALID_NUMBER_DETECTED
  | INTERNAL_ERROR
  | OTHER (code : Int)
  deriving DecidableEq

/-- The type `TNLP::IndexStyleEnum`. -/
inductive IndexStyleEnum where
  | C_STYLE
  | FORTRAN_STYLE
  deriving DecidableEq

/-- The members of `IpoptModel` that `aml_tnlp.cpp` uses, the two object stores that its
shared pointers point into, and the state `cache` of the expression layer (whatever
`evaluate()` stores for `ad` and `ad2`). -/
structure IpoptModel (α σ : Type) where
  vars : List VarPtr
  cons : List ConPtr
  vars_vector : List VarPtr
  cons_vector : List ConPtr
  hessian_map : HessMap
  hessian_vector_var1 : List VarPtr
  hessian_vector_var2 : List VarPtr
  solver_status : String
  var : VarPtr → Var α
  con : ConPtr → Constraint α
  cache : σ

/-- The methods of the objective and constraint classes that the adapter calls and whose
code is outside the sources; they are parameters of the embedding. `evaluate()` updates
the state of the expression layer from the current variable values; `ad(var, false)` and
`ad2(var1, var2, false)` read it. -/
structure ExprLayer (α σ : Type) where
  obj_evaluate : (VarPtr → Var α) → σ → σ
  con_evaluate : ConPtr → (VarPtr → Var α) → σ → σ
  con_ad : σ → (VarPtr → Var α) → ConPtr → VarPtr → α
  obj_ad2 : σ → (VarPtr → Var α) → ObjPtr → VarPtr → VarPtr → α
  con_ad2 : σ → (VarPtr → Var α) → ConPtr → VarPtr → VarPtr → α

/-- The output references of `get_nlp_info`. -/
structure NlpInfo where
  n : Int
  m : Int
  nnz_jac_g : Int
  nnz_h_lag : Int
  index_style : IndexStyleEnum

/-- Read `a[k]` of a solver array at a C `int` index: `none` outside the array. -/
def readArr {β : Type} (a : List β) (k : Int) : Option β :=
  if 0 ≤ k then a[k.toNat]? else none

/-- Write `a[i] = x` into a solver array: `none` outside the array. -/
def writeArr {β : Type} (a : List β) (i : Nat) (x : β) : Option (List β) :=
  if i < a.length then some (a.set i x) else none

/-! ## The solver adapter: `get_nlp_info` and `get_bounds_info` -/

/-- The loop over `cons` of `get_nlp_info` (lines 26-32), on the locals `nnz_jac_g` and
`_con_ndx`, the vector `cons_vector` and the constraint objects. -/
def nlp_cons_loop {α : Type} :
    List ConPtr → Int → Int → List ConPtr → (ConPtr → Constraint α) →
      Int × Int × List ConPtr × (ConPtr → Constraint α)
  | [], nnz, ndx, cv, con => (nnz, ndx, cv, con)
  | p :: ps, nnz, ndx, cv, con =>
    nlp_cons_loop ps (nnz + ((con p).vars.length : Int)) (ndx + 1) (cv ++ [p])
      (Function.update con p { con p with index := ndx })

/-- The loop over `vars` of `get_nlp_info` (lines 33-38). -/
def nlp_vars_loop {α : Type} :
    List VarPtr → Int → List VarPtr → (VarPtr → Var α) →
      Int × List VarPtr × (VarPtr → Var α)
  | [], ndx, vv, var => (ndx, vv, var)
  | p :: ps, ndx, vv, var =>
    nlp_vars_loop ps (ndx + 1) (vv ++ [p]) (Function.update var p { var p with index := ndx })

/-- The inner loop over the columns of one row of `hessian_map` in `get_nlp_info` (lines
42-49); a failing `assert` ends the program (`none`). -/
def nlp_hess_row {α : Type} (var : VarPtr → Var α) (row : VarPtr) :
    HessRow → Int → Option Int
  | [], nnz => some nnz
  | col :: cols, nnz =>
    if (var col.1).index ≤ (var row).index then
      if col.2.cons.length > 0 ∨ col.2.obj.length > 0 then
        nlp_hess_row var row cols (nnz + 1)
      else none
    else nlp_hess_row var row cols nnz

/-- The outer loop over the rows of `hessian_map` in `get_nlp_info` (lines 40-50). -/
def nlp_hess_loop {α : Type} (var : VarPtr → Var α) : HessMap → Int → Option Int
  | [], nnz => some nnz
  | row :: rows, nnz => (nlp_hess_row var row.1 row.2 nnz).bind (nlp_hess_loop var rows)

/-- The method `AML_NLP::get_nlp_info`: the output references and the model afterwards. -/
def get_nlp_info {α σ : Type} (M : IpoptModel α σ) : Option (NlpInfo × IpoptModel α σ) :=
  let rc := nlp_cons_loop M.cons 0 0 M.cons_vector M.con
  let rv := nlp_vars_loop M.vars 0 M.vars_vector M.var
  (nlp_hess_loop rv.2.2 M.hessian_map 0).bind fun nnz_h_lag =>
  some ({ n := (M.vars.length : Int), m := (M.cons.length : Int), nnz_jac_g := rc.1,
          nnz_h_lag := nnz_h_lag, index_style := IndexStyleEnum.C_STYLE },
        { M with cons_vector := rc.2.2.1, con := rc.2.2.2, vars_vector := rv.2.1,
                 var := rv.2.2 })

/-- A loop of `get_bounds_info` (lines 61-66 with `lo = lb`, `hi = ub` of a variable, lines
69-74 for a constraint): `a_l[i] = p->lb; a_u[i] = p->ub; ++i` for each `p`. -/
def bounds_loop {α : Type} (lo hi : Nat → α) :
    List Nat → Nat → List α → List α → Option (List α × List α)
  | [], _, a_l, a_u => some (a_l, a_u)
  | p :: ps, i, a_l, a_u =>
    (writeArr a_l i (lo p)).bind fun a_l' =>
    (writeArr a_u i (hi p)).bind fun a_u' =>
    bounds_loop lo hi ps (i + 1) a_l' a_u'

/-- The method `AML_NLP::get_bounds_info`: the arrays `x_l`, `x_u`, `g_l`, `g_u` after
the call. -/
def get_bounds_info {α σ : Type} (M : IpoptModel α σ) (x_l x_u g_l g_u : List α) :
    Option ((List α × List α) × (List α × List α)) :=
  (bounds_loop (fun p => (M.var p).lb) (fun p => (M.var p).ub) M.vars_vector 0 x_l x_u).bind
    fun rx =>
  (bounds_loop (fun p => (M.con p).lb) (fun p => (M.con p).ub) M.cons_vector 0 g_l g_u).bind
    fun rg =>
  some (rx, rg)

/-! ## The solver adapter: synchronisation with the solver's point -/

/-- The loop `ptr_to_var->value = x[ptr_to_var->index]` over `vars_vector` (lines 226-229,
280-283 and in the other callbacks). -/
def sync_vars_loop {α : Type} (x : List α) :
    List VarPtr → (VarPtr → Var α) → Option (VarPtr → Var α)
  | [], var => some var
  | p :: ps, var =>
    (readArr x (var p).index).bind fun xv =>
    sync_vars_loop x ps (Function.update var p { var p with value := xv })

/-- The loop `ptr_to_con->evaluate()` over `cons_vector`. -/
def evaluate_cons_loop {α σ : Type} (L : ExprLayer α σ) (var : VarPtr → Var α) :
    List ConPtr → σ → σ
  | [], c => c
  | p :: ps, c => evaluate_cons_loop L var ps (L.con_evaluate p var c)

/-- The block executed when `new_x` is true (lines 224-235, 278-289): the variable values
are taken from `x`, then the objective and every constraint are evaluated. -/
def sync_new_x {α σ : Type} (L : ExprLayer α σ) (x : List α) (M : IpoptModel α σ) :
    Option (IpoptModel α σ) :=
  (sync_vars_loop x M.vars_vector M.var).bind fun var =>
  some { M with var := var,
                cache := evaluate_cons_loop L var M.cons_vector (L.obj_evaluate var M.cache) }

/-! ## The solver adapter: `eval_jac_g` -/

/-- The inner loop of the structure mode of `eval_jac_g` (lines 213-218) for the
constraint `c`. -/
def jac_struct_inner {α σ : Type} (M : IpoptModel α σ) (c : ConPtr) :
    List VarPtr → Nat → List Int → List Int → Option (Nat × List Int × List Int)
  | [], i, iRow, jCol => some (i, iRow, jCol)
  | v :: vs, i, iRow, jCol =>
    (writeArr iRow i (M.con c).index).bind fun iRow' =>
    (writeArr jCol i (M.var v).index).bind fun jCol' =>
    jac_struct_inner M c vs (i + 1) iRow' jCol'

/-- The outer loop of the structure mode of `eval_jac_g` (lines 210-219). -/
def jac_struct_outer {α σ : Type} (M : IpoptModel α σ) :
    List ConPtr → Nat → List Int → List Int → Option (Nat × List Int × List Int)
  | [], i, iRow, jCol => some (i, iRow, jCol)
  | c :: cs, i, iRow, jCol =>
    (jac_struct_inner M c (M.con c).vars i iRow jCol).bind fun r =>
    jac_struct_outer M cs r.1 r.2.1 r.2.2

/-- The inner loop of the value mode of `eval_jac_g` (lines 241-245) for the constraint
`c`. -/
def jac_value_inner {α σ : Type} (L : ExprLayer α σ) (M : IpoptModel α σ) (c : ConPtr) :
    List VarPtr → Nat → List α → Option (Nat × List α)
  | [], i, values => some (i, values)
  | v :: vs, i, values =>
    (writeArr values i (L.con_ad M.cache M.var c v)).bind fun values' =>
    jac_value_inner L M c vs (i + 1) values'

/-- The outer loop of the value mode of `eval_jac_g` (lines 238-246). -/
def jac_value_outer {α σ : Type} (L : ExprLayer α σ) (M : IpoptModel α σ) :
    List ConPtr → Nat → List α → Option (Nat × List α)
  | [], i, values => some (i, values)
  | c :: cs, i, values =>
    (jac_value_inner L M c (M.con c).vars i values).bind fun r =>
    jac_value_outer L M cs r.1 r.2

/-- The arrays and the model after a call of `eval_jac_g`. -/
structure JacResult (α σ : Type) where
  iRow : List Int
  jCol : List Int
  values : Option (List α)
  model : IpoptModel α σ

/-- The method `AML_NLP::eval_jac_g`; `values = none` stands for `values == NULL`. -/
def eval_jac_g {α σ : Type} (L : ExprLayer α σ) (M : IpoptModel α σ) (x : List α)
    (new_x : Bool) (iRow jCol : List Int) (values : Option (List α)) :
    Option (JacResult α σ) :=
  match values with
  | none =>
    (jac_struct_outer M M.cons_vector 0 iRow jCol).bind fun r =>
    some { iRow := r.2.1, jCol := r.2.2, values := none, model := M }
  | some vals =>
    (if new_x then sync_new_x L x M else some M).bind fun M1 =>
    (jac_value_outer L M1 M1.cons_vector 0 vals).bind fun r =>
    some { iRow := iRow, jCol := jCol, values := some r.2, model := M1 }

/-! ## The solver adapter: `eval_h` -/

/-- Lookup of a key in a `std::map` kept as an association list. -/
def lookupKey {β : Type} (k : Nat) : List (Nat × β) → Option β
  | [] => none
  | (k', v) :: r => if k' = k then some v else lookupKey k r

/-- Insertion of an absent key into a `std::map` with pointer keys, at its place in the
key order. -/
def insertKey {β : Type} (k : Nat) (v : β) : List (Nat × β) → List (Nat × β)
  | [] => [(k, v)]
  | (k', v') :: r => if k < k' then (k, v) :: (k', v') :: r else (k', v') :: insertKey k v r

/-- Replacement of the value stored under a present key. -/
def replaceKey {β : Type} (k : Nat) (v : β) : List (Nat × β) → List (Nat × β)
  | [] => []
  | (k', v') :: r => if k' = k then (k', v) :: r else (k', v') :: replaceKey k v r

/-- The expression `hessian_map[var1][var2]`: the cell found, and the map afterwards
(`operator[]` inserts an empty row or an empty cell under an absent key). -/
def cellAt (hm : HessMap) (var1 var2 : VarPtr) : HessCell × HessMap :=
  match lookupKey var1 hm with
  | some row =>
    match lookupKey var2 row with
    | some cell => (cell, hm)
    | none => ({ obj := [], cons := [] },
               replaceKey var1 (insertKey var2 { obj := [], cons := [] } row) hm)
  | none => ({ obj := [], cons := [] },
             insertKey var1 [(var2, { obj := [], cons := [] })] hm)

/-- The inner loop over the columns of one row in the structure mode of `eval_h` (lines
263-273), on the counter `i`, the arrays `iRow`, `jCol` and the two vectors
`hessian_vector_var1`, `hessian_vector_var2`. -/
def hess_struct_row {α : Type} (var : VarPtr → Var α) (row : VarPtr) :
    HessRow → Nat → List Int → List Int → List VarPtr → List VarPtr →
      Option (Nat × List Int × List Int × List VarPtr × List VarPtr)
  | [], i, iRow, jCol, hv1, hv2 => some (i, iRow, jCol, hv1, hv2)
  | col :: cols, i, iRow, jCol, hv1, hv2 =>
    if (var col.1).index ≤ (var row).index then
      (writeArr iRow i (var row).index).bind fun iRow' =>
      (writeArr jCol i (var col.1).index).bind fun jCol' =>
      hess_struct_row var row cols (i + 1) iRow' jCol' (hv1 ++ [row]) (hv2 ++ [col.1])
    else hess_struct_row var row cols i iRow jCol hv1 hv2

/-- The outer loop over the rows in the structure mode of `eval_h` (lines 261-274). -/
def hess_struct_loop {α : Type} (var : VarPtr → Var α) :
    HessMap → Nat → List Int → List Int → List VarPtr → List VarPtr →
      Option (Nat × List Int × List Int × List VarPtr × List VarPtr)
  | [], i, iRow, jCol, hv1, hv2 => some (i, iRow, jCol, hv1, hv2)
  | row :: rows, i, iRow, jCol, hv1, hv2 =>
    (hess_struct_row var row.1 row.2 i iRow jCol hv1 hv2).bind fun r =>
    hess_struct_loop var rows r.1 r.2.1 r.2.2.1 r.2.2.2.1 r.2.2.2.2

/-- The loop `ptr_to_con->dual = lambda[ptr_to_con->index]` over `cons_vector` (lines
292-295 and 383-386). -/
def dual_loop {α : Type} (lambda : List α) :
    List ConPtr → (ConPtr → Constraint α) → Option (ConPtr → Constraint α)
  | [], con => some con
  | p :: ps, con =>
    (readArr lambda (con p).index).bind fun d =>
    dual_loop lambda ps (Function.update con p { con p with dual := d })

/-- The statement `values[i] += d`. -/
def addAt {α : Type} [Field α] (values : List α) (i : Nat) (d : α) : Option (List α) :=
  (values[i]?).bind fun old => writeArr values i (old + d)

/-- The loop over the objectives of a cell in the value mode of `eval_h` (lines
303-306). -/
def hess_obj_loop {α σ : Type} [Field α] (L : ExprLayer α σ) (M : IpoptModel α σ)
    (obj_factor : α) (var1 var2 : VarPtr) (i : Nat) : List ObjPtr → List α → Option (List α)
  | [], values => some values
  | o :: os, values =>
    (addAt values i (obj_factor * L.obj_ad2 M.cache M.var o var1 var2)).bind
      (hess_obj_loop L M obj_factor var1 var2 i os)

/-- The loop over the constraints of a cell in the value mode of `eval_h` (lines
307-310). -/
def hess_con_loop {α σ : Type} [Field α] (L : ExprLayer α σ) (M : IpoptModel α σ)
    (lambda : List α) (var1 var2 : VarPtr) (i : Nat) : List ConPtr → List α → Option (List α)
  | [], values => some values
  | c :: cs, values =>
    (readArr lambda (M.con c).index).bind fun l =>
    (addAt values i (l * L.con_ad2 M.cache M.var c var1 var2)).bind
      (hess_con_loop L M lambda var1 var2 i cs)

/-- The loop over `hessian_vector_var1` in the value mode of `eval_h` (lines 299-312), on
the counter `i`, the map `hessian_map` and the array `values`. -/
def hess_value_loop {α σ : Type} [Field α] (L : ExprLayer α σ) (M : IpoptModel α σ)
    (obj_factor : α) (lambda : List α) :
    List VarPtr → Nat → HessMap → List α → Option (HessMap × List α)
  | [], _, hm, values => some (hm, values)
  | var1 :: rest, i, hm, values =>
    (M.hessian_vector_var2[i]?).bind fun var2 =>
    (writeArr values i 0).bind fun values0 =>
    (hess_obj_loop L M obj_factor var1 var2 i (cellAt hm var1 var2).1.obj values0).bind
      fun values1 =>
    (hess_con_loop L M lambda var1 var2 i
      (cellAt (cellAt hm var1 var2).2 var1 var2).1.cons values1).bind fun values2 =>
    hess_value_loop L M obj_factor lambda rest (i + 1)
      (cellAt (cellAt hm var1 var2).2 var1 var2).2 values2

/-- The arrays and the model after a call of `eval_h`. -/
structure HessResult (α σ : Type) where
  iRow : List Int
  jCol : List Int
  values : Option (List α)
  model : IpoptModel α σ

/-- The method `AML_NLP::eval_h`; `values = none` stands for `values == NULL`. -/
def eval_h {α σ : Type} [Field α] (L : ExprLayer α σ) (M : IpoptModel α σ) (x : List α)
    (new_x : Bool) (obj_factor : α) (lambda : List α) (new_lambda : Bool)
    (iRow jCol : List Int) (values : Option (List α)) : Option (HessResult α σ) :=
  match values with
  | none =>
    (hess_struct_loop M.var M.hessian_map 0 iRow jCol M.hessian_vector_var1
      M.hessian_vector_var2).bind fun r =>
    some { iRow := r.2.1, jCol := r.2.2.1, values := none,
           model := { M with hessian_vector_var1 := r.2.2.2.1,
                             hessian_vector_var2 := r.2.2.2.2 } }
  | some vals =>
    (if new_x then sync_new_x L x M else some M).bind fun M1 =>
    (if new_lambda then
      (dual_loop lambda M1.cons_vector M1.con).bind fun con => some { M1 with con := con }
     else some M1).bind fun M2 =>
    (hess_value_loop L M2 obj_factor lambda M2.hessian_vector_var1 0 M2.hessian_map vals).bind
      fun r =>
    some { iRow := iRow, jCol := jCol, values := some r.2,
           model := { M2 with hessian_map := r.1 } }

/-! ## The solver adapter: `finalize_solution` -/

/-- The chain of comparisons of `finalize_solution` (lines 323-374), one `if` for each
`status == ...` test in the order of the code and the final `else`: the string assigned
to `solver_status`. -/
def solver_status_of (status : SolverReturn) : String :=
  if status = SolverReturn.SUCCESS then "SUCCESS"
  else if status = SolverReturn.MAXITER_EXCEEDED then "MAXITER_EXCEEDED"
  else if status = SolverReturn.CPUTIME_EXCEEDED then "CPUTIME_EXCEEDED"
  else if status = SolverReturn.STOP_AT_TINY_STEP then "STOP_AT_TINY_STEP"
  else if status = SolverReturn.STOP_AT_ACCEPTABLE_POINT then "STOP_AT_ACCEPTABLE_POINT"
  else if status = SolverReturn.LOCAL_INFEASIBILITY then "LOCAL_INFEASIBILITY"
  else if status = SolverReturn.USER_REQUESTED_STOP then "USER_REQUESTED_STOP"
  else if status = SolverReturn.DIVERGING_ITERATES then "DIVERGING_ITERATES"
  else if status = SolverReturn.RESTORATION_FAILURE then "RESTORATION_FAILURE"
  else if status = SolverReturn.ERROR_IN_STEP_COMPUTATION then "ERROR_IN_STEP_COMPUTATION"
  else if status = SolverReturn.INVALID_NUMBER_DETECTED then "INVALID_NUMBER_DETECTED"
  else if status = SolverReturn.INTERNAL_ERROR then "INTERNAL_ERROR"
  else "UNKNOWN"

/-- The loop over `vars_vector` of `finalize_solution` (lines 376-381). -/
def finalize_vars_loop {α : Type} (x z_L z_U : List α) :
    List VarPtr → (VarPtr → Var α) → Option (VarPtr → Var α)
  | [], var => some var
  | p :: ps, var =>
    (readArr x (var p).index).bind fun xv =>
    (readArr z_L (var p).index).bind fun zl =>
    (readArr z_U (var p).index).bind fun zu =>
    finalize_vars_loop x z_L z_U ps
      (Function.update var p { var p with value := xv, lb_dual := zl, ub_dual := zu })

/-- The method `AML_NLP::finalize_solution`: the model afterwards. The arguments `n`,
`m`, `g`, `obj_value`, `ip_data` and `ip_cq` are not used by the body. -/
def finalize_solution {α σ : Type} (M : IpoptModel α σ) (status : SolverReturn)
    (x z_L z_U lambda : List α) : Option (IpoptModel α σ) :=
  (finalize_vars_loop x z_L z_U M.vars_vector M.var).bind fun var =>
  (dual_loop lambda M.cons_vector M.con).bind fun con =>
  some { M with solver_status := solver_status_of status, var := var, con := con,
                vars_vector := [], cons_vector := [], hessian_vector_var1 := [],
                hessian_vector_var2 := [] }

/-- The twelve outcome codes that `finalize_solution` compares `status` with. -/
def recognisedCodes : List SolverReturn :=
  [SolverReturn.SUCCESS, SolverReturn.MAXITER_EXCEEDED, SolverReturn.CPUTIME_EXCEEDED,
   SolverReturn.STOP_AT_TINY_STEP, SolverReturn.STOP_AT_ACCEPTABLE_POINT,
   SolverReturn.LOCAL_INFEASIBILITY, SolverReturn.USER_REQUESTED_STOP,
   SolverReturn.DIVERGING_ITERATES, SolverReturn.RESTORATION_FAILURE,
   SolverReturn.ERROR_IN_STEP_COMPUTATION, SolverReturn.INVALID_NUMBER_DETECTED,
   SolverReturn.INTERNAL_ERROR]

/-- The member `solver_status` of the model after a call of `finalize_solution`; `none`
when the call does not return. -/
def solver_status_after {α σ : Type} (M : IpoptModel α σ) (status : SolverReturn)
    (x z_L z_U lambda : List α) : Option String :=
  (finalize_solution M status x z_L z_U lambda).map fun M' => M'.solver_status

/-! ## The solver adapter: enumeration orders -/

/-- The (constraint, variable) pairs visited by the nested loops of `eval_jac_g`: the
constraints in the given order and, within each constraint, its variables in `get_vars()`
order. -/
def jacSlotsOf {α : Type} (con : ConPtr → Constraint α) :
    List ConPtr → List (ConPtr × VarPtr)
  | [] => []
  | c :: cs => (con c).vars.map (fun v => (c, v)) ++ jacSlotsOf con cs

/-- The (constraint, variable) pairs of the model's Jacobian, in `cons_vector` order. -/
def jacSlots {α σ : Type} (M : IpoptModel α σ) : List (ConPtr × VarPtr) :=
  jacSlotsOf M.con M.cons_vector

/-- The entries of one row of `hessian_map` whose column variable index is `<=` the row
variable index, in iteration order. -/
def hessRowEntries {α : Type} (var : VarPtr → Var α) (row : VarPtr) :
    HessRow → List (VarPtr × VarPtr × HessCell)
  | [] => []
  | col :: cols =>
    if (var col.1).index ≤ (var row).index then
      (row, col.1, col.2) :: hessRowEntries var row cols
    else hessRowEntries var row cols

/-- The entries (row variable, column variable, cell) of `hessian_map` whose column
variable index is `<=` the row variable index, in iteration order. -/
def hessEntries {α : Type} (var : VarPtr → Var α) :
    HessMap → List (VarPtr × VarPtr × HessCell)
  | [] => []
  | row :: rows => hessRowEntries var row.1 row.2 ++ hessEntries var rows

/-- Every cell of `hessian_map` lists an objective or a constraint (the condition of the
`assert` in `get_nlp_info`). -/
def cellsNonempty (hm : HessMap) : Prop :=
  ∀ row, row ∈ hm → ∀ col, col ∈ row.2 → col.2.cons.length > 0 ∨ col.2.obj.length > 0

instance (hm : HessMap) : Decidable (cellsNonempty hm) := by
  unfold cellsNonempty; infer_instance

/-- The keys of a `std::map` are pairwise distinct. -/
def keysNodup {β : Type} (l : List (Nat × β)) : Prop :=
  (l.map Prod.fst).Nodup

/-- The row keys of `hessian_map` are pairwise distinct, and so are the column keys of
every row (`hessian_map` is a `std::map` of `std::map`s). -/
def hessKeysOk (hm : HessMap) : Prop :=
  keysNodup hm ∧ ∀ row, row ∈ hm → keysNodup row.2

instance {β : Type} (l : List (Nat × β)) : Decidable (keysNodup l) := by
  unfold keysNodup; infer_instance

instance (hm : HessMap) : Decidable (hessKeysOk hm) := by
  unfold hessKeysOk; infer_instance

/-- Every constraint listed in a cell of `hessian_map` is one of the constraints `cs`. -/
def hessConsIn (hm : HessMap) (cs : List ConPtr) : Prop :=
  ∀ row, row ∈ hm → ∀ col, col ∈ row.2 → ∀ c, c ∈ col.2.cons → c ∈ cs

instance (hm : HessMap) (cs : List ConPtr) : Decidable (hessConsIn hm cs) := by
  unfold hessConsIn; infer_instance

/-- The multiplier `lambda[k]`, read as 0 outside the array. -/
def lamAt {α : Type} [Field α] (lambda : List α) (k : Int) : α :=
  (readArr lambda k).getD 0

/-- The value of the Hessian of the Lagrangian at one entry of `hessian_map`, in the
words of the specification: `obj_factor` times the sum of the second derivatives of the
listed objectives, plus the sum over the listed constraints of `lambda[index]` times the
second derivative of the constraint. -/
def hessValueOf {α σ : Type} [Field α] (L : ExprLayer α σ) (M : IpoptModel α σ)
    (obj_factor : α) (lambda : List α) (e : VarPtr × VarPtr × HessCell) : α :=
  obj_factor * (e.2.2.obj.map fun o => L.obj_ad2 M.cache M.var o e.1 e.2.1).sum +
  (e.2.2.cons.map fun c => lamAt lambda (M.con c).index * L.con_ad2 M.cache M.var c e.1 e.2.1).sum

/-! ## Test inputs for the solver adapter -/

/-- The model of the end-to-end scenario before `get_nlp_info`: variables `x` (address
10, value 3) and `y` (address 11, value 4) with bounds `[0, 10]`, the constraint
`g = x^2 + y^2` (address 20) with bounds `[0, 25]`, and the Hessian entries `(x, x)` and
`(y, y)` of `g`. -/
def scenarioModel : IpoptModel ℚ Unit :=
  { vars := [10, 11], cons := [20], vars_vector := [], cons_vector := [],
    hessian_map := [(10, [(10, { obj := [], cons := [20] })]),
                    (11, [(11, { obj := [], cons := [20] })])],
    hessian_vector_var1 := [], hessian_vector_var2 := [], solver_status := "",
    var := fun p =>
      if p = 10 then { value := 3, lb := 0, ub := 10, lb_dual := 0, ub_dual := 0, index := 0 }
      else { value := 4, lb := 0, ub := 10, lb_dual := 0, ub_dual := 0, index := 0 },
    con := fun _ => { lb := 0, ub := 25, dual := 0, index := 0, vars := [10, 11] },
    cache := () }

/-- The model of the end-to-end scenario as `get_nlp_info` leaves it: indices assigned and
the ordering vectors filled. -/
def scenarioReady : IpoptModel ℚ Unit :=
  { scenarioModel with
    vars_vector := [10, 11], cons_vector := [20],
    var := fun p =>
      if p = 10 then { value := 3, lb := 0, ub := 10, lb_dual := 0, ub_dual := 0, index := 0 }
      else { value := 4, lb := 0, ub := 10, lb_dual := 0, ub_dual := 0, index := 1 } }

/-- An expression layer for the scenario: the first and second derivatives of
`g = x^2 + y^2`. -/
def scenarioLayer : ExprLayer ℚ Unit :=
  { obj_evaluate := fun _ c => c,
    con_evaluate := fun _ _ c => c,
    con_ad := fun _ var _ v => 2 * (var v).value,
    obj_ad2 := fun _ _ _ _ _ => 0,
    con_ad2 := fun _ _ _ v1 v2 => if v1 = v2 then 2 else 0 }

/-- The model of the end-to-end scenario after `get_nlp_info`. -/
def scenarioIndexed : IpoptModel ℚ Unit :=
  { scenarioModel with
    cons_vector := [20], vars_vector := [10, 11],
    var := (nlp_vars_loop scenarioModel.vars 0 [] scenarioModel.var).2.2,
    con := (nlp_cons_loop scenarioModel.cons 0 0 [] scenarioModel.con).2.2.2 }

/-- The output of `get_nlp_info` on the end-to-end scenario: two variables, one
constraint, two Jacobian entries, two Hessian entries. -/
def scenarioInfo : NlpInfo :=
  { n := 2, m := 1, nnz_jac_g := 2, nnz_h_lag := 2, index_style := IndexStyleEnum.C_STYLE }

/-! ## `evaluate()` as a transformer of the whole state -/

/-- The memory that a call of `evaluate()` can reach: the object `*this`, the leaf
objects, and the local scratch array `values`. -/
structure EvalMachine (α : Type) where
  self : Evaluator
  heap : Heap α
  values : List (Option α)

/-- One iteration of the loop of `_evaluate` on the whole state: the reads of lines
87-107 and the assignment to `values[i]` of lines 109-132. -/
def EvalMachine.step {α : Type} [Field α] (m : Libm α) (i : Nat) (s : EvalMachine α) :
    Option (EvalMachine α) :=
  (s.self.operators[i]?).bind fun oper =>
  (s.self.arg1_indices[i]?).bind fun arg1_ndx =>
  (s.self.arg2_indices[i]?).bind fun arg2_ndx =>
  (operand s.self s.heap s.values arg1_ndx).bind fun val1 =>
  (operand s.self s.heap s.values arg2_ndx).bind fun val2 =>
  match oper with
  | Oper.ADD =>
    (writeSlot s.values i (some (val1 + val2))).bind fun v => some { s with values := v }
  | Oper.SUBTRACT =>
    (writeSlot s.values i (some (val1 - val2))).bind fun v => some { s with values := v }
  | Oper.VALUE =>
    (writeSlot s.values i (some val1)).bind fun v => some { s with values := v }
  | Oper.MULTIPLY =>
    (writeSlot s.values i (some (val1 * val2))).bind fun v => some { s with values := v }
  | Oper.DIVIDE =>
    (writeSlot s.values i (some (val1 / val2))).bind fun v => some { s with values := v }
  | Oper.POWER =>
    (writeSlot s.values i (some (m.pow val1 val2))).bind fun v => some { s with values := v }
  | Oper.UNDEFINED _ => some s

/-- The loop of `_evaluate` on the whole state: iterations `0 .. k-1`. -/
def EvalMachine.loop {α : Type} [Field α] (m : Libm α) :
    Nat → EvalMachine α → Option (EvalMachine α)
  | 0, s => some s
  | k + 1, s => (EvalMachine.loop m k s).bind (EvalMachine.step m k)

/-- A call of `evaluate()` on the object `e` in the heap `h`: the returned value, and the
object and the heap after the call (the scratch array ends with the call). -/
def evaluate_call {α : Type} [Field α] (m : Libm α) (e : Evaluator) (h : Heap α) :
    Option (α × Evaluator × Heap α) :=
  (EvalMachine.loop m e.n_operators
    { self := e, heap := h, values := List.replicate e.n_operators none }).bind fun s =>
  (readSlot s.values ((s.self.n_operators : Int) - 1)).bind fun r =>
  some (r, s.self, s.heap)

/-! ## Operand paths -/

/-- For every operand path from operation `i` down to an occurrence of the leaf `L`, the
product of the local derivatives along the path: a slot that references `L` is a path of
one step, a slot that references another leaf starts no path, and a slot that references
an earlier operation extends every path of that operation by one step. -/
def pathProducts {α : Type} [Field α] (m : Libm α) (e : Evaluator) (h : Heap α) (L : LeafPtr)
    (i : Nat) : List α :=
  match e.operators[i]?, e.arg1_indices[i]?, e.arg2_indices[i]? with
  | some oper, some a1, some a2 =>
    let p1 : List α :=
      if 0 ≤ a1 then
        (if leafAt e a1 = some L then
          [(localDer m oper (argVal m e h a1) (argVal m e h a2)).1] else [])
      else if _ : (-a1 - 1).toNat < i then
        (pathProducts m e h L (-a1 - 1).toNat).map
          (fun q => (localDer m oper (argVal m e h a1) (argVal m e h a2)).1 * q)
      else []
    let p2 : List α :=
      if 0 ≤ a2 then
        (if leafAt e a2 = some L then
          [(localDer m oper (argVal m e h a1) (argVal m e h a2)).2] else [])
      else if _ : (-a2 - 1).toNat < i then
        (pathProducts m e h L (-a2 - 1).toNat).map
          (fun q => (localDer m oper (argVal m e h a1) (argVal m e h a2)).2 * q)
      else []
    p1 ++ p2
  | _, _, _ => []
termination_by i

/-! ## The reverse pass over given contents of the adjoint array -/

/-- The method `Evaluator::rad()` with the contents that the array `double ders[n_operators]`
holds when it is declared made a parameter: the code does not initialise the array, so
`rad` itself starts from slots that are all unwritten (`none`). Started from slots that
all hold some number, a run fails only at an access outside an array. -/
def rad_with_adjoints {α : Type} [Field α] (m : Libm α) (e : Evaluator) (h : Heap α)
    (ders0 : List (Option α)) : Option (List (LeafPtr × α)) :=
  (_evaluate m e h (List.replicate e.n_operators none)).bind fun values =>
  (writeSlot ders0 ((e.n_operators : Int) - 1) (some 1)).bind fun ders =>
  (rad_loop m e h values e.n_operators
    { ders := ders, der1 := none, der2 := none, res := [] }).bind fun s =>
  some s.res

/-- The tape of the single operation `SUBTRACT(a, a)` over the leaves array `[a, b]`: the
leaf `b` is in the leaves array and no operand slot references it. -/
def unusedLeafTape (a b : LeafPtr) : Evaluator :=
  { n_operators := 1, n_leaves := 2, operators := [Oper.SUBTRACT], arg1_indices := [0],
    arg2_indices := [0], leaves := [a, b] }

/-! ## Reference counts over a construct-destroy round trip -/

/-- The heap after the leaf loop of the constructor has captured the leaves `L`: the
`refcount` of every constant is raised by the number of its occurrences in `L`. -/
def heapAfterCapture {α : Type} (h : Heap α) (L : List LeafPtr) : Heap α := fun p =>
  (h p).map fun o =>
    if o.is_float then { o with refcount := o.refcount + (L.count p : Int) } else o

/-- The heap after the first `k` iterations of the leaf loop of the destructor of a tape
that captured the leaves `L` from the heap `h`: the `refcount` of every constant is
lowered by the number of its occurrences among the first `k` leaves, and a constant whose
count has come down to zero is deleted. -/
def heapAfterDestroy {α : Type} (h : Heap α) (L : List LeafPtr) (k : Nat) : Heap α := fun p =>
  (h p).bind fun o =>
    if o.is_float then
      if 0 < (L.take k).count p ∧
          o.refcount + (L.count p : Int) - ((L.take k).count p : Int) = 0 then none
      else some { o with
        refcount := o.refcount + (L.count p : Int) - ((L.take k).count p : Int) }
    else some o

/-- A composite expression for `b * b + a` over the leaves array `[11, 11, 10]`: the
constant at address 11 occurs twice. -/
def constSquareExpr : ExpressionBase :=
  ExpressionBase.expression 2 3 [Oper.MULTIPLY, Oper.ADD] [0, -1] [1, 2] [11, 11, 10]

/-! ## Single-operation tapes and the end-to-end scenario -/

/-- C5: the evaluator constructed from a bare live leaf `L` (variable or constant) has
`n_operators = 1`, `n_leaves = 1` and the single operation `VALUE` with `arg1` the leaf
index 0; `evaluate()` returns the current value of `L` and `rad()` returns the map with
the single entry `L ↦ 1`. -/
theorem bare_leaf_tape {α : Type} [Field α] (m : Libm α) (h : Heap α) (L : LeafPtr)
    (l : Leaf α) (hL : h L = some l) :
    ∃ e : Evaluator, Evaluator.ctor (ExpressionBase.leaf L) h = some (e, h) ∧
      e.n_operators = 1 ∧ e.n_leaves = 1 ∧ e.operators = [Oper.VALUE] ∧
      e.arg1_indices = [0] ∧ e.leaves = [L] ∧
      evaluate m e h = some l.value ∧ rad m e h = some [(L, 1)] := by
  refine ⟨_, by simp [Evaluator.ctor, hL]; rfl, rfl, rfl, rfl, rfl, rfl, ?_, ?_⟩
  · simp [evaluate, _evaluate, _evaluate_loop, _evaluate_step, operand, leafValue, leafAt,
      readSlot, writeSlot, hL]
  · simp [rad, rad_loop, rad_step, rad_local, rad_propagate, mapAdd, _evaluate,
      _evaluate_loop, _evaluate_step, operand, leafValue, leafAt, readSlot, writeSlot, hL]

/-- Witness of `bare_leaf_tape` at the constant leaf 11 with value 5. -/
theorem bare_leaf_tape_witness :
    heap2 (3 : ℚ) 5 11 = some { value := 5, is_float := true, refcount := 1 } ∧
    ∃ e : Evaluator,
      Evaluator.ctor (ExpressionBase.leaf 11) (heap2 (3 : ℚ) 5) = some (e, heap2 3 5) ∧
      e.n_operators = 1 ∧ e.n_leaves = 1 ∧ e.operators = [Oper.VALUE] ∧
      e.arg1_indices = [0] ∧ e.leaves = [11] ∧
      evaluate ratLibm e (heap2 3 5) = some 5 ∧ rad ratLibm e (heap2 3 5) = some [(11, 1)] :=
  ⟨rfl, bare_leaf_tape ratLibm (heap2 3 5) 11 _ rfl⟩

/-- C6: for distinct live leaves `a`, `b` the tape `MULTIPLY(a, b)` gives
`rad() = {a: b.value, b: a.value}` and `evaluate() = a.value * b.value`. -/
theorem multiply_tape {α : Type} [Field α] (m : Libm α) (h : Heap α) (a b : LeafPtr)
    (la lb : Leaf α) (hab : a ≠ b) (ha : h a = some la) (hb : h b = some lb) :
    rad m (binaryTape Oper.MULTIPLY a b) h = some [(a, lb.value), (b, la.value)] ∧
    evaluate m (binaryTape Oper.MULTIPLY a b) h = some (la.value * lb.value) := by
  constructor
  · simp [rad, rad_loop, rad_step, rad_local, rad_propagate, mapAdd, _evaluate,
      _evaluate_loop, _evaluate_step, operand, leafValue, leafAt, readSlot, writeSlot,
      binaryTape, ha, hb, hab]
  · simp [evaluate, _evaluate, _evaluate_loop, _evaluate_step, operand, leafValue, leafAt,
      readSlot, writeSlot, binaryTape, ha, hb]

/-- Witness of `multiply_tape` at `a.value = 3`, `b.value = 5`. -/
theorem multiply_tape_witness :
    (10 : LeafPtr) ≠ 11 ∧
    rad ratLibm (binaryTape Oper.MULTIPLY 10 11) (heap2 3 5) = some [(10, 5), (11, 3)] ∧
    evaluate ratLibm (binaryTape Oper.MULTIPLY 10 11) (heap2 3 5) = some (3 * 5) :=
  ⟨by decide, multiply_tape ratLibm (heap2 3 5) 10 11 _ _ (by decide) rfl rfl⟩

/-- C7: for distinct live leaves `a`, `b` with `b.value ≠ 0` the tape `DIVIDE(a, b)` gives
`rad() = {a: 1 / b.value, b: -a.value / b.value^2}` in exact arithmetic. -/
theorem divide_tape {α : Type} [Field α] (m : Libm α) (h : Heap α) (a b : LeafPtr)
    (la lb : Leaf α) (hab : a ≠ b) (ha : h a = some la) (hb : h b = some lb)
    (_hb0 : lb.value ≠ 0) :
    rad m (binaryTape Oper.DIVIDE a b) h =
      some [(a, 1 / lb.value), (b, -la.value / lb.value ^ 2)] := by
  simp [rad, rad_loop, rad_step, rad_local, rad_propagate, mapAdd, _evaluate,
      _evaluate_loop, _evaluate_step, operand, leafValue, leafAt, readSlot, writeSlot,
      binaryTape, ha, hb, hab]
  ring

/-- Witness of `divide_tape` at `a.value = 3`, `b.value = 5`. -/
theorem divide_tape_witness :
    (10 : LeafPtr) ≠ 11 ∧ (5 : ℚ) ≠ 0 ∧
    rad ratLibm (binaryTape Oper.DIVIDE 10 11) (heap2 3 5) =
      some [(10, 1 / 5), (11, -3 / 5 ^ 2)] :=
  ⟨by decide, by norm_num,
    divide_tape ratLibm (heap2 3 5) 10 11 _ _ (by decide) rfl rfl
      (show (5 : ℚ) ≠ 0 by norm_num)⟩

/-- C8: for distinct live leaves `a`, `b` with `a.value > 0` the tape `POWER(a, b)`, with
the real power and the natural logarithm, gives
`rad() = {a: b.value * a.value^(b.value - 1), b: a.value^b.value * ln(a.value)}`, and
these are the derivatives of `evaluate()` with respect to the value of `a` and of `b`. -/
theorem power_tape (h : Heap ℝ) (a b : LeafPtr) (la lb : Leaf ℝ) (hab : a ≠ b)
    (ha : h a = some la) (hb : h b = some lb) (hpos : 0 < la.value) :
    rad (Libm.mk Real.rpow Real.log) (binaryTape Oper.POWER a b) h =
      some [(a, lb.value * la.value ^ (lb.value - 1)),
            (b, la.value ^ lb.value * Real.log la.value)] ∧
    HasDerivAt (fun t => (evaluate (Libm.mk Real.rpow Real.log) (binaryTape Oper.POWER a b)
        (setValue h a t)).getD 0) (lb.value * la.value ^ (lb.value - 1)) la.value ∧
    HasDerivAt (fun t => (evaluate (Libm.mk Real.rpow Real.log) (binaryTape Oper.POWER a b)
        (setValue h b t)).getD 0) (la.value ^ lb.value * Real.log la.value) lb.value := by
  refine ⟨?_, ?_, ?_⟩
  · simp [rad, rad_loop, rad_step, rad_local, rad_propagate, mapAdd, _evaluate,
      _evaluate_loop, _evaluate_step, operand, leafValue, leafAt, readSlot, writeSlot,
      binaryTape, ha, hb, hab]
  · have hf : (fun t => (evaluate (Libm.mk Real.rpow Real.log) (binaryTape Oper.POWER a b)
        (setValue h a t)).getD 0) = fun t => t ^ lb.value := by
      funext t
      simp [evaluate, _evaluate, _evaluate_loop, _evaluate_step, operand, leafValue, leafAt,
        readSlot, writeSlot, binaryTape, setValue, ha, hb, hab, Ne.symm hab]
    rw [hf]
    exact Real.hasDerivAt_rpow_const (Or.inl (ne_of_gt hpos))
  · have hf : (fun t => (evaluate (Libm.mk Real.rpow Real.log) (binaryTape Oper.POWER a b)
        (setValue h b t)).getD 0) = fun t => la.value ^ t := by
      funext t
      simp [evaluate, _evaluate, _evaluate_loop, _evaluate_step, operand, leafValue, leafAt,
        readSlot, writeSlot, binaryTape, setValue, ha, hb, hab, Ne.symm hab]
    rw [hf]
    exact (Real.hasStrictDerivAt_const_rpow hpos lb.value).hasDerivAt

/-- Witness of `power_tape` at `a.value = 2`, `b.value = 3`. -/
theorem power_tape_witness :
    (10 : LeafPtr) ≠ 11 ∧ (0 : ℝ) < 2 ∧
    rad (Libm.mk Real.rpow Real.log) (binaryTape Oper.POWER 10 11) (heap2 2 3) =
      some [(10, (3 : ℝ) * (2 : ℝ) ^ ((3 : ℝ) - 1)), (11, (2 : ℝ) ^ (3 : ℝ) * Real.log 2)] ∧
    HasDerivAt (fun t => (evaluate (Libm.mk Real.rpow Real.log) (binaryTape Oper.POWER 10 11)
        (setValue (heap2 2 3) 10 t)).getD 0) ((3 : ℝ) * (2 : ℝ) ^ ((3 : ℝ) - 1)) 2 ∧
    HasDerivAt (fun t => (evaluate (Libm.mk Real.rpow Real.log) (binaryTape Oper.POWER 10 11)
        (setValue (heap2 2 3) 11 t)).getD 0) ((2 : ℝ) ^ (3 : ℝ) * Real.log 2) 3 :=
  ⟨by decide, by norm_num,
    power_tape (heap2 2 3) 10 11 _ _ (by decide) rfl rfl (show (0 : ℝ) < 2 by norm_num)⟩

/-- C9: for distinct live leaves `a`, `b` the tape `ADD(a, b)` gives
`evaluate() = a.value + b.value` and `rad() = {a: 1, b: 1}`, and `rad()` gives the same
map under every other assignment of values to the leaves. -/
theorem add_tape {α : Type} [Field α] (m : Libm α) (h h' : Heap α) (a b : LeafPtr)
    (la lb la' lb' : Leaf α) (hab : a ≠ b) (ha : h a = some la) (hb : h b = some lb)
    (ha' : h' a = some la') (hb' : h' b = some lb') :
    evaluate m (binaryTape Oper.ADD a b) h = some (la.value + lb.value) ∧
    rad m (binaryTape Oper.ADD a b) h = some [(a, 1), (b, 1)] ∧
    rad m (binaryTape Oper.ADD a b) h' = rad m (binaryTape Oper.ADD a b) h := by
  refine ⟨?_, ?_, ?_⟩
  · simp [evaluate, _evaluate, _evaluate_loop, _evaluate_step, operand, leafValue, leafAt,
      readSlot, writeSlot, binaryTape, ha, hb]
  · simp [rad, rad_loop, rad_step, rad_local, rad_propagate, mapAdd, _evaluate,
      _evaluate_loop, _evaluate_step, operand, leafValue, leafAt, readSlot, writeSlot,
      binaryTape, ha, hb, hab]
  · simp [rad, rad_loop, rad_step, rad_local, rad_propagate, mapAdd, _evaluate,
      _evaluate_loop, _evaluate_step, operand, leafValue, leafAt, readSlot, writeSlot,
      binaryTape, ha, hb, ha', hb', hab]

/-- Witness of `add_tape` at the value assignments `(3, 5)` and `(7, -2)`. -/
theorem add_tape_witness :
    (10 : LeafPtr) ≠ 11 ∧
    evaluate ratLibm (binaryTape Oper.ADD 10 11) (heap2 3 5) = some (3 + 5) ∧
    rad ratLibm (binaryTape Oper.ADD 10 11) (heap2 3 5) = some [(10, 1), (11, 1)] ∧
    rad ratLibm (binaryTape Oper.ADD 10 11) (heap2 7 (-2)) =
      rad ratLibm (binaryTape Oper.ADD 10 11) (heap2 3 5) :=
  ⟨by decide,
    add_tape ratLibm (heap2 3 5) (heap2 7 (-2)) 10 11 _ _ _ _ (by decide) rfl rfl rfl rfl⟩

/-- C10: on the tape of `g = x^2 + y^2` (leaves `x`, `y` and the constant `c = 2`), at
`x.value = 3` and `y.value = 4` in real arithmetic, `evaluate()` returns 25 and `rad()`
maps `x` to 6 and `y` to 8. -/
theorem sum_squares_scenario (h : Heap ℝ) (x y c : LeafPtr) (lx ly lc : Leaf ℝ)
    (hxy : x ≠ y) (hxc : x ≠ c) (hyc : y ≠ c)
    (hx : h x = some lx) (hy : h y = some ly) (hc : h c = some lc)
    (vx : lx.value = 3) (vy : ly.value = 4) (vc : lc.value = 2) :
    evaluate (Libm.mk Real.rpow Real.log) (sumSquaresTape x y c) h = some 25 ∧
    ∃ res, rad (Libm.mk Real.rpow Real.log) (sumSquaresTape x y c) h = some res ∧
      mapFind res x = some 6 ∧ mapFind res y = some 8 := by
  constructor
  · simp [evaluate, _evaluate, _evaluate_loop, _evaluate_step, operand, leafValue, leafAt,
      readSlot, writeSlot, sumSquaresTape, hx, hy, hc, vx, vy, vc, _arg_ndx_to_operator_ndx]
    norm_num
  · simp [rad, rad_loop, rad_step, rad_local, rad_propagate, mapAdd, mapFind, _evaluate,
      _evaluate_loop, _evaluate_step, operand, leafValue, leafAt, readSlot, writeSlot,
      sumSquaresTape, hx, hy, hc, vx, vy, vc, hxy, hxc, hyc, Ne.symm hxy, Ne.symm hxc,
      Ne.symm hyc, _arg_ndx_to_operator_ndx]
    norm_num

/-- Witness of `sum_squares_scenario` on the heap with `x` at 10, `y` at 11, `c` at 12. -/
theorem sum_squares_scenario_witness :
    (10 : LeafPtr) ≠ 11 ∧ (10 : LeafPtr) ≠ 12 ∧ (11 : LeafPtr) ≠ 12 ∧
    evaluate (Libm.mk Real.rpow Real.log) (sumSquaresTape 10 11 12) (heap3 3 4 2) = some 25 ∧
    ∃ res, rad (Libm.mk Real.rpow Real.log) (sumSquaresTape 10 11 12) (heap3 3 4 2) =
        some res ∧ mapFind res 10 = some 6 ∧ mapFind res 11 = some 8 :=
  ⟨by decide, by decide, by decide,
    sum_squares_scenario (heap3 3 4 2) 10 11 12 _ _ _ (by decide) (by decide) (by decide)
      rfl rfl rfl rfl rfl rfl⟩

/-! ## The forward pass computes the recursive value -/

theorem readSlot_eq_some {α : Type} (a : List (Option α)) (j : Nat) (v : α)
    (hj : a[j]? = some (some v)) : readSlot a (j : Int) = some v := by
  simp [readSlot, hj]

theorem leafValue_isSome {α : Type} (e : Evaluator) (h : Heap α) (ha : e.arraysOk)
    (hl : leavesLive e h) (a : Int) (h0 : 0 ≤ a) (h1 : a < e.n_leaves) :
    ∃ v, leafValue e h a = some v := by
  have hlt : a.toNat < e.leaves.length := by
    rw [ha.2.2.2]; omega
  have hmem : e.leaves[a.toNat] ∈ e.leaves := List.getElem_mem hlt
  have hsome := hl _ hmem
  obtain ⟨l, hl'⟩ := Option.isSome_iff_exists.mp hsome
  exact ⟨l.value, by simp [leafValue, leafAt, h0, List.getElem?_eq_getElem hlt, hl']⟩

/-- The operand resolution of the forward pass agrees with the recursive resolution, once
the scratch array holds the values of all operations below `k`. -/
theorem operand_spec {α : Type} [Field α] (m : Libm α) (e : Evaluator) (h : Heap α)
    (ha : e.arraysOk) (hl : leavesLive e h) (k : Nat) (vals : List (Option α))
    (hv : ∀ i, i < k → ∃ v, vals[i]? = some (some v) ∧ opValue m e h i = some v)
    (a : Int) (hr : refOk e k a) :
    ∃ v, operand e h vals a = some v ∧
      (if 0 ≤ a then leafValue e h a
       else if _ : (-a - 1).toNat < k then opValue m e h (-a - 1).toNat else none) = some v := by
  unfold refOk at hr
  by_cases h0 : 0 ≤ a
  · simp only [h0, if_true] at hr
    obtain ⟨v, hv'⟩ := leafValue_isSome e h ha hl a h0 hr
    exact ⟨v, by simp [operand, h0, hv'], by simp [h0, hv']⟩
  · simp only [h0, if_false, _arg_ndx_to_operator_ndx] at hr
    have hj : (-a - 1).toNat < k := by omega
    obtain ⟨v, hv1, hv2⟩ := hv _ hj
    refine ⟨v, ?_, by rw [if_neg h0, dif_pos hj]; exact hv2⟩
    have hcast : ((-a - 1).toNat : Int) = -a - 1 := by omega
    have := readSlot_eq_some vals _ v hv1
    rw [hcast] at this
    simp [operand, h0, _arg_ndx_to_operator_ndx, this]

theorem applyOper_isSome {α : Type} [Field α] (m : Libm α) (oper : Oper)
    (hdef : oper.isDefined = true) (v1 v2 : α) : ∃ x, applyOper m oper v1 v2 = some x := by
  cases oper <;> simp [applyOper, Oper.isDefined] at hdef ⊢

/-- One forward iteration, once its reads have succeeded: the slot `i` receives the
operator applied to the two operand values. -/
theorem evaluate_step_eq {α : Type} [Field α] (m : Libm α) (e : Evaluator) (h : Heap α)
    (i : Nat) (vals : List (Option α)) (oper : Oper) (a1 a2 : Int) (v1 v2 x : α)
    (hop : e.operators[i]? = some oper) (ha1 : e.arg1_indices[i]? = some a1)
    (ha2 : e.arg2_indices[i]? = some a2) (ho1 : operand e h vals a1 = some v1)
    (ho2 : operand e h vals a2 = some v2) (hx : applyOper m oper v1 v2 = some x)
    (hi : i < vals.length) :
    _evaluate_step m e h i vals = some (vals.set i (some x)) := by
  have hw : ∀ y : α, writeSlot vals (i : Int) (some y) = some (vals.set i (some y)) := by
    intro y
    simp [writeSlot, hi]
  simp only [_evaluate_step, hop, ha1, ha2, ho1, ho2, Option.some_bind]
  cases oper <;> simp [applyOper] at hx <;> simp [hw, hx]

/-- Loop invariant of the forward pass: after iterations `0 .. k-1` the scratch array has
its allocated length and slot `i < k` holds the recursive value of operation `i`. -/
theorem evaluate_loop_spec {α : Type} [Field α] (m : Libm α) (e : Evaluator) (h : Heap α)
    (ha : e.arraysOk) (hr : e.refsOk) (hd : e.opsDefined) (hl : leavesLive e h) :
    ∀ k, k ≤ e.n_operators →
      ∃ vals, _evaluate_loop m e h k (List.replicate e.n_operators none) = some vals ∧
        vals.length = e.n_operators ∧
        ∀ i, i < k → ∃ v, vals[i]? = some (some v) ∧ opValue m e h i = some v := by
  intro k
  induction k with
  | zero =>
    intro _
    exact ⟨_, rfl, by simp, by intro i hi; omega⟩
  | succ k ih =>
    intro hk
    obtain ⟨vals, hloop, hlen, hv⟩ := ih (by omega)
    have hkn : k < e.n_operators := by omega
    have hko : k < e.operators.length := by rw [ha.1]; exact hkn
    have hk1 : k < e.arg1_indices.length := by rw [ha.2.1]; exact hkn
    have hk2 : k < e.arg2_indices.length := by rw [ha.2.2.1]; exact hkn
    have hop : e.operators[k]? = some e.operators[k] := List.getElem?_eq_getElem hko
    have ha1 : e.arg1_indices[k]? = some e.arg1_indices[k] := List.getElem?_eq_getElem hk1
    have ha2 : e.arg2_indices[k]? = some e.arg2_indices[k] := List.getElem?_eq_getElem hk2
    have hrk := hr k hkn
    rw [List.getD_eq_getElem _ _ hk1, List.getD_eq_getElem _ _ hk2] at hrk
    obtain ⟨v1, ho1, hs1⟩ := operand_spec m e h ha hl k vals hv _ hrk.1
    obtain ⟨v2, ho2, hs2⟩ := operand_spec m e h ha hl k vals hv _ hrk.2
    have hdef := hd _ (List.getElem_mem hko)
    have hval : opValue m e h k = applyOper m e.operators[k] v1 v2 := by
      rw [opValue]
      simp only [hop, ha1, ha2]
      rw [hs1, hs2]
      rfl
    have hex := applyOper_isSome m _ hdef v1 v2
    obtain ⟨x, hx⟩ := hex
    refine ⟨vals.set k (some x), ?_, by simp [hlen], ?_⟩
    · show (_evaluate_loop m e h k (List.replicate e.n_operators none)).bind
        (_evaluate_step m e h k) = _
      rw [hloop]
      exact evaluate_step_eq m e h k vals _ _ _ v1 v2 x hop ha1 ha2 ho1 ho2 hx (by omega)
    · intro i hi
      by_cases hik : i = k
      · subst hik
        exact ⟨x, by simp [List.getElem?_set_self, hlen, hkn], by rw [hval, hx]⟩
      · obtain ⟨v, hv1, hv2⟩ := hv i (by omega)
        exact ⟨v, by rw [List.getElem?_set_ne (Ne.symm hik)]; exact hv1, hv2⟩

/-- On a well-formed tape `evaluate()` and the recursive value of the last operation
coincide. -/
theorem evaluate_eq_last_opValue {α : Type} [Field α] (m : Libm α) (e : Evaluator)
    (h : Heap α) (hn : 1 ≤ e.n_operators) (ha : e.arraysOk) (hr : e.refsOk)
    (hd : e.opsDefined) (hl : leavesLive e h) :
    evaluate m e h = opValue m e h (e.n_operators - 1) := by
  obtain ⟨vals, hloop, _, hv⟩ := evaluate_loop_spec m e h ha hr hd hl e.n_operators le_rfl
  obtain ⟨v, hv1, hv2⟩ := hv (e.n_operators - 1) (by omega)
  have hcast : ((e.n_operators : Int) - 1) = ((e.n_operators - 1 : Nat) : Int) := by omega
  simp only [evaluate, _evaluate, hloop, Option.some_bind]
  rw [hcast, hv2]
  exact readSlot_eq_some vals _ v hv1

/-- C1: on a tape with `n_operators >= 1`, arrays of the allocated lengths, the six
operator codes, live leaves, every leaf reference in `[0, n_leaves)` and every
back-reference of operation `i` decoding to an index below `i`, `evaluate()` returns a
value, and it is the recursively defined value of the last operation. -/
theorem evaluate_returns_last_value {α : Type} [Field α] (m : Libm α) (e : Evaluator)
    (h : Heap α) (hn : 1 ≤ e.n_operators) (ha : e.arraysOk) (hr : e.refsOk)
    (hd : e.opsDefined) (hl : leavesLive e h) :
    ∃ v, evaluate m e h = some v ∧ opValue m e h (e.n_operators - 1) = some v := by
  obtain ⟨vals, hloop, _, hv⟩ := evaluate_loop_spec m e h ha hr hd hl e.n_operators le_rfl
  obtain ⟨v, hv1, hv2⟩ := hv (e.n_operators - 1) (by omega)
  refine ⟨v, ?_, hv2⟩
  have hcast : ((e.n_operators : Int) - 1) = ((e.n_operators - 1 : Nat) : Int) := by omega
  simp only [evaluate, _evaluate, hloop, Option.some_bind]
  rw [hcast]
  exact readSlot_eq_some vals _ v hv1

/-- Witness of `evaluate_returns_last_value` on the two-operation tape
`op0 = ADD(a, b)`, `op1 = MULTIPLY(op0, op0)`. -/
theorem evaluate_returns_last_value_witness :
    1 ≤ (sharedTape 10 11).n_operators ∧ (sharedTape 10 11).arraysOk ∧
    (sharedTape 10 11).refsOk ∧ (sharedTape 10 11).opsDefined ∧
    leavesLive (sharedTape 10 11) (heap2 (1 : ℚ) 2) ∧
    ∃ v, evaluate ratLibm (sharedTape 10 11) (heap2 1 2) = some v ∧
      opValue ratLibm (sharedTape 10 11) (heap2 1 2) ((sharedTape 10 11).n_operators - 1) =
        some v :=
  ⟨by decide, by decide, by decide, by decide, by decide,
    evaluate_returns_last_value ratLibm (sharedTape 10 11) (heap2 1 2) (by decide)
      (by decide) (by decide) (by decide) (by decide)⟩

/-! ## Accumulation into the result map -/

theorem mapFind_mapAdd {α : Type} [Field α] (res : List (LeafPtr × α)) (k : LeafPtr) (d : α)
    (q : LeafPtr) :
    mapFind (mapAdd res k d) q =
      if k = q then some ((mapFind res k).getD 0 + d) else mapFind res q := by
  induction res with
  | nil => simp [mapAdd, mapFind]
  | cons x r ih =>
    obtain ⟨k', v⟩ := x
    by_cases hk : k' = k
    · subst hk
      by_cases hq : k' = q
      · simp [mapAdd, mapFind, hq]
      · simp [mapAdd, mapFind, hq]
    · by_cases hq : k' = q
      · subst hq
        have hkq : ¬ k = k' := fun hh => hk hh.symm
        simp [mapAdd, mapFind, hk, hkq]
      · simp [mapAdd, mapFind, hk, hq, ih]

/-- Effect of one propagation on the map entry of a leaf `L`. -/
theorem rad_propagate_find {α : Type} [Field α] (e : Evaluator) (a : Int) (d : Option α)
    (ders : List (Option α)) (res : List (LeafPtr × α))
    (r : List (Option α) × List (LeafPtr × α))
    (hp : rad_propagate e a d ders res = some r) (L : LeafPtr) :
    mapFind r.2 L =
      if slotRefs e L a then some ((mapFind res L).getD 0 + d.getD 0) else mapFind res L := by
  unfold rad_propagate at hp
  by_cases h0 : 0 ≤ a
  · rw [if_pos h0] at hp
    obtain ⟨p, hp1, hp2⟩ := Option.bind_eq_some.mp hp
    obtain ⟨x, hx1, hx2⟩ := Option.bind_eq_some.mp hp2
    have hr : r = (ders, mapAdd res p x) := by simpa using hx2.symm
    subst hr
    subst hx1
    simp only [slotRefs, hp1, Option.some.injEq, mapFind_mapAdd, Option.getD_some]
    by_cases hpl : p = L
    · subst hpl; simp
    · simp [hpl]
  · rw [if_neg h0] at hp
    obtain ⟨ders', _, hp2⟩ := Option.bind_eq_some.mp hp
    have hr : r = (ders', res) := by simpa using hp2.symm
    subst hr
    simp [slotRefs, leafAt, h0]

theorem rad_propagate_getD {α : Type} [Field α] (e : Evaluator) (a : Int) (d : Option α)
    (ders : List (Option α)) (res : List (LeafPtr × α))
    (r : List (Option α) × List (LeafPtr × α))
    (hp : rad_propagate e a d ders res = some r) (L : LeafPtr) :
    (mapFind r.2 L).getD 0 =
      (mapFind res L).getD 0 + (if slotRefs e L a then d.getD 0 else 0) := by
  rw [rad_propagate_find e a d ders res r hp L]
  by_cases hs : slotRefs e L a = true <;> simp [hs]

theorem rad_propagate_isSome {α : Type} [Field α] (e : Evaluator) (a : Int) (d : Option α)
    (ders : List (Option α)) (res : List (LeafPtr × α))
    (r : List (Option α) × List (LeafPtr × α))
    (hp : rad_propagate e a d ders res = some r) (L : LeafPtr) :
    (mapFind r.2 L).isSome = ((mapFind res L).isSome || slotRefs e L a) := by
  rw [rad_propagate_find e a d ders res r hp L]
  by_cases hs : slotRefs e L a = true <;> simp [hs]

/-- The reads and intermediate results of a reverse iteration that returned. -/
theorem rad_step_some {α : Type} [Field α] (m : Libm α) (e : Evaluator) (h : Heap α)
    (values : List (Option α)) (i : Nat) (s s' : RadState α)
    (hstep : rad_step m e h values i s = some s') :
    ∃ oper a1 a2 der d r1 r2,
      e.operators[i]? = some oper ∧ e.arg1_indices[i]? = some a1 ∧
      e.arg2_indices[i]? = some a2 ∧ readSlot s.ders i = some der ∧
      rad_local m e h values oper a1 a2 der s.der1 s.der2 = some d ∧
      rad_propagate e a1 d.1 s.ders s.res = some r1 ∧
      rad_propagate e a2 d.2 r1.1 r1.2 = some r2 ∧
      s' = { ders := r2.1, der1 := d.1, der2 := d.2, res := r2.2 } := by
  simp only [rad_step, Option.bind_eq_some] at hstep
  obtain ⟨oper, h1, a1, h2, a2, h3, der, h4, d, h5, r1, h6, r2, h7, h8⟩ := hstep
  exact ⟨oper, a1, a2, der, d, r1, r2, h1, h2, h3, h4, h5, h6, h7, (Option.some.inj h8).symm⟩

/-- One reverse iteration adds to the entry of `L` the contributions of its two slots. -/
theorem rad_step_getD {α : Type} [Field α] (m : Libm α) (e : Evaluator) (h : Heap α)
    (values : List (Option α)) (i : Nat) (s s' : RadState α)
    (hstep : rad_step m e h values i s = some s') (L : LeafPtr) :
    (mapFind s'.res L).getD 0 = (mapFind s.res L).getD 0 + contributionOf e L i (some s') := by
  obtain ⟨oper, a1, a2, der, d, r1, r2, _, h2, h3, _, _, h6, h7, h8⟩ :=
    rad_step_some m e h values i s s' hstep
  subst h8
  have e1 : e.arg1_indices.getD i 0 = a1 := by simp [List.getD_eq_getElem?_getD, h2]
  have e2 : e.arg2_indices.getD i 0 = a2 := by simp [List.getD_eq_getElem?_getD, h3]
  simp only [contributionOf, e1, e2]
  rw [rad_propagate_getD e a2 d.2 r1.1 r1.2 r2 h7 L,
    rad_propagate_getD e a1 d.1 s.ders s.res r1 h6 L]
  ring

/-- One reverse iteration creates the entry of `L` exactly when one of its slots
references `L`. -/
theorem rad_step_isSome {α : Type} [Field α] (m : Libm α) (e : Evaluator) (h : Heap α)
    (values : List (Option α)) (i : Nat) (s s' : RadState α)
    (hstep : rad_step m e h values i s = some s') (L : LeafPtr) :
    (mapFind s'.res L).isSome = ((mapFind s.res L).isSome || opRefs e L i) := by
  obtain ⟨oper, a1, a2, der, d, r1, r2, _, h2, h3, _, _, h6, h7, h8⟩ :=
    rad_step_some m e h values i s s' hstep
  subst h8
  have e1 : e.arg1_indices.getD i 0 = a1 := by simp [List.getD_eq_getElem?_getD, h2]
  have e2 : e.arg2_indices.getD i 0 = a2 := by simp [List.getD_eq_getElem?_getD, h3]
  simp only [opRefs, e1, e2]
  rw [rad_propagate_isSome e a2 d.2 r1.1 r1.2 r2 h7 L,
    rad_propagate_isSome e a1 d.1 s.ders s.res r1 h6 L, Bool.or_assoc]

/-- The loop of `rad` is its first `n` iterations. -/
theorem rad_loop_eq_iter {α : Type} [Field α] (m : Libm α) (e : Evaluator) (h : Heap α)
    (values : List (Option α)) (n : Nat) :
    ∀ c, c ≤ n → ∀ s, (rad_iter m e h values n c s).bind (rad_loop m e h values (n - c)) =
      rad_loop m e h values n s := by
  intro c
  induction c with
  | zero => intro _ s; simp [rad_iter]
  | succ c ih =>
    intro hc s
    rw [← ih (by omega) s]
    have hn : n - c = (n - (c + 1)) + 1 := by omega
    have hi : n - 1 - c = n - (c + 1) := by omega
    simp only [rad_iter, Option.bind_assoc]
    congr 1
    funext s1
    rw [hn, rad_loop, hi]

/-- After the first `c` iterations the entry of `L` holds the sum of the contributions of
the operations processed so far. -/
theorem rad_iter_getD {α : Type} [Field α] (m : Libm α) (e : Evaluator) (h : Heap α)
    (values : List (Option α)) (n : Nat) (init : RadState α) (hinit : init.res = [])
    (L : LeafPtr) :
    ∀ c, c ≤ n → ∀ s, rad_iter m e h values n c init = some s →
      (mapFind s.res L).getD 0 =
        ∑ i in Finset.Ico (n - c) n,
          contributionOf e L i (rad_iter m e h values n (n - i) init) := by
  intro c
  induction c with
  | zero =>
    intro _ s hs
    simp only [rad_iter, Option.some.injEq] at hs
    subst hs
    simp [hinit, mapFind]
  | succ c ih =>
    intro hc s' hs'
    obtain ⟨s, hs, hstep⟩ := Option.bind_eq_some.mp hs'
    have hlt : n - (c + 1) < n := by omega
    rw [Finset.sum_eq_sum_Ico_succ_bot hlt]
    have h1 : n - (c + 1) + 1 = n - c := by omega
    have h2 : n - (n - (c + 1)) = c + 1 := by omega
    have h3 : n - 1 - c = n - (c + 1) := by omega
    rw [h1, h2, hs', ← ih (by omega) s hs]
    rw [h3] at hstep
    rw [rad_step_getD m e h values _ s s' hstep L, add_comm]

/-- After the first `c` iterations the entry of `L` exists exactly when an operation
processed so far references `L`. -/
theorem rad_iter_isSome {α : Type} [Field α] (m : Libm α) (e : Evaluator) (h : Heap α)
    (values : List (Option α)) (n : Nat) (init : RadState α) (hinit : init.res = [])
    (L : LeafPtr) :
    ∀ c, c ≤ n → ∀ s, rad_iter m e h values n c init = some s →
      ((mapFind s.res L).isSome = true ↔ ∃ i, n - c ≤ i ∧ i < n ∧ opRefs e L i = true) := by
  intro c
  induction c with
  | zero =>
    intro _ s hs
    simp only [rad_iter, Option.some.injEq] at hs
    subst hs
    simp only [hinit, mapFind, Option.isSome_none, Bool.false_eq_true, false_iff, not_exists]
    intro i hi
    omega
  | succ c ih =>
    intro hc s' hs'
    obtain ⟨s, hs, hstep⟩ := Option.bind_eq_some.mp hs'
    have h3 : n - 1 - c = n - (c + 1) := by omega
    rw [h3] at hstep
    rw [rad_step_isSome m e h values _ s s' hstep L, Bool.or_eq_true, ih (by omega) s hs]
    constructor
    · rintro (⟨i, hi1, hi2, hi3⟩ | hr)
      · exact ⟨i, by omega, hi2, hi3⟩
      · exact ⟨n - (c + 1), le_rfl, by omega, hr⟩
    · rintro ⟨i, hi1, hi2, hi3⟩
      by_cases hi : i = n - (c + 1)
      · right; rw [← hi]; exact hi3
      · left; exact ⟨i, by omega, hi2, hi3⟩

/-- C3: when `rad()` returns a map, its entry for a leaf `L` that some operand slot
references is the sum over all operations of the local contributions (`der1` at an
`arg1` slot, `der2` at an `arg2` slot) computed at the slots that reference `L`; the
tape `ADD(a, a)` yields `{a: 2}` and the tape `MULTIPLY(a, a)` yields `{a: 2 * a.value}`. -/
theorem rad_accumulates {α : Type} [Field α] (m : Libm α) (e : Evaluator) (h : Heap α)
    (res : List (LeafPtr × α)) (hrad : rad m e h = some res) (L : LeafPtr)
    (hL : ∃ i, i < e.n_operators ∧ opRefs e L i = true)
    (a : LeafPtr) (la : Leaf α) (ha : h a = some la) :
    mapFind res L = some (∑ i in Finset.range e.n_operators, slotContribution m e h L i) ∧
    rad m (squareTape Oper.ADD a) h = some [(a, 2)] ∧
    rad m (squareTape Oper.MULTIPLY a) h = some [(a, 2 * la.value)] := by
  refine ⟨?_, ?_, ?_⟩
  · unfold rad at hrad
    obtain ⟨values, hvals, hrad1⟩ := Option.bind_eq_some.mp hrad
    obtain ⟨ders, hders, hrad2⟩ := Option.bind_eq_some.mp hrad1
    obtain ⟨s, hloop, hres⟩ := Option.bind_eq_some.mp hrad2
    have hres' : s.res = res := Option.some.inj hres
    have hiter := rad_loop_eq_iter m e h values e.n_operators e.n_operators le_rfl
      { ders := ders, der1 := none, der2 := none, res := [] }
    rw [hloop] at hiter
    obtain ⟨s1, hs1, hs2⟩ := Option.bind_eq_some.mp hiter
    have hs : s1 = s := by
      rw [Nat.sub_self] at hs2
      simpa [rad_loop] using hs2
    subst hs
    have hsum := rad_iter_getD m e h values e.n_operators _ rfl L e.n_operators le_rfl s1 hs1
    have hkey := (rad_iter_isSome m e h values e.n_operators _ rfl L e.n_operators le_rfl
      s1 hs1).mpr (by obtain ⟨i, hi1, hi2⟩ := hL; exact ⟨i, by omega, hi1, hi2⟩)
    obtain ⟨x, hx⟩ := Option.isSome_iff_exists.mp hkey
    rw [← hres', hx]
    rw [hx, Option.getD_some, Nat.sub_self, ← Finset.range_eq_Ico] at hsum
    rw [hsum]
    congr 1
    apply Finset.sum_congr rfl
    intro i _
    simp only [slotContribution, radStateAfter, hvals, hders, Option.some_bind]
  · simp [rad, rad_loop, rad_step, rad_local, rad_propagate, mapAdd, _evaluate,
      _evaluate_loop, _evaluate_step, operand, leafValue, leafAt, readSlot, writeSlot,
      squareTape, ha]
    norm_num
  · simp [rad, rad_loop, rad_step, rad_local, rad_propagate, mapAdd, _evaluate,
      _evaluate_loop, _evaluate_step, operand, leafValue, leafAt, readSlot, writeSlot,
      squareTape, ha]
    ring

/-- Witness of `rad_accumulates` on the tape of `a*a + a` at `a.value = 3`, where the
leaf is referenced by three slots and its entry is `3 + 3 + 1`. -/
theorem rad_accumulates_witness :
    rad ratLibm (squarePlusTape 10) (heap2 3 5) = some [(10, 7)] ∧
    (∃ i, i < (squarePlusTape 10).n_operators ∧ opRefs (squarePlusTape 10) 10 i = true) ∧
    mapFind [((10 : LeafPtr), (7 : ℚ))] 10 =
      some (∑ i in Finset.range (squarePlusTape 10).n_operators,
        slotContribution ratLibm (squarePlusTape 10) (heap2 3 5) 10 i) ∧
    rad ratLibm (squareTape Oper.ADD 10) (heap2 3 5) = some [(10, 2)] ∧
    rad ratLibm (squareTape Oper.MULTIPLY 10) (heap2 3 5) = some [(10, 2 * 3)] :=
  have hrad : rad ratLibm (squarePlusTape 10) (heap2 3 5) = some [(10, 7)] := by
    simp [rad, rad_loop, rad_step, rad_local, rad_propagate, mapAdd, _evaluate,
      _evaluate_loop, _evaluate_step, operand, leafValue, leafAt, readSlot, writeSlot,
      squarePlusTape, heap2, _arg_ndx_to_operator_ndx]
    norm_num
  have hL : ∃ i, i < (squarePlusTape 10).n_operators ∧
      opRefs (squarePlusTape 10) 10 i = true := ⟨0, by decide, by decide⟩
  ⟨hrad, hL, rad_accumulates ratLibm (squarePlusTape 10) (heap2 3 5) _ hrad 10 hL 10 _ rfl⟩

/-! ## Reference counts of constants -/

/-- C4 (evaluation at the failing input): the constant at address 11 starts with reference
count 0; a tape `t1` constructed from the composite `a * b` raises the count to 1; a
second tape `t2` constructed from the bare constant leaves the count at 1 although two
live tapes now hold the constant; destroying `t2` lowers the count to 0 and frees the
constant while `t1` still holds it, after which `t1.evaluate()` dereferences a dangling
pointer. -/
theorem bare_constant_not_counted :
    ∃ t1 h1 t2 h2 h3,
      Evaluator.ctor productExpr (heapFresh (3 : ℚ) 5) = some (t1, h1) ∧
      (h1 11).map Leaf.refcount = some 1 ∧
      Evaluator.ctor (ExpressionBase.leaf 11) h1 = some (t2, h2) ∧
      (h2 11).map Leaf.refcount = some 1 ∧
      t1.leaves = [10, 11] ∧ t2.leaves = [11] ∧
      Evaluator.dtor t2 h2 = some h3 ∧
      h3 11 = none ∧
      evaluate ratLibm t1 h3 = none := by
  refine ⟨binaryTape Oper.MULTIPLY 10 11,
    Function.update (heapFresh 3 5) 11 (some { value := 5, is_float := true, refcount := 1 }),
    squareTape Oper.VALUE 11,
    Function.update (heapFresh 3 5) 11 (some { value := 5, is_float := true, refcount := 1 }),
    Function.update (Function.update (heapFresh 3 5) 11
      (some { value := 5, is_float := true, refcount := 1 })) 11 none,
    ?_, ?_, ?_, ?_, rfl, rfl, ?_, ?_, ?_⟩
  · simp [Evaluator.ctor, productExpr, copyLoop, captureLoop, heapFresh, binaryTape]
  · simp
  · simp [Evaluator.ctor, squareTape]
  · simp
  · simp [Evaluator.dtor, destroyLoop, squareTape]
  · simp
  · simp [evaluate, _evaluate, _evaluate_loop, _evaluate_step, operand, leafValue, leafAt,
      binaryTape]

/-! ## Values and tangents on a well-formed tape -/

/-- On a well-formed tape every operation has a recursive value. -/
theorem opValue_isSome {α : Type} [Field α] (m : Libm α) (e : Evaluator) (h : Heap α)
    (ha : e.arraysOk) (hr : e.refsOk) (hd : e.opsDefined) (hl : leavesLive e h)
    (i : Nat) (hi : i < e.n_operators) : ∃ v, opValue m e h i = some v := by
  obtain ⟨vals, _, _, hv⟩ := evaluate_loop_spec m e h ha hr hd hl e.n_operators le_rfl
  obtain ⟨v, _, hv2⟩ := hv i hi
  exact ⟨v, hv2⟩

/-- The forward pass of a well-formed tape fills the scratch array with the recursive
values. -/
theorem forward_values {α : Type} [Field α] (m : Libm α) (e : Evaluator) (h : Heap α)
    (ha : e.arraysOk) (hr : e.refsOk) (hd : e.opsDefined) (hl : leavesLive e h) :
    ∃ vals, _evaluate m e h (List.replicate e.n_operators none) = some vals ∧
      vals.length = e.n_operators ∧
      ∀ i, i < e.n_operators → vals[i]? = some (some ((opValue m e h i).getD 0)) := by
  obtain ⟨vals, hloop, hlen, hv⟩ := evaluate_loop_spec m e h ha hr hd hl e.n_operators le_rfl
  refine ⟨vals, hloop, hlen, ?_⟩
  intro i hi
  obtain ⟨v, hv1, hv2⟩ := hv i hi
  rw [hv1, hv2, Option.getD_some]

/-- On the filled scratch array an in-range operand of operation `k` resolves to its
recursive value. -/
theorem operand_eq_argVal {α : Type} [Field α] (m : Libm α) (e : Evaluator) (h : Heap α)
    (ha : e.arraysOk) (hl : leavesLive e h) (vals : List (Option α))
    (hv : ∀ i, i < e.n_operators → vals[i]? = some (some ((opValue m e h i).getD 0)))
    (k : Nat) (hk : k ≤ e.n_operators) (a : Int) (hr : refOk e k a) :
    operand e h vals a = some (argVal m e h a) := by
  unfold refOk at hr
  by_cases h0 : 0 ≤ a
  · simp only [h0, if_true] at hr
    obtain ⟨v, hv'⟩ := leafValue_isSome e h ha hl a h0 hr
    simp [operand, argVal, h0, hv']
  · simp only [h0, if_false] at hr
    have hnn : 0 ≤ _arg_ndx_to_operator_ndx a := by
      unfold _arg_ndx_to_operator_ndx; omega
    have hj : (_arg_ndx_to_operator_ndx a).toNat < e.n_operators := by omega
    have := hv _ hj
    simp only [operand, argVal, h0, if_false, readSlot, hnn, if_true, this, Option.join]
    rfl

/-- The recursive value of an operation of a well-formed tape, in terms of the values of
its operands. -/
theorem opValue_unfold {α : Type} [Field α] (m : Libm α) (e : Evaluator) (h : Heap α)
    (ha : e.arraysOk) (hr : e.refsOk) (hd : e.opsDefined) (hl : leavesLive e h)
    (i : Nat) (hi : i < e.n_operators) :
    opValue m e h i =
      applyOper m (e.operators.getD i Oper.VALUE)
        (argVal m e h (e.arg1_indices.getD i 0)) (argVal m e h (e.arg2_indices.getD i 0)) := by
  have hko : i < e.operators.length := by rw [ha.1]; exact hi
  have hk1 : i < e.arg1_indices.length := by rw [ha.2.1]; exact hi
  have hk2 : i < e.arg2_indices.length := by rw [ha.2.2.1]; exact hi
  have hop : e.operators[i]? = some e.operators[i] := List.getElem?_eq_getElem hko
  have ha1 : e.arg1_indices[i]? = some e.arg1_indices[i] := List.getElem?_eq_getElem hk1
  have ha2 : e.arg2_indices[i]? = some e.arg2_indices[i] := List.getElem?_eq_getElem hk2
  have hri := hr i hi
  rw [List.getD_eq_getElem _ _ hk1, List.getD_eq_getElem _ _ hk2] at hri
  rw [List.getD_eq_getElem _ _ hk1, List.getD_eq_getElem _ _ hk2,
    List.getD_eq_getElem _ _ hko]
  have key : ∀ a : Int, refOk e i a →
      (if 0 ≤ a then leafValue e h a
       else if _ : (-a - 1).toNat < i then opValue m e h (-a - 1).toNat else none) =
        some (argVal m e h a) := by
    intro a hra
    unfold refOk at hra
    by_cases h0 : 0 ≤ a
    · simp only [h0, if_true] at hra
      obtain ⟨v, hv'⟩ := leafValue_isSome e h ha hl a h0 hra
      simp [argVal, h0, hv']
    · simp only [h0, if_false, _arg_ndx_to_operator_ndx] at hra
      have hj : (-a - 1).toNat < i := by omega
      obtain ⟨v, hv'⟩ := opValue_isSome m e h ha hr hd hl _ (by omega : (-a - 1).toNat < _)
      rw [if_neg h0, dif_pos hj, hv']
      simp only [argVal, h0, if_false, _arg_ndx_to_operator_ndx, hv', Option.getD_some]
  rw [opValue]
  simp only [hop, ha1, ha2]
  rw [key _ hri.1, key _ hri.2]
  rfl

/-- The tangent of an operation of a well-formed tape, in terms of the tangents of its
operands. -/
theorem opTangent_unfold {α : Type} [Field α] (m : Libm α) (e : Evaluator) (h : Heap α)
    (L : LeafPtr) (ha : e.arraysOk) (hr : e.refsOk) (i : Nat) (hi : i < e.n_operators) :
    opTangent m e h L i =
      (localDer m (e.operators.getD i Oper.VALUE) (argVal m e h (e.arg1_indices.getD i 0))
        (argVal m e h (e.arg2_indices.getD i 0))).1 *
          argTangent m e h L (e.arg1_indices.getD i 0) +
      (localDer m (e.operators.getD i Oper.VALUE) (argVal m e h (e.arg1_indices.getD i 0))
        (argVal m e h (e.arg2_indices.getD i 0))).2 *
          argTangent m e h L (e.arg2_indices.getD i 0) := by
  have hko : i < e.operators.length := by rw [ha.1]; exact hi
  have hk1 : i < e.arg1_indices.length := by rw [ha.2.1]; exact hi
  have hk2 : i < e.arg2_indices.length := by rw [ha.2.2.1]; exact hi
  have hop : e.operators[i]? = some e.operators[i] := List.getElem?_eq_getElem hko
  have ha1 : e.arg1_indices[i]? = some e.arg1_indices[i] := List.getElem?_eq_getElem hk1
  have ha2 : e.arg2_indices[i]? = some e.arg2_indices[i] := List.getElem?_eq_getElem hk2
  have hri := hr i hi
  rw [List.getD_eq_getElem _ _ hk1, List.getD_eq_getElem _ _ hk2] at hri
  rw [List.getD_eq_getElem _ _ hk1, List.getD_eq_getElem _ _ hk2,
    List.getD_eq_getElem _ _ hko]
  have key : ∀ a : Int, refOk e i a →
      (if 0 ≤ a then (if leafAt e a = some L then (1 : α) else 0)
       else if _ : (-a - 1).toNat < i then opTangent m e h L (-a - 1).toNat else 0) =
        argTangent m e h L a := by
    intro a hra
    unfold refOk at hra
    by_cases h0 : 0 ≤ a
    · simp [argTangent, h0]
    · simp only [h0, if_false, _arg_ndx_to_operator_ndx] at hra
      have hj : (-a - 1).toNat < i := by omega
      rw [if_neg h0, dif_pos hj]
      simp only [argTangent, h0, if_false, _arg_ndx_to_operator_ndx]
  rw [opTangent]
  simp only [hop, ha1, ha2]
  rw [key _ hri.1, key _ hri.2]

/-! ## The reverse pass on single-consumer tapes -/

theorem sum_range_change {α : Type} [Field α] (k j1 : Nat) (hj : j1 < k) (f f' : Nat → α)
    (hne : ∀ j, j ≠ j1 → f' j = f j) :
    ∑ j in Finset.range k, f' j = ∑ j in Finset.range k, f j + (f' j1 - f j1) := by
  have hmem : j1 ∈ Finset.range k := Finset.mem_range.mpr hj
  rw [← Finset.sum_erase_add _ f' hmem, ← Finset.sum_erase_add _ f hmem]
  have : ∑ j in (Finset.range k).erase j1, f' j = ∑ j in (Finset.range k).erase j1, f j := by
    apply Finset.sum_congr rfl
    intro j hjm
    exact hne j (Finset.ne_of_mem_erase hjm)
  rw [this]
  ring

theorem dersVal_set {α : Type} [Field α] (ders : List (Option α)) (j1 : Nat) (x : α)
    (hj : j1 < ders.length) (j : Nat) :
    dersVal (ders.set j1 (some x)) j = if j = j1 then x else dersVal ders j := by
  unfold dersVal
  by_cases hjj : j = j1
  · subst hjj
    simp [List.getElem?_set_self hj]
  · rw [List.getElem?_set_ne (Ne.symm hjj)]
    simp [hjj]

theorem isWritten_set {α : Type} (ders : List (Option α)) (j1 : Nat) (x : α)
    (hj : j1 < ders.length) (j : Nat) :
    isWritten (ders.set j1 (some x)) j = (isWritten ders j || decide (j1 = j)) := by
  unfold isWritten
  by_cases hjj : j = j1
  · subst hjj
    simp [List.getElem?_set_self hj]
  · rw [List.getElem?_set_ne (Ne.symm hjj)]
    have : ¬ j1 = j := fun hh => hjj hh.symm
    simp [this]

theorem backRef_iff (a : Int) (j : Nat) :
    backRef a j = true ↔ a < 0 ∧ (_arg_ndx_to_operator_ndx a).toNat = j := by
  unfold backRef _arg_ndx_to_operator_ndx
  simp only [decide_eq_true_eq]
  constructor
  · rintro ⟨h1, h2⟩
    exact ⟨h1, by omega⟩
  · rintro ⟨h1, h2⟩
    exact ⟨h1, by omega⟩

/-- Effect of one propagation of the local derivative `x` on the invariant quantities,
when the adjoint slot it stores to, if any, is still unwritten. -/
theorem rad_propagate_inv {α : Type} [Field α] (m : Libm α) (e : Evaluator) (h : Heap α)
    (L : LeafPtr) (ha : e.arraysOk) (k : Nat) (hk : k < e.n_operators) (a : Int)
    (hra : refOk e k a) (x : α) (ders : List (Option α))
    (hlen : ders.length = e.n_operators) (res : List (LeafPtr × α))
    (hfresh : ∀ j, backRef a j = true → isWritten ders j = false) :
    ∃ r, rad_propagate e a (some x) ders res = some r ∧ r.1.length = e.n_operators ∧
      (∀ j, isWritten r.1 j = (isWritten ders j || backRef a j)) ∧
      (mapFind r.2 L).getD 0 + ∑ j in Finset.range k, dersVal r.1 j * opTangent m e h L j =
        (mapFind res L).getD 0 + ∑ j in Finset.range k, dersVal ders j * opTangent m e h L j +
          x * argTangent m e h L a := by
  unfold refOk at hra
  by_cases h0 : 0 ≤ a
  · simp only [h0, if_true] at hra
    have hlt : a.toNat < e.leaves.length := by rw [ha.2.2.2]; omega
    have hleaf : leafAt e a = some e.leaves[a.toNat] := by
      simp [leafAt, h0, List.getElem?_eq_getElem hlt]
    refine ⟨(ders, mapAdd res e.leaves[a.toNat] x), ?_, hlen, ?_, ?_⟩
    · simp [rad_propagate, h0, hleaf]
    · intro j
      have : backRef a j = false := by
        rw [Bool.eq_false_iff]
        intro hb
        have := (backRef_iff a j).mp hb
        omega
      simp [this]
    · simp only [mapFind_mapAdd, argTangent, h0, if_true, hleaf, Option.some.injEq]
      by_cases hp : e.leaves[a.toNat] = L
      · simp only [hp, if_true, Option.getD_some]
        ring
      · simp only [hp, if_false]
        ring
  · simp only [h0, if_false] at hra
    have hnn : 0 ≤ _arg_ndx_to_operator_ndx a := by
      unfold _arg_ndx_to_operator_ndx; omega
    have hj1 : (_arg_ndx_to_operator_ndx a).toNat < k := by omega
    have hj1' : (_arg_ndx_to_operator_ndx a).toNat < ders.length := by omega
    have hb : backRef a (_arg_ndx_to_operator_ndx a).toNat = true :=
      (backRef_iff a _).mpr ⟨by omega, rfl⟩
    have hunw := hfresh _ hb
    have hzero : dersVal ders (_arg_ndx_to_operator_ndx a).toNat = 0 := by
      unfold isWritten at hunw
      unfold dersVal
      cases hc : (ders[(_arg_ndx_to_operator_ndx a).toNat]?).join with
      | none => rfl
      | some y => rw [hc] at hunw; simp at hunw
    refine ⟨(ders.set (_arg_ndx_to_operator_ndx a).toNat (some x), res), ?_, ?_, ?_, ?_⟩
    · simp [rad_propagate, h0, writeSlot, hnn, hj1']
    · simp [hlen]
    · intro j
      rw [isWritten_set ders _ x hj1' j]
      congr 1
      rw [Bool.eq_iff_iff]
      simp only [decide_eq_true_eq, backRef_iff]
      constructor
      · intro hh; exact ⟨by omega, hh⟩
      · intro hh; exact hh.2
    · have hsum := sum_range_change k _ hj1
        (fun j => dersVal ders j * opTangent m e h L j)
        (fun j => dersVal (ders.set (_arg_ndx_to_operator_ndx a).toNat (some x)) j *
          opTangent m e h L j)
        (by
          intro j hj
          simp only [dersVal_set ders _ x hj1' j, hj, if_false])
      simp only at hsum
      rw [hsum, dersVal_set ders _ x hj1', if_pos rfl, hzero]
      simp only [argTangent, h0, if_false]
      ring

/-- The operator dispatch of `rad` yields the adjoint times the local derivatives. -/
theorem rad_local_defined {α : Type} [Field α] (m : Libm α) (e : Evaluator) (h : Heap α)
    (vals : List (Option α)) (oper : Oper) (hdef : oper.isDefined = true) (a1 a2 : Int)
    (v1 v2 der : α) (o1 o2 : Option α) (ho1 : operand e h vals a1 = some v1)
    (ho2 : operand e h vals a2 = some v2) :
    rad_local m e h vals oper a1 a2 der o1 o2 =
      some (some (der * (localDer m oper v1 v2).1), some (der * (localDer m oper v1 v2).2)) := by
  cases oper with
  | VALUE => simp [rad_local, localDer]
  | ADD => simp [rad_local, localDer]
  | SUBTRACT => simp [rad_local, localDer]
  | MULTIPLY => simp [rad_local, localDer, ho1, ho2]
  | DIVIDE =>
    simp only [rad_local, localDer, ho1, ho2, Option.some_bind, Option.some.injEq,
      Prod.mk.injEq]
    constructor <;> ring
  | POWER =>
    simp only [rad_local, localDer, ho1, ho2, Option.some_bind, Option.some.injEq,
      Prod.mk.injEq]
    constructor <;> ring
  | UNDEFINED c => simp [Oper.isDefined] at hdef

/-- On a well-formed tape a back-reference of operation `i` names an earlier operation. -/
theorem usedBy_lt (e : Evaluator) (hr : e.refsOk) (j i : Nat)
    (hi : i < e.n_operators) (hu : usedBy e j i = true) : j < i := by
  have hri := hr i hi
  unfold usedBy at hu
  rw [Bool.or_eq_true] at hu
  rcases hu with hu | hu
  · have hb := (backRef_iff _ _).mp hu
    have h1 := hri.1
    unfold refOk at h1
    rw [if_neg (by omega)] at h1
    have hnn : 0 ≤ _arg_ndx_to_operator_ndx (e.arg1_indices.getD i 0) := by
      unfold _arg_ndx_to_operator_ndx; omega
    omega
  · have hb := (backRef_iff _ _).mp hu
    have h2 := hri.2
    unfold refOk at h2
    rw [if_neg (by omega)] at h2
    have hnn : 0 ≤ _arg_ndx_to_operator_ndx (e.arg2_indices.getD i 0) := by
      unfold _arg_ndx_to_operator_ndx; omega
    omega

/-- One reverse iteration on a single-consumer tape returns and re-establishes the loop
invariant. -/
theorem rad_step_inv {α : Type} [Field α] (m : Libm α) (e : Evaluator) (h : Heap α)
    (L : LeafPtr) (ha : e.arraysOk) (hr : e.refsOk) (hd : e.opsDefined)
    (hl : leavesLive e h) (hs : e.singleConsumer) (vals : List (Option α))
    (hv : ∀ i, i < e.n_operators → vals[i]? = some (some ((opValue m e h i).getD 0)))
    (k : Nat) (hk : k < e.n_operators) (s : RadState α) (hinv : radInv m e h L (k + 1) s) :
    ∃ s', rad_step m e h vals k s = some s' ∧ radInv m e h L k s' := by
  obtain ⟨hlen, hwr, hsum⟩ := hinv
  have hko : k < e.operators.length := by rw [ha.1]; exact hk
  have hk1 : k < e.arg1_indices.length := by rw [ha.2.1]; exact hk
  have hk2 : k < e.arg2_indices.length := by rw [ha.2.2.1]; exact hk
  have hop : e.operators[k]? = some (e.operators.getD k Oper.VALUE) := by
    rw [List.getD_eq_getElem _ _ hko]; exact List.getElem?_eq_getElem hko
  have ha1 : e.arg1_indices[k]? = some (e.arg1_indices.getD k 0) := by
    rw [List.getD_eq_getElem _ _ hk1]; exact List.getElem?_eq_getElem hk1
  have ha2 : e.arg2_indices[k]? = some (e.arg2_indices.getD k 0) := by
    rw [List.getD_eq_getElem _ _ hk2]; exact List.getElem?_eq_getElem hk2
  have hdef : (e.operators.getD k Oper.VALUE).isDefined = true := by
    rw [List.getD_eq_getElem _ _ hko]; exact hd _ (List.getElem_mem hko)
  have hrk := hr k hk
  -- the adjoint of operation `k` has been written
  have hwk : isWritten s.ders k = true := by
    rw [hwr k (by omega)]
    by_cases hlast : k + 1 = e.n_operators
    · exact Or.inl hlast
    · right
      obtain ⟨⟨i, hi, hu⟩, _, _⟩ := hs k (by omega)
      exact ⟨i, by have := usedBy_lt e hr k i hi hu; omega, hi, hu⟩
  have hread : readSlot s.ders (k : Int) = some (dersVal s.ders k) := by
    unfold isWritten at hwk
    obtain ⟨y, hy⟩ := Option.isSome_iff_exists.mp hwk
    unfold readSlot dersVal
    rw [if_pos (by omega), Int.toNat_ofNat, hy]
    rfl
  have ho1 := operand_eq_argVal m e h ha hl vals hv k (by omega) _ hrk.1
  have ho2 := operand_eq_argVal m e h ha hl vals hv k (by omega) _ hrk.2
  have hloc := rad_local_defined m e h vals _ hdef (e.arg1_indices.getD k 0)
    (e.arg2_indices.getD k 0) _ _ (dersVal s.ders k) s.der1 s.der2 ho1 ho2
  -- freshness of the slots written by this iteration
  have hunw : ∀ j, usedBy e j k = true → isWritten s.ders j = false := by
    intro j hu
    have hjk := usedBy_lt e hr j k hk hu
    rw [Bool.eq_false_iff]
    intro hw
    rcases (hwr j (by omega)).mp hw with hlast | ⟨i, hi1, hi2, hi3⟩
    · omega
    · obtain ⟨_, _, huniq⟩ := hs j (by omega)
      have := huniq i hi2 k hk hi3 hu
      omega
  have hfresh1 : ∀ j, backRef (e.arg1_indices.getD k 0) j = true →
      isWritten s.ders j = false := by
    intro j hb
    exact hunw j (by unfold usedBy; rw [hb]; rfl)
  obtain ⟨r1, hp1, hlen1, hw1, hsum1⟩ := rad_propagate_inv m e h L ha k hk _ hrk.1
    (dersVal s.ders k * (localDer m (e.operators.getD k Oper.VALUE)
      (argVal m e h (e.arg1_indices.getD k 0)) (argVal m e h (e.arg2_indices.getD k 0))).1)
    s.ders hlen s.res hfresh1
  have hfresh2 : ∀ j, backRef (e.arg2_indices.getD k 0) j = true →
      isWritten r1.1 j = false := by
    intro j hb
    have hu : usedBy e j k = true := by unfold usedBy; rw [hb]; simp
    have hjk := usedBy_lt e hr j k hk hu
    rw [hw1 j, hunw j hu, Bool.false_or, Bool.eq_false_iff]
    intro hb1
    obtain ⟨_, hnb, _⟩ := hs j (by omega)
    exact hnb k hk ⟨hb1, hb⟩
  obtain ⟨r2, hp2, hlen2, hw2, hsum2⟩ := rad_propagate_inv m e h L ha k hk _ hrk.2
    (dersVal s.ders k * (localDer m (e.operators.getD k Oper.VALUE)
      (argVal m e h (e.arg1_indices.getD k 0)) (argVal m e h (e.arg2_indices.getD k 0))).2)
    r1.1 hlen1 r1.2 hfresh2
  obtain ⟨s', hstep, hders', hres'⟩ : ∃ s', rad_step m e h vals k s = some s' ∧
      s'.ders = r2.1 ∧ s'.res = r2.2 := by
    simp only [rad_step, hop, ha1, ha2, hread, hloc, hp1, hp2, Option.some_bind]
    exact ⟨_, rfl, rfl, rfl⟩
  refine ⟨s', hstep, by rw [hders']; exact hlen2, ?_, ?_⟩
  · intro j hj
    rw [hders', hw2 j, hw1 j, Bool.or_assoc, Bool.or_eq_true, hwr j (by omega)]
    have hub : (backRef (e.arg1_indices.getD k 0) j || backRef (e.arg2_indices.getD k 0) j) =
        usedBy e j k := rfl
    rw [hub]
    constructor
    · rintro ((hlast | ⟨i, hi1, hi2, hi3⟩) | hu)
      · exact Or.inl hlast
      · exact Or.inr ⟨i, by omega, hi2, hi3⟩
      · exact Or.inr ⟨k, le_rfl, hk, hu⟩
    · rintro (hlast | ⟨i, hi1, hi2, hi3⟩)
      · exact Or.inl (Or.inl hlast)
      · by_cases hik : i = k
        · subst hik; exact Or.inr hi3
        · exact Or.inl (Or.inr ⟨i, by omega, hi2, hi3⟩)
  · rw [hders', hres', hsum2, hsum1, ← hsum, Finset.sum_range_succ, opTangent_unfold m e h L ha hr k hk]
    ring

/-- The reverse loop on a single-consumer tape returns, and at its end the entry of `L`
is the tangent of the output. -/
theorem rad_loop_inv {α : Type} [Field α] (m : Libm α) (e : Evaluator) (h : Heap α)
    (L : LeafPtr) (ha : e.arraysOk) (hr : e.refsOk) (hd : e.opsDefined)
    (hl : leavesLive e h) (hs : e.singleConsumer) (vals : List (Option α))
    (hv : ∀ i, i < e.n_operators → vals[i]? = some (some ((opValue m e h i).getD 0))) :
    ∀ k, k ≤ e.n_operators → ∀ s, radInv m e h L k s →
      ∃ s', rad_loop m e h vals k s = some s' ∧
        (mapFind s'.res L).getD 0 = opTangent m e h L (e.n_operators - 1) := by
  intro k
  induction k with
  | zero =>
    intro _ s hinv
    refine ⟨s, rfl, ?_⟩
    have := hinv.2.2
    simpa using this
  | succ k ih =>
    intro hk s hinv
    obtain ⟨s1, hstep, hinv1⟩ := rad_step_inv m e h L ha hr hd hl hs vals hv k (by omega) s hinv
    obtain ⟨s', hloop, hfin⟩ := ih (by omega) s1 hinv1
    exact ⟨s', by simp only [rad_loop, hstep, Option.some_bind, hloop], hfin⟩

/-- The invariant holds before the first iteration of the reverse loop. -/
theorem radInv_init {α : Type} [Field α] (m : Libm α) (e : Evaluator) (h : Heap α)
    (L : LeafPtr) (hn : 1 ≤ e.n_operators) :
    radInv m e h L e.n_operators
      { ders := (List.replicate e.n_operators none).set (e.n_operators - 1) (some 1),
        der1 := none, der2 := none, res := [] } := by
  have hlen : e.n_operators - 1 < (List.replicate e.n_operators (none : Option α)).length := by
    simp; omega
  refine ⟨by simp, ?_, ?_⟩
  · intro j hj
    show isWritten ((List.replicate e.n_operators none).set (e.n_operators - 1) (some 1)) j =
      true ↔ _
    rw [isWritten_set _ _ _ hlen j]
    have hrep : isWritten (List.replicate e.n_operators (none : Option α)) j = false := by
      simp [isWritten, List.getElem?_replicate, hj]
    rw [hrep, Bool.false_or, decide_eq_true_eq]
    constructor
    · intro hh; left; omega
    · rintro (hh | ⟨i, hi1, hi2, _⟩)
      · omega
      · omega
  · show (mapFind ([] : List (LeafPtr × α)) L).getD 0 + _ = _
    have hsum := sum_range_change e.n_operators (e.n_operators - 1) (by omega)
      (fun _ => (0 : α))
      (fun j => dersVal ((List.replicate e.n_operators none).set (e.n_operators - 1)
        (some (1 : α))) j * opTangent m e h L j)
      (by
        intro j hj
        simp only [dersVal_set _ _ _ hlen j, hj, if_false]
        have : dersVal (List.replicate e.n_operators (none : Option α)) j = 0 := by
          unfold dersVal
          by_cases hjn : j < e.n_operators <;> simp [List.getElem?_replicate, hjn]
        rw [this, zero_mul])
    simp only at hsum
    rw [hsum, dersVal_set _ _ _ hlen, if_pos rfl]
    simp [mapFind]

/-- Reverse mode agrees with forward mode on single-consumer tapes: `rad()` returns, and
the entry it holds for a leaf `L` (read as 0 when absent) is the tangent of the last
operation with respect to `L`. -/
theorem rad_eq_tangent {α : Type} [Field α] (m : Libm α) (e : Evaluator) (h : Heap α)
    (hn : 1 ≤ e.n_operators) (ha : e.arraysOk) (hr : e.refsOk) (hd : e.opsDefined)
    (hl : leavesLive e h) (hs : e.singleConsumer) :
    ∃ res, rad m e h = some res ∧
      ∀ L, (mapFind res L).getD 0 = opTangent m e h L (e.n_operators - 1) ∧
        ((mapFind res L).isSome = true ↔ ∃ i, i < e.n_operators ∧ opRefs e L i = true) := by
  obtain ⟨vals, hvals, _, hv⟩ := forward_values m e h ha hr hd hl
  have hw : writeSlot (List.replicate e.n_operators (none : Option α))
      ((e.n_operators : Int) - 1) (some 1) =
      some ((List.replicate e.n_operators none).set (e.n_operators - 1) (some 1)) := by
    have h1 : (0 : Int) ≤ (e.n_operators : Int) - 1 := by omega
    have h2 : ((e.n_operators : Int) - 1).toNat = e.n_operators - 1 := by omega
    simp only [writeSlot, h1, h2, List.length_replicate, true_and]
    rw [if_pos (by omega)]
  obtain ⟨s0, hloop0, _⟩ := rad_loop_inv m e h 0 ha hr hd hl hs vals hv e.n_operators le_rfl _
    (radInv_init m e h 0 hn)
  refine ⟨s0.res, by simp only [rad, hvals, hw, hloop0, Option.some_bind], ?_⟩
  intro L
  obtain ⟨s', hloop, hfin⟩ := rad_loop_inv m e h L ha hr hd hl hs vals hv e.n_operators le_rfl _
    (radInv_init m e h L hn)
  have hss : s' = s0 := by
    rw [hloop0] at hloop
    exact (Option.some.inj hloop).symm
  subst hss
  refine ⟨hfin, ?_⟩
  have hiter := rad_loop_eq_iter m e h vals e.n_operators e.n_operators le_rfl
    { ders := (List.replicate e.n_operators none).set (e.n_operators - 1) (some 1),
      der1 := none, der2 := none, res := [] }
  rw [hloop0] at hiter
  obtain ⟨s1, hs1, hs2⟩ := Option.bind_eq_some.mp hiter
  have hs : s1 = s' := by
    rw [Nat.sub_self] at hs2
    simpa [rad_loop] using hs2
  subst hs
  rw [rad_iter_isSome m e h vals e.n_operators _ rfl L e.n_operators le_rfl s1 hs1]
  constructor
  · rintro ⟨i, _, hi2, hi3⟩; exact ⟨i, hi2, hi3⟩
  · rintro ⟨i, hi2, hi3⟩; exact ⟨i, by omega, hi2, hi3⟩

/-! ## The tangent is the derivative of the forward pass -/

theorem setValue_self {α : Type} (h : Heap α) (L : LeafPtr) (l : Leaf α)
    (hL : h L = some l) : setValue h L l.value = h := by
  funext q
  unfold setValue
  by_cases hq : q = L
  · subst hq
    simp [hL]
  · simp [hq]

theorem leavesLive_setValue {α : Type} (e : Evaluator) (h : Heap α) (L : LeafPtr) (t : α)
    (hl : leavesLive e h) : leavesLive e (setValue h L t) := by
  intro p hp
  have := hl p hp
  unfold setValue
  by_cases hq : p = L
  · simp only [hq, if_true, Option.isSome_map']
    rw [← hq]; exact this
  · simp only [hq, if_false]; exact this

theorem leafValue_setValue {α : Type} (e : Evaluator) (h : Heap α) (L : LeafPtr)
    (l : Leaf α) (hL : h L = some l) (t : α) (a : Int) :
    leafValue e (setValue h L t) a =
      if leafAt e a = some L then some t else leafValue e h a := by
  unfold leafValue
  cases hla : leafAt e a with
  | none => simp
  | some p =>
    by_cases hp : p = L
    · subst hp
      simp [setValue, hL]
    · simp [setValue, hp]

/-- The value of an in-range operand, as a function of the value of the leaf `L`, has the
operand tangent as derivative, provided the earlier operations do. -/
theorem argVal_hasDerivAt (m : Libm ℝ) (e : Evaluator) (h : Heap ℝ) (L : LeafPtr)
    (l : Leaf ℝ) (hL : h L = some l) (i : Nat)
    (ih : ∀ j, j < i → HasDerivAt (fun t => (opValue m e (setValue h L t) j).getD 0)
      (opTangent m e h L j) l.value)
    (a : Int) (hra : refOk e i a) :
    HasDerivAt (fun t => argVal m e (setValue h L t) a) (argTangent m e h L a) l.value := by
  unfold refOk at hra
  by_cases h0 : 0 ≤ a
  · simp only [argVal, argTangent, h0, if_true, leafValue_setValue e h L l hL]
    by_cases hp : leafAt e a = some L
    · simp only [hp, if_true, Option.getD_some]
      exact hasDerivAt_id _
    · simp only [hp, if_false]
      exact hasDerivAt_const _ _
  · simp only [h0, if_false] at hra
    have hnn : 0 ≤ _arg_ndx_to_operator_ndx a := by
      unfold _arg_ndx_to_operator_ndx; omega
    simp only [argVal, argTangent, h0, if_false]
    exact ih _ (by omega)

/-- On a well-formed tape of arithmetic operations with no zero divisor, the value of
every operation, as a function of the value of the leaf `L`, has the tangent as
derivative at the current value of `L`. -/
theorem opValue_hasDerivAt (m : Libm ℝ) (e : Evaluator) (h : Heap ℝ) (L : LeafPtr)
    (l : Leaf ℝ) (hL : h L = some l) (ha : e.arraysOk) (hr : e.refsOk) (har : e.arithOnly)
    (hd : e.opsDefined) (hl : leavesLive e h) (hz : divisorsNonzero m e h) :
    ∀ i, i < e.n_operators →
      HasDerivAt (fun t => (opValue m e (setValue h L t) i).getD 0) (opTangent m e h L i)
        l.value := by
  intro i
  induction i using Nat.strong_induction_on with
  | _ i ih =>
    intro hi
    have ih' : ∀ j, j < i → HasDerivAt (fun t => (opValue m e (setValue h L t) j).getD 0)
        (opTangent m e h L j) l.value := fun j hj => ih j hj (by omega)
    have hri := hr i hi
    have hg1 := argVal_hasDerivAt m e h L l hL i ih' _ hri.1
    have hg2 := argVal_hasDerivAt m e h L l hL i ih' _ hri.2
    have hfun : (fun t => (opValue m e (setValue h L t) i).getD 0) = fun t =>
        (applyOper m (e.operators.getD i Oper.VALUE)
          (argVal m e (setValue h L t) (e.arg1_indices.getD i 0))
          (argVal m e (setValue h L t) (e.arg2_indices.getD i 0))).getD 0 := by
      funext t
      rw [opValue_unfold m e _ ha hr hd (leavesLive_setValue e h L t hl) i hi]
    rw [hfun, opTangent_unfold m e h L ha hr i hi]
    have hv1 : argVal m e (setValue h L l.value) (e.arg1_indices.getD i 0) =
        argVal m e h (e.arg1_indices.getD i 0) := by rw [setValue_self h L l hL]
    have hv2 : argVal m e (setValue h L l.value) (e.arg2_indices.getD i 0) =
        argVal m e h (e.arg2_indices.getD i 0) := by rw [setValue_self h L l hL]
    have hko : i < e.operators.length := by rw [ha.1]; exact hi
    have hmem : e.operators.getD i Oper.VALUE ∈ e.operators := by
      rw [List.getD_eq_getElem _ _ hko]; exact List.getElem_mem hko
    have hzi := hz i hi
    rcases har _ hmem with hop | hop | hop | hop | hop
    · rw [hop]
      simp only [applyOper, localDer, Option.getD_some]
      have := hg1.add hg2
      convert this using 1
      ring
    · rw [hop]
      simp only [applyOper, localDer, Option.getD_some]
      have := hg1.sub hg2
      convert this using 1
      ring
    · rw [hop]
      simp only [applyOper, localDer, Option.getD_some]
      have := hg1.mul hg2
      rw [hv1, hv2] at this
      convert this using 1
      ring
    · rw [hop]
      simp only [applyOper, localDer, Option.getD_some]
      have hne := hzi hop
      have hne' : argVal m e (setValue h L l.value) (e.arg2_indices.getD i 0) ≠ 0 := by
        rw [hv2]; exact hne
      have := hg1.div hg2 hne'
      rw [hv1, hv2] at this
      convert this using 1
      generalize argVal m e h (e.arg2_indices.getD i 0) = v2 at hne
      field_simp
      ring
    · rw [hop]
      simp only [applyOper, localDer, Option.getD_some]
      convert hg1 using 1
      ring

/-! ## The gradient claim -/

theorem arithOnly_opsDefined (e : Evaluator) (har : e.arithOnly) : e.opsDefined := by
  intro oper ho
  rcases har oper ho with hh | hh | hh | hh | hh <;> rw [hh] <;> rfl

/-- C2 (counterexample): the tape `op0 = ADD(a, b)`, `op1 = MULTIPLY(op0, op0)` at
`a.value = 1`, `b.value = 2` meets every condition of the claim (well-formed, every
non-final operation referenced, arithmetic operators only, no divisor), yet `rad()` is
not the gradient: it maps `a` to `a.value + b.value = 3`, and the derivative of the
output `(a + b)^2` with respect to `a` is 6. -/
theorem rad_shared_not_gradient :
    1 ≤ (sharedTape 10 11).n_operators ∧ (sharedTape 10 11).arraysOk ∧
    (sharedTape 10 11).refsOk ∧ (sharedTape 10 11).everyOpUsed ∧
    (sharedTape 10 11).arithOnly ∧ leavesLive (sharedTape 10 11) (heap2 (1 : ℝ) 2) ∧
    divisorsNonzero (Libm.mk Real.rpow Real.log) (sharedTape 10 11) (heap2 (1 : ℝ) 2) ∧
    rad (Libm.mk Real.rpow Real.log) (sharedTape 10 11) (heap2 (1 : ℝ) 2) =
      some [(10, 3), (11, 3)] ∧
    ¬ radIsGradient (Libm.mk Real.rpow Real.log) (sharedTape 10 11) (heap2 (1 : ℝ) 2) := by
  have hrad : rad (Libm.mk Real.rpow Real.log) (sharedTape 10 11) (heap2 (1 : ℝ) 2) =
      some [(10, 3), (11, 3)] := by
    simp [rad, rad_loop, rad_step, rad_local, rad_propagate, mapAdd, _evaluate,
      _evaluate_loop, _evaluate_step, operand, leafValue, leafAt, readSlot, writeSlot,
      sharedTape, heap2, _arg_ndx_to_operator_ndx]
    norm_num
  refine ⟨by decide, by decide, by decide, by decide, by decide, by decide, ?_, hrad, ?_⟩
  · intro i hi hop
    have hi' : i < 2 := hi
    interval_cases i <;> simp [sharedTape] at hop
  · rintro ⟨res, hres, hall⟩
    rw [hrad] at hres
    have hres' : res = [(10, 3), (11, 3)] := (Option.some.inj hres).symm
    subst hres'
    obtain ⟨d, hd, hderiv⟩ := hall 10 { value := 1, is_float := false, refcount := 0 } rfl
      ⟨0, by decide, by decide⟩
    have hd3 : d = 3 := by
      simp [mapFind] at hd
      exact hd.symm
    subst hd3
    have hf : (fun t : ℝ => (evaluate (Libm.mk Real.rpow Real.log) (sharedTape 10 11)
        (setValue (heap2 (1 : ℝ) 2) 10 t)).getD 0) = fun t => (t + 2) * (t + 2) := by
      funext t
      simp [evaluate, _evaluate, _evaluate_loop, _evaluate_step, operand, leafValue, leafAt,
        readSlot, writeSlot, sharedTape, heap2, setValue, _arg_ndx_to_operator_ndx]
    rw [hf] at hderiv
    have h6 : HasDerivAt (fun t : ℝ => (t + 2) * (t + 2)) (1 * (1 + 2) + (1 + 2) * 1) 1 :=
      ((hasDerivAt_id (1 : ℝ)).add_const 2).mul ((hasDerivAt_id (1 : ℝ)).add_const 2)
    have := hderiv.unique h6
    norm_num at this

/-- C2 (amended): on a well-formed tape (`n_operators >= 1`, no forward references) of
`ADD`, `SUBTRACT`, `MULTIPLY`, `DIVIDE` and `VALUE` operations in which the result of
every non-final operation is referenced by exactly one operand slot of exactly one
operation, at leaf values where no divisor is zero, `rad()` returns a map that holds, for
every referenced leaf `L`, the derivative with respect to the value of `L` of the tape
output computed by `evaluate()`. -/
theorem rad_is_gradient_single_consumer (m : Libm ℝ) (e : Evaluator) (h : Heap ℝ)
    (hn : 1 ≤ e.n_operators) (ha : e.arraysOk) (hr : e.refsOk) (hs : e.singleConsumer)
    (har : e.arithOnly) (hl : leavesLive e h) (hz : divisorsNonzero m e h) :
    radIsGradient m e h := by
  have hd := arithOnly_opsDefined e har
  obtain ⟨res, hrad, hres⟩ := rad_eq_tangent m e h hn ha hr hd hl hs
  refine ⟨res, hrad, ?_⟩
  intro L l hL href
  obtain ⟨hget, hsome⟩ := hres L
  obtain ⟨d, hdd⟩ := Option.isSome_iff_exists.mp (hsome.mpr href)
  refine ⟨d, hdd, ?_⟩
  rw [hdd, Option.getD_some] at hget
  rw [hget]
  have hf : (fun t => (evaluate m e (setValue h L t)).getD 0) =
      fun t => (opValue m e (setValue h L t) (e.n_operators - 1)).getD 0 := by
    funext t
    rw [evaluate_eq_last_opValue m e (setValue h L t) hn ha hr hd
      (leavesLive_setValue e h L t hl)]
  rw [hf]
  exact opValue_hasDerivAt m e h L l hL ha hr har hd hl hz _ (by omega)

/-- Witness of `rad_is_gradient_single_consumer` on the tape of `(a - b) / b + a` at
`a.value = 3`, `b.value = 5`. -/
theorem rad_is_gradient_single_consumer_witness :
    1 ≤ (chainTape 10 11).n_operators ∧ (chainTape 10 11).arraysOk ∧
    (chainTape 10 11).refsOk ∧ (chainTape 10 11).singleConsumer ∧
    (chainTape 10 11).arithOnly ∧ leavesLive (chainTape 10 11) (heap2 (3 : ℝ) 5) ∧
    divisorsNonzero (Libm.mk Real.rpow Real.log) (chainTape 10 11) (heap2 (3 : ℝ) 5) ∧
    radIsGradient (Libm.mk Real.rpow Real.log) (chainTape 10 11) (heap2 (3 : ℝ) 5) :=
  have hz : divisorsNonzero (Libm.mk Real.rpow Real.log) (chainTape 10 11)
      (heap2 (3 : ℝ) 5) := by
    intro i hi hop
    have hi' : i < 3 := hi
    interval_cases i
    · simp [chainTape] at hop
    · simp [chainTape, argVal, leafValue, leafAt, heap2]
    · simp [chainTape] at hop
  ⟨by decide, by decide, by decide, by decide, by decide, by decide, hz,
    rad_is_gradient_single_consumer (Libm.mk Real.rpow Real.log) (chainTape 10 11)
      (heap2 3 5) (by decide) (by decide) (by decide) (by decide) (by decide) (by decide) hz⟩

/-! ## `finalize_solution` -/

theorem readArr_some_of_range {β : Type} (a : List β) (k : Int) (h0 : 0 ≤ k)
    (h1 : k < a.length) : ∃ v, readArr a k = some v := by
  have hlt : k.toNat < a.length := by omega
  exact ⟨a[k.toNat], by simp [readArr, h0, List.getElem?_eq_getElem hlt]⟩

/-- What the loop over `vars_vector` of `finalize_solution` leaves behind. -/
theorem finalize_vars_loop_spec {α : Type} (x z_L z_U : List α) :
    ∀ (ps : List VarPtr) (var var' : VarPtr → Var α),
      finalize_vars_loop x z_L z_U ps var = some var' →
      (∀ v, (var' v).index = (var v).index ∧ (var' v).lb = (var v).lb ∧
        (var' v).ub = (var v).ub) ∧
      (∀ v, v ∈ ps → readArr x (var v).index = some (var' v).value ∧
        readArr z_L (var v).index = some (var' v).lb_dual ∧
        readArr z_U (var v).index = some (var' v).ub_dual) ∧
      (∀ v, v ∉ ps → var' v = var v) := by
  intro ps
  induction ps with
  | nil =>
    intro var var' h
    simp only [finalize_vars_loop, Option.some.injEq] at h
    subst h
    exact ⟨fun v => ⟨rfl, rfl, rfl⟩, fun v hv => by simp at hv, fun v _ => rfl⟩
  | cons p ps ih =>
    intro var var' h
    simp only [finalize_vars_loop, Option.bind_eq_some] at h
    obtain ⟨xv, hx, zl, hzl, zu, hzu, hrest⟩ := h
    obtain ⟨hfix, hset, hout⟩ := ih _ var' hrest
    have hupd : ∀ v, ((Function.update var p
        { var p with value := xv, lb_dual := zl, ub_dual := zu }) v).index = (var v).index ∧
        ((Function.update var p
          { var p with value := xv, lb_dual := zl, ub_dual := zu }) v).lb = (var v).lb ∧
        ((Function.update var p
          { var p with value := xv, lb_dual := zl, ub_dual := zu }) v).ub = (var v).ub := by
      intro v
      by_cases hv : v = p
      · subst hv; simp
      · simp [Function.update_noteq hv]
    refine ⟨?_, ?_, ?_⟩
    · intro v
      obtain ⟨h1, h2, h3⟩ := hfix v
      obtain ⟨g1, g2, g3⟩ := hupd v
      exact ⟨h1.trans g1, h2.trans g2, h3.trans g3⟩
    · intro v hv
      by_cases hvps : v ∈ ps
      · have := hset v hvps
        rw [(hupd v).1] at this
        exact this
      · have hvp : v = p := by
          rcases List.mem_cons.mp hv with hh | hh
          · exact hh
          · exact absurd hh hvps
        subst hvp
        rw [hout v hvps]
        simp [hx, hzl, hzu]
    · intro v hv
      have hvp : v ≠ p := fun hh => hv (by rw [hh]; exact List.mem_cons_self _ _)
      have hvps : v ∉ ps := fun hh => hv (List.mem_cons_of_mem _ hh)
      rw [hout v hvps, Function.update_noteq hvp]

/-- The loop over `vars_vector` of `finalize_solution` returns when every index is inside
the three arrays. -/
theorem finalize_vars_loop_total {α : Type} (x z_L z_U : List α) :
    ∀ (ps : List VarPtr) (var : VarPtr → Var α),
      (∀ v, v ∈ ps → 0 ≤ (var v).index ∧ (var v).index < x.length ∧
        (var v).index < z_L.length ∧ (var v).index < z_U.length) →
      ∃ var', finalize_vars_loop x z_L z_U ps var = some var' := by
  intro ps
  induction ps with
  | nil => intro var _; exact ⟨var, rfl⟩
  | cons p ps ih =>
    intro var hr
    obtain ⟨h0, h1, h2, h3⟩ := hr p (List.mem_cons_self _ _)
    obtain ⟨xv, hx⟩ := readArr_some_of_range x _ h0 h1
    obtain ⟨zl, hzl⟩ := readArr_some_of_range z_L _ h0 h2
    obtain ⟨zu, hzu⟩ := readArr_some_of_range z_U _ h0 h3
    have hr' : ∀ v, v ∈ ps →
        0 ≤ ((Function.update var p
          { var p with value := xv, lb_dual := zl, ub_dual := zu }) v).index ∧
        ((Function.update var p
          { var p with value := xv, lb_dual := zl, ub_dual := zu }) v).index < x.length ∧
        ((Function.update var p
          { var p with value := xv, lb_dual := zl, ub_dual := zu }) v).index < z_L.length ∧
        ((Function.update var p
          { var p with value := xv, lb_dual := zl, ub_dual := zu }) v).index < z_U.length := by
      intro v hv
      have hidx : ((Function.update var p
          { var p with value := xv, lb_dual := zl, ub_dual := zu }) v).index =
          (var v).index := by
        by_cases hvp : v = p
        · subst hvp; simp
        · simp [Function.update_noteq hvp]
      rw [hidx]
      exact hr v (List.mem_cons_of_mem _ hv)
    obtain ⟨var', hv'⟩ := ih _ hr'
    exact ⟨var', by simp only [finalize_vars_loop, hx, hzl, hzu, Option.some_bind, hv']⟩

/-- What the loop `ptr_to_con->dual = lambda[ptr_to_con->index]` leaves behind. -/
theorem dual_loop_spec {α : Type} (lambda : List α) :
    ∀ (ps : List ConPtr) (con con' : ConPtr → Constraint α),
      dual_loop lambda ps con = some con' →
      (∀ c, (con' c).index = (con c).index ∧ (con' c).lb = (con c).lb ∧
        (con' c).ub = (con c).ub ∧ (con' c).vars = (con c).vars) ∧
      (∀ c, c ∈ ps → readArr lambda (con c).index = some (con' c).dual) ∧
      (∀ c, c ∉ ps → con' c = con c) := by
  intro ps
  induction ps with
  | nil =>
    intro con con' h
    simp only [dual_loop, Option.some.injEq] at h
    subst h
    exact ⟨fun c => ⟨rfl, rfl, rfl, rfl⟩, fun c hc => by simp at hc, fun c _ => rfl⟩
  | cons p ps ih =>
    intro con con' h
    simp only [dual_loop, Option.bind_eq_some] at h
    obtain ⟨d, hd, hrest⟩ := h
    obtain ⟨hfix, hset, hout⟩ := ih _ con' hrest
    have hupd : ∀ c, ((Function.update con p { con p with dual := d }) c).index =
          (con c).index ∧
        ((Function.update con p { con p with dual := d }) c).lb = (con c).lb ∧
        ((Function.update con p { con p with dual := d }) c).ub = (con c).ub ∧
        ((Function.update con p { con p with dual := d }) c).vars = (con c).vars := by
      intro c
      by_cases hc : c = p
      · subst hc; simp
      · simp [Function.update_noteq hc]
    refine ⟨?_, ?_, ?_⟩
    · intro c
      obtain ⟨h1, h2, h3, h4⟩ := hfix c
      obtain ⟨g1, g2, g3, g4⟩ := hupd c
      exact ⟨h1.trans g1, h2.trans g2, h3.trans g3, h4.trans g4⟩
    · intro c hc
      by_cases hcps : c ∈ ps
      · have := hset c hcps
        rw [(hupd c).1] at this
        exact this
      · have hcp : c = p := by
          rcases List.mem_cons.mp hc with hh | hh
          · exact hh
          · exact absurd hh hcps
        subst hcp
        rw [hout c hcps]
        simp [hd]
    · intro c hc
      have hcp : c ≠ p := fun hh => hc (by rw [hh]; exact List.mem_cons_self _ _)
      have hcps : c ∉ ps := fun hh => hc (List.mem_cons_of_mem _ hh)
      rw [hout c hcps, Function.update_noteq hcp]

/-- The loop over `cons_vector` returns when every index is inside `lambda`. -/
theorem dual_loop_total {α : Type} (lambda : List α) :
    ∀ (ps : List ConPtr) (con : ConPtr → Constraint α),
      (∀ c, c ∈ ps → 0 ≤ (con c).index ∧ (con c).index < lambda.length) →
      ∃ con', dual_loop lambda ps con = some con' := by
  intro ps
  induction ps with
  | nil => intro con _; exact ⟨con, rfl⟩
  | cons p ps ih =>
    intro con hr
    obtain ⟨h0, h1⟩ := hr p (List.mem_cons_self _ _)
    obtain ⟨d, hd⟩ := readArr_some_of_range lambda _ h0 h1
    have hr' : ∀ c, c ∈ ps →
        0 ≤ ((Function.update con p { con p with dual := d }) c).index ∧
        ((Function.update con p { con p with dual := d }) c).index < lambda.length := by
      intro c hc
      have hidx : ((Function.update con p { con p with dual := d }) c).index =
          (con c).index := by
        by_cases hcp : c = p
        · subst hcp; simp
        · simp [Function.update_noteq hcp]
      rw [hidx]
      exact hr c (List.mem_cons_of_mem _ hc)
    obtain ⟨con', hc'⟩ := ih _ hr'
    exact ⟨con', by simp only [dual_loop, hd, Option.some_bind, hc']⟩

/-- C15: when every index of `vars_vector` and `cons_vector` lies inside the solver's
arrays, `finalize_solution` returns; afterwards every variable `v` of `vars_vector` has
`value = x[v.index]`, `lb_dual = z_L[v.index]`, `ub_dual = z_U[v.index]`, every
constraint `c` of `cons_vector` has `dual = lambda[c.index]`, the four per-solve vectors
are empty, and the index fields, the bounds, `vars`, `cons` and `hessian_map` are
unchanged. -/
theorem finalize_solution_writes_back {α σ : Type} (M : IpoptModel α σ)
    (status : SolverReturn) (x z_L z_U lambda : List α)
    (hv : ∀ v, v ∈ M.vars_vector → 0 ≤ (M.var v).index ∧ (M.var v).index < x.length ∧
      (M.var v).index < z_L.length ∧ (M.var v).index < z_U.length)
    (hc : ∀ c, c ∈ M.cons_vector → 0 ≤ (M.con c).index ∧ (M.con c).index < lambda.length) :
    ∃ M', finalize_solution M status x z_L z_U lambda = some M' ∧
      (∀ v, v ∈ M.vars_vector →
        readArr x (M.var v).index = some (M'.var v).value ∧
        readArr z_L (M.var v).index = some (M'.var v).lb_dual ∧
        readArr z_U (M.var v).index = some (M'.var v).ub_dual) ∧
      (∀ c, c ∈ M.cons_vector → readArr lambda (M.con c).index = some (M'.con c).dual) ∧
      M'.vars_vector = [] ∧ M'.cons_vector = [] ∧
      M'.hessian_vector_var1 = [] ∧ M'.hessian_vector_var2 = [] ∧
      (∀ v, (M'.var v).index = (M.var v).index ∧ (M'.var v).lb = (M.var v).lb ∧
        (M'.var v).ub = (M.var v).ub) ∧
      (∀ c, (M'.con c).index = (M.con c).index ∧ (M'.con c).lb = (M.con c).lb ∧
        (M'.con c).ub = (M.con c).ub) ∧
      M'.vars = M.vars ∧ M'.cons = M.cons ∧ M'.hessian_map = M.hessian_map := by
  obtain ⟨var', hvar⟩ := finalize_vars_loop_total x z_L z_U M.vars_vector M.var hv
  obtain ⟨con', hcon⟩ := dual_loop_total lambda M.cons_vector M.con hc
  obtain ⟨hvfix, hvset, _⟩ := finalize_vars_loop_spec x z_L z_U _ _ _ hvar
  obtain ⟨hcfix, hcset, _⟩ := dual_loop_spec lambda _ _ _ hcon
  refine ⟨{ M with solver_status := solver_status_of status, var := var', con := con',
                   vars_vector := [], cons_vector := [], hessian_vector_var1 := [],
                   hessian_vector_var2 := [] },
    by simp only [finalize_solution, hvar, hcon, Option.some_bind], hvset, hcset,
    rfl, rfl, rfl, rfl, hvfix, ?_, rfl, rfl, rfl⟩
  intro c
  obtain ⟨h1, h2, h3, _⟩ := hcfix c
  exact ⟨h1, h2, h3⟩

/-- Witness of `finalize_solution_writes_back` on the scenario model with the final point
`x = [5, 6]`. -/
theorem finalize_solution_writes_back_witness :
    ∃ M', finalize_solution scenarioReady SolverReturn.SUCCESS [5, 6] [1, 2] [3, 4] [7] =
        some M' ∧
      (∀ v, v ∈ scenarioReady.vars_vector →
        readArr [5, 6] (scenarioReady.var v).index = some (M'.var v).value ∧
        readArr [1, 2] (scenarioReady.var v).index = some (M'.var v).lb_dual ∧
        readArr [3, 4] (scenarioReady.var v).index = some (M'.var v).ub_dual) ∧
      (∀ c, c ∈ scenarioReady.cons_vector →
        readArr [7] (scenarioReady.con c).index = some (M'.con c).dual) ∧
      M'.vars_vector = [] ∧ M'.cons_vector = [] ∧
      M'.hessian_vector_var1 = [] ∧ M'.hessian_vector_var2 = [] ∧
      (∀ v, (M'.var v).index = (scenarioReady.var v).index ∧
        (M'.var v).lb = (scenarioReady.var v).lb ∧ (M'.var v).ub = (scenarioReady.var v).ub) ∧
      (∀ c, (M'.con c).index = (scenarioReady.con c).index ∧
        (M'.con c).lb = (scenarioReady.con c).lb ∧ (M'.con c).ub = (scenarioReady.con c).ub) ∧
      M'.vars = scenarioReady.vars ∧ M'.cons = scenarioReady.cons ∧
      M'.hessian_map = scenarioReady.hessian_map :=
  finalize_solution_writes_back scenarioReady SolverReturn.SUCCESS [5, 6] [1, 2] [3, 4] [7]
    (by
      intro v hv
      simp only [scenarioReady, scenarioModel, List.mem_cons, List.mem_singleton,
        List.not_mem_nil, or_false] at hv
      rcases hv with rfl | rfl <;> simp [scenarioReady])
    (by
      intro c hc
      simp [scenarioReady, scenarioModel])

/-- The chain of comparisons, by cases on the outcome code. -/
theorem solver_status_of_cases (s : SolverReturn) :
    solver_status_of s =
      match s with
      | SolverReturn.SUCCESS => "SUCCESS"
      | SolverReturn.MAXITER_EXCEEDED => "MAXITER_EXCEEDED"
      | SolverReturn.CPUTIME_EXCEEDED => "CPUTIME_EXCEEDED"
      | SolverReturn.STOP_AT_TINY_STEP => "STOP_AT_TINY_STEP"
      | SolverReturn.STOP_AT_ACCEPTABLE_POINT => "STOP_AT_ACCEPTABLE_POINT"
      | SolverReturn.LOCAL_INFEASIBILITY => "LOCAL_INFEASIBILITY"
      | SolverReturn.USER_REQUESTED_STOP => "USER_REQUESTED_STOP"
      | SolverReturn.DIVERGING_ITERATES => "DIVERGING_ITERATES"
      | SolverReturn.RESTORATION_FAILURE => "RESTORATION_FAILURE"
      | SolverReturn.ERROR_IN_STEP_COMPUTATION => "ERROR_IN_STEP_COMPUTATION"
      | SolverReturn.INVALID_NUMBER_DETECTED => "INVALID_NUMBER_DETECTED"
      | SolverReturn.INTERNAL_ERROR => "INTERNAL_ERROR"
      | SolverReturn.OTHER _ => "UNKNOWN" := by
  cases s <;> simp [solver_status_of]

/-- The strings of the chain determine a recognised code. -/
theorem solver_status_of_inj (s t : SolverReturn) (hs : s ∈ recognisedCodes)
    (hst : solver_status_of s = solver_status_of t) : s = t := by
  rw [solver_status_of_cases s, solver_status_of_cases t] at hst
  cases s <;> cases t <;> first
    | rfl
    | (exfalso; revert hst; dsimp only; decide)
    | (exfalso; revert hs; simp [recognisedCodes])

/-- The chain ends in its final `else` exactly on a code outside the twelve. -/
theorem solver_status_of_unknown (s : SolverReturn) :
    solver_status_of s = "UNKNOWN" ↔ s ∉ recognisedCodes := by
  rw [solver_status_of_cases s]
  cases s <;> simp [recognisedCodes]

/-- When every index of `vars_vector` and `cons_vector` lies inside the solver's arrays,
`finalize_solution` returns for every outcome code, with the string of the chain of
comparisons in `solver_status`. -/
theorem finalize_solution_stores_status {α σ : Type} (M : IpoptModel α σ)
    (x z_L z_U lambda : List α)
    (hv : ∀ v, v ∈ M.vars_vector → 0 ≤ (M.var v).index ∧ (M.var v).index < x.length ∧
      (M.var v).index < z_L.length ∧ (M.var v).index < z_U.length)
    (hc : ∀ c, c ∈ M.cons_vector → 0 ≤ (M.con c).index ∧ (M.con c).index < lambda.length)
    (status : SolverReturn) :
    ∃ M', finalize_solution M status x z_L z_U lambda = some M' ∧
      M'.solver_status = solver_status_of status := by
  obtain ⟨var', hvar⟩ := finalize_vars_loop_total x z_L z_U M.vars_vector M.var hv
  obtain ⟨con', hcon⟩ := dual_loop_total lambda M.cons_vector M.con hc
  exact ⟨{ M with solver_status := solver_status_of status, var := var', con := con',
                  vars_vector := [], cons_vector := [], hessian_vector_var1 := [],
                  hessian_vector_var2 := [] },
    by simp only [finalize_solution, hvar, hcon, Option.some_bind], rfl⟩

/-- C16: when every index of `vars_vector` and `cons_vector` lies inside the solver's
arrays, `finalize_solution` returns for every outcome code and leaves in `solver_status`
the string of its chain of comparisons: the name of the code for each of the twelve
recognised codes and `"UNKNOWN"` for every other code; two codes of which one is
recognised and which leave the same string are equal; and the string left is
`"UNKNOWN"` exactly when the code is not one of the twelve. -/
theorem finalize_solution_status {α σ : Type} (M : IpoptModel α σ)
    (x z_L z_U lambda : List α)
    (hv : ∀ v, v ∈ M.vars_vector → 0 ≤ (M.var v).index ∧ (M.var v).index < x.length ∧
      (M.var v).index < z_L.length ∧ (M.var v).index < z_U.length)
    (hc : ∀ c, c ∈ M.cons_vector → 0 ≤ (M.con c).index ∧ (M.con c).index < lambda.length) :
    (∀ status, ∃ M', finalize_solution M status x z_L z_U lambda = some M' ∧
      M'.solver_status = solver_status_of status ∧
      solver_status_after M status x z_L z_U lambda = some M'.solver_status) ∧
    solver_status_after M SolverReturn.SUCCESS x z_L z_U lambda = some "SUCCESS" ∧
    solver_status_after M SolverReturn.MAXITER_EXCEEDED x z_L z_U lambda =
      some "MAXITER_EXCEEDED" ∧
    solver_status_after M SolverReturn.CPUTIME_EXCEEDED x z_L z_U lambda =
      some "CPUTIME_EXCEEDED" ∧
    solver_status_after M SolverReturn.STOP_AT_TINY_STEP x z_L z_U lambda =
      some "STOP_AT_TINY_STEP" ∧
    solver_status_after M SolverReturn.STOP_AT_ACCEPTABLE_POINT x z_L z_U lambda =
      some "STOP_AT_ACCEPTABLE_POINT" ∧
    solver_status_after M SolverReturn.LOCAL_INFEASIBILITY x z_L z_U lambda =
      some "LOCAL_INFEASIBILITY" ∧
    solver_status_after M SolverReturn.USER_REQUESTED_STOP x z_L z_U lambda =
      some "USER_REQUESTED_STOP" ∧
    solver_status_after M SolverReturn.DIVERGING_ITERATES x z_L z_U lambda =
      some "DIVERGING_ITERATES" ∧
    solver_status_after M SolverReturn.RESTORATION_FAILURE x z_L z_U lambda =
      some "RESTORATION_FAILURE" ∧
    solver_status_after M SolverReturn.ERROR_IN_STEP_COMPUTATION x z_L z_U lambda =
      some "ERROR_IN_STEP_COMPUTATION" ∧
    solver_status_after M SolverReturn.INVALID_NUMBER_DETECTED x z_L z_U lambda =
      some "INVALID_NUMBER_DETECTED" ∧
    solver_status_after M SolverReturn.INTERNAL_ERROR x z_L z_U lambda =
      some "INTERNAL_ERROR" ∧
    (∀ code, solver_status_after M (SolverReturn.OTHER code) x z_L z_U lambda =
      some "UNKNOWN") ∧
    (∀ s t, s ∈ recognisedCodes →
      solver_status_after M s x z_L z_U lambda = solver_status_after M t x z_L z_U lambda →
      s = t) ∧
    (∀ s, solver_status_after M s x z_L z_U lambda = some "UNKNOWN" ↔
      s ∉ recognisedCodes) := by
  have hafter : ∀ status, solver_status_after M status x z_L z_U lambda =
      some (solver_status_of status) := by
    intro status
    obtain ⟨M', hM', hs⟩ := finalize_solution_stores_status M x z_L z_U lambda hv hc status
    simp only [solver_status_after, hM', Option.map_some', hs]
  have hname : ∀ status, solver_status_after M status x z_L z_U lambda =
      some (match status with
        | SolverReturn.SUCCESS => "SUCCESS"
        | SolverReturn.MAXITER_EXCEEDED => "MAXITER_EXCEEDED"
        | SolverReturn.CPUTIME_EXCEEDED => "CPUTIME_EXCEEDED"
        | SolverReturn.STOP_AT_TINY_STEP => "STOP_AT_TINY_STEP"
        | SolverReturn.STOP_AT_ACCEPTABLE_POINT => "STOP_AT_ACCEPTABLE_POINT"
        | SolverReturn.LOCAL_INFEASIBILITY => "LOCAL_INFEASIBILITY"
        | SolverReturn.USER_REQUESTED_STOP => "USER_REQUESTED_STOP"
        | SolverReturn.DIVERGING_ITERATES => "DIVERGING_ITERATES"
        | SolverReturn.RESTORATION_FAILURE => "RESTORATION_FAILURE"
        | SolverReturn.ERROR_IN_STEP_COMPUTATION => "ERROR_IN_STEP_COMPUTATION"
        | SolverReturn.INVALID_NUMBER_DETECTED => "INVALID_NUMBER_DETECTED"
        | SolverReturn.INTERNAL_ERROR => "INTERNAL_ERROR"
        | SolverReturn.OTHER _ => "UNKNOWN") := by
    intro status
    rw [hafter status, solver_status_of_cases status]
  refine ⟨?_, hname _, hname _, hname _, hname _, hname _, hname _, hname _, hname _,
    hname _, hname _, hname _, hname _, fun code => hname _, ?_, ?_⟩
  · intro status
    obtain ⟨M', hM', hs⟩ := finalize_solution_stores_status M x z_L z_U lambda hv hc status
    exact ⟨M', hM', hs, by rw [hafter status, hs]⟩
  · intro s t hs hst
    rw [hafter s, hafter t] at hst
    exact solver_status_of_inj s t hs (Option.some.inj hst)
  · intro s
    rw [hafter s, Option.some.injEq]
    exact solver_status_of_unknown s

/-- Witness of `finalize_solution_status` on the scenario model with the final point
`x = [5, 6]`. -/
theorem finalize_solution_status_witness :
    (∀ status, ∃ M', finalize_solution scenarioReady status [5, 6] [1, 2] [3, 4] [7] =
        some M' ∧
      M'.solver_status = solver_status_of status ∧
      solver_status_after scenarioReady status [5, 6] [1, 2] [3, 4] [7] =
        some M'.solver_status) ∧
    solver_status_after scenarioReady SolverReturn.SUCCESS [5, 6] [1, 2] [3, 4] [7] =
      some "SUCCESS" ∧
    solver_status_after scenarioReady SolverReturn.INTERNAL_ERROR [5, 6] [1, 2] [3, 4] [7] =
      some "INTERNAL_ERROR" ∧
    solver_status_after scenarioReady (SolverReturn.OTHER 7) [5, 6] [1, 2] [3, 4] [7] =
      some "UNKNOWN" ∧
    (∀ s, solver_status_after scenarioReady s [5, 6] [1, 2] [3, 4] [7] = some "UNKNOWN" ↔
      s ∉ recognisedCodes) :=
  have hall := finalize_solution_status scenarioReady [5, 6] [1, 2] [3, 4] [7]
    (by
      intro v hv
      simp only [scenarioReady, scenarioModel, List.mem_cons, List.mem_singleton,
        List.not_mem_nil, or_false] at hv
      rcases hv with rfl | rfl <;> simp [scenarioReady])
    (by
      intro c hc
      simp [scenarioReady, scenarioModel])
  ⟨hall.1, hall.2.1, hall.2.2.2.2.2.2.2.2.2.2.2.2.1, hall.2.2.2.2.2.2.2.2.2.2.2.2.2.1 7,
    hall.2.2.2.2.2.2.2.2.2.2.2.2.2.2.2⟩

/-! ## `get_nlp_info` and `get_bounds_info` -/

theorem writeArr_append {β : Type} (pre : List β) (y x : β) (t : List β) :
    writeArr (pre ++ y :: t) pre.length x = some (pre ++ x :: t) := by
  have hlt : pre.length < (pre ++ y :: t).length := by simp
  simp only [writeArr, hlt, if_true, Option.some.injEq]
  induction pre with
  | nil => rfl
  | cons a pre ih =>
    have : (pre ++ y :: t).length > pre.length := by simp
    simp [List.set, ih (by simp)]

/-- The loop over `vars` of `get_nlp_info` appends the variables to `vars_vector` and
numbers them consecutively; it changes no other member of a variable. -/
theorem nlp_vars_loop_spec {α : Type} :
    ∀ (ps : List VarPtr) (ndx : Int) (vv : List VarPtr) (var : VarPtr → Var α),
      ps.Nodup →
      (nlp_vars_loop ps ndx vv var).1 = ndx + ps.length ∧
      (nlp_vars_loop ps ndx vv var).2.1 = vv ++ ps ∧
      (∀ (k : Nat) v, ps[k]? = some v →
        ((nlp_vars_loop ps ndx vv var).2.2 v).index = ndx + (k : Int)) ∧
      (∀ v, v ∉ ps → (nlp_vars_loop ps ndx vv var).2.2 v = var v) ∧
      (∀ v, ((nlp_vars_loop ps ndx vv var).2.2 v).lb = (var v).lb ∧
        ((nlp_vars_loop ps ndx vv var).2.2 v).ub = (var v).ub ∧
        ((nlp_vars_loop ps ndx vv var).2.2 v).value = (var v).value ∧
        ((nlp_vars_loop ps ndx vv var).2.2 v).lb_dual = (var v).lb_dual ∧
        ((nlp_vars_loop ps ndx vv var).2.2 v).ub_dual = (var v).ub_dual) := by
  intro ps
  induction ps with
  | nil =>
    intro ndx vv var _
    simp [nlp_vars_loop]
  | cons p ps ih =>
    intro ndx vv var hnd
    have hp : p ∉ ps := (List.nodup_cons.mp hnd).1
    obtain ⟨h1, h2, h3, h4, h5⟩ := ih (ndx + 1) (vv ++ [p])
      (Function.update var p { var p with index := ndx }) (List.nodup_cons.mp hnd).2
    simp only [nlp_vars_loop]
    refine ⟨?_, ?_, ?_, ?_, ?_⟩
    · rw [h1]; simp only [List.length_cons]; push_cast; ring
    · rw [h2]; simp
    · intro k v hk
      cases k with
      | zero =>
        simp only [List.getElem?_cons_zero, Option.some.injEq] at hk
        subst hk
        rw [h4 p hp]
        simp
      | succ k =>
        simp only [List.getElem?_cons_succ] at hk
        rw [h3 k v hk]
        push_cast
        ring
    · intro v hv
      have hvp : v ≠ p := fun hh => hv (by rw [hh]; exact List.mem_cons_self _ _)
      have hvps : v ∉ ps := fun hh => hv (List.mem_cons_of_mem _ hh)
      rw [h4 v hvps, Function.update_noteq hvp]
    · intro v
      obtain ⟨g1, g2, g3, g4, g5⟩ := h5 v
      by_cases hvp : v = p
      · subst hvp
        simp only [Function.update_same] at g1 g2 g3 g4 g5
        exact ⟨g1, g2, g3, g4, g5⟩
      · simp only [Function.update_noteq hvp] at g1 g2 g3 g4 g5
        exact ⟨g1, g2, g3, g4, g5⟩

/-- The loop over `cons` of `get_nlp_info` appends the constraints to `cons_vector`,
numbers them consecutively and adds up the sizes of their variable vectors; it changes
no other member of a constraint. -/
theorem nlp_cons_loop_spec {α : Type} :
    ∀ (ps : List ConPtr) (nnz ndx : Int) (cv : List ConPtr) (con : ConPtr → Constraint α),
      ps.Nodup →
      (nlp_cons_loop ps nnz ndx cv con).1 =
        nnz + ((ps.map fun c => (con c).vars.length).sum : Nat) ∧
      (nlp_cons_loop ps nnz ndx cv con).2.2.1 = cv ++ ps ∧
      (∀ (k : Nat) c, ps[k]? = some c →
        ((nlp_cons_loop ps nnz ndx cv con).2.2.2 c).index = ndx + (k : Int)) ∧
      (∀ c, c ∉ ps → (nlp_cons_loop ps nnz ndx cv con).2.2.2 c = con c) ∧
      (∀ c, ((nlp_cons_loop ps nnz ndx cv con).2.2.2 c).lb = (con c).lb ∧
        ((nlp_cons_loop ps nnz ndx cv con).2.2.2 c).ub = (con c).ub ∧
        ((nlp_cons_loop ps nnz ndx cv con).2.2.2 c).dual = (con c).dual ∧
        ((nlp_cons_loop ps nnz ndx cv con).2.2.2 c).vars = (con c).vars) := by
  intro ps
  induction ps with
  | nil =>
    intro nnz ndx cv con _
    simp [nlp_cons_loop]
  | cons p ps ih =>
    intro nnz ndx cv con hnd
    have hp : p ∉ ps := (List.nodup_cons.mp hnd).1
    obtain ⟨h1, h2, h3, h4, h5⟩ := ih (nnz + ((con p).vars.length : Int)) (ndx + 1)
      (cv ++ [p]) (Function.update con p { con p with index := ndx })
      (List.nodup_cons.mp hnd).2
    have hvars : ∀ c, ((Function.update con p { con p with index := ndx }) c).vars =
        (con c).vars := by
      intro c
      by_cases hc : c = p
      · subst hc; simp
      · simp [Function.update_noteq hc]
    simp only [nlp_cons_loop]
    refine ⟨?_, ?_, ?_, ?_, ?_⟩
    · rw [h1]
      simp only [hvars, List.map_cons, List.sum_cons]
      push_cast
      ring
    · rw [h2]; simp
    · intro k c hk
      cases k with
      | zero =>
        simp only [List.getElem?_cons_zero, Option.some.injEq] at hk
        subst hk
        rw [h4 p hp]
        simp
      | succ k =>
        simp only [List.getElem?_cons_succ] at hk
        rw [h3 k c hk]
        push_cast
        ring
    · intro c hc
      have hcp : c ≠ p := fun hh => hc (by rw [hh]; exact List.mem_cons_self _ _)
      have hcps : c ∉ ps := fun hh => hc (List.mem_cons_of_mem _ hh)
      rw [h4 c hcps, Function.update_noteq hcp]
    · intro c
      obtain ⟨g1, g2, g3, g4⟩ := h5 c
      by_cases hcp : c = p
      · subst hcp
        simp only [Function.update_same] at g1 g2 g3 g4
        exact ⟨g1, g2, g3, g4⟩
      · simp only [Function.update_noteq hcp] at g1 g2 g3 g4
        exact ⟨g1, g2, g3, g4⟩

/-- A loop of `get_bounds_info` overwrites the `ps.length` array entries from position
`pre.length` on with the bounds of the elements of `ps`, in order. -/
theorem bounds_loop_spec {α : Type} (lo hi : Nat → α) :
    ∀ (ps : List Nat) (pre_l mid_l rest_l pre_u mid_u rest_u : List α),
      pre_u.length = pre_l.length → mid_l.length = ps.length → mid_u.length = ps.length →
      bounds_loop lo hi ps pre_l.length (pre_l ++ mid_l ++ rest_l) (pre_u ++ mid_u ++ rest_u) =
        some (pre_l ++ ps.map lo ++ rest_l, pre_u ++ ps.map hi ++ rest_u) := by
  intro ps
  induction ps with
  | nil =>
    intro pre_l mid_l rest_l pre_u mid_u rest_u _ hl hu
    have h1 : mid_l = [] := List.length_eq_zero.mp hl
    have h2 : mid_u = [] := List.length_eq_zero.mp hu
    subst h1; subst h2
    simp [bounds_loop]
  | cons p ps ih =>
    intro pre_l mid_l rest_l pre_u mid_u rest_u hpre hl hu
    cases mid_l with
    | nil => simp at hl
    | cons y mid_l =>
      cases mid_u with
      | nil => simp at hu
      | cons z mid_u =>
        have w1 : writeArr (pre_l ++ y :: mid_l ++ rest_l) pre_l.length (lo p) =
            some (pre_l ++ lo p :: (mid_l ++ rest_l)) := by
          have := writeArr_append pre_l y (lo p) (mid_l ++ rest_l)
          simpa using this
        have w2 : writeArr (pre_u ++ z :: mid_u ++ rest_u) pre_l.length (hi p) =
            some (pre_u ++ hi p :: (mid_u ++ rest_u)) := by
          have := writeArr_append pre_u z (hi p) (mid_u ++ rest_u)
          rw [hpre] at this
          simpa using this
        simp only [bounds_loop, w1, w2, Option.some_bind]
        have := ih (pre_l ++ [lo p]) mid_l rest_l (pre_u ++ [hi p]) mid_u rest_u
          (by simp [hpre]) (by simpa using hl) (by simpa using hu)
        simp only [List.length_append, List.length_singleton, List.append_assoc,
          List.singleton_append] at this
        simpa using this

theorem nlp_hess_row_spec {α : Type} (var : VarPtr → Var α) (row : VarPtr) :
    ∀ (cols : HessRow) (nnz : Int),
      (∀ col, col ∈ cols → col.2.cons.length > 0 ∨ col.2.obj.length > 0) →
      nlp_hess_row var row cols nnz = some (nnz + (hessRowEntries var row cols).length) := by
  intro cols
  induction cols with
  | nil => intro nnz _; simp [nlp_hess_row, hessRowEntries]
  | cons col cols ih =>
    intro nnz hne
    have hcol := hne col (List.mem_cons_self _ _)
    have hrest : ∀ c, c ∈ cols → c.2.cons.length > 0 ∨ c.2.obj.length > 0 :=
      fun c hc => hne c (List.mem_cons_of_mem _ hc)
    by_cases hle : (var col.1).index ≤ (var row).index
    · simp only [nlp_hess_row, hessRowEntries, hle, if_true, hcol, ih _ hrest,
        List.length_cons]
      congr 1
      push_cast
      ring
    · simp only [nlp_hess_row, hessRowEntries, hle, if_false, ih _ hrest]

/-- The count `nnz_h_lag` of `get_nlp_info` is the number of entries of `hessian_map`
whose column variable index is `<=` the row variable index. -/
theorem nlp_hess_loop_spec {α : Type} (var : VarPtr → Var α) :
    ∀ (hm : HessMap) (nnz : Int), cellsNonempty hm →
      nlp_hess_loop var hm nnz = some (nnz + (hessEntries var hm).length) := by
  intro hm
  induction hm with
  | nil => intro nnz _; simp [nlp_hess_loop, hessEntries]
  | cons row rows ih =>
    intro nnz hne
    have hrow := nlp_hess_row_spec var row.1 row.2 nnz (hne row (List.mem_cons_self _ _))
    have hrest : cellsNonempty rows := fun r hr => hne r (List.mem_cons_of_mem _ hr)
    simp only [nlp_hess_loop, hrow, Option.some_bind, ih _ hrest, hessEntries,
      List.length_append]
    congr 1
    push_cast
    ring

theorem nlp_hess_row_result {α : Type} (var : VarPtr → Var α) (row : VarPtr) :
    ∀ (cols : HessRow) (nnz r : Int), nlp_hess_row var row cols nnz = some r →
      r = nnz + (hessRowEntries var row cols).length := by
  intro cols
  induction cols with
  | nil =>
    intro nnz r h
    simp only [nlp_hess_row, Option.some.injEq] at h
    simp [hessRowEntries, h]
  | cons col cols ih =>
    intro nnz r h
    by_cases hle : (var col.1).index ≤ (var row).index
    · by_cases hne : col.2.cons.length > 0 ∨ col.2.obj.length > 0
      · simp only [nlp_hess_row, hle, if_true, hne] at h
        rw [ih _ _ h]
        simp only [hessRowEntries, hle, if_true, List.length_cons]
        push_cast
        ring
      · simp [nlp_hess_row, hle, hne] at h
    · simp only [nlp_hess_row, hle, if_false] at h
      rw [ih _ _ h]
      simp only [hessRowEntries, hle, if_false]

/-- When the count loop of `get_nlp_info` returns, the count is the number of entries of
`hessian_map` whose column variable index is `<=` the row variable index. -/
theorem nlp_hess_loop_result {α : Type} (var : VarPtr → Var α) :
    ∀ (hm : HessMap) (nnz r : Int), nlp_hess_loop var hm nnz = some r →
      r = nnz + (hessEntries var hm).length := by
  intro hm
  induction hm with
  | nil =>
    intro nnz r h
    simp only [nlp_hess_loop, Option.some.injEq] at h
    simp [hessEntries, h]
  | cons row rows ih =>
    intro nnz r h
    simp only [nlp_hess_loop, Option.bind_eq_some] at h
    obtain ⟨r1, h1, h2⟩ := h
    rw [ih _ _ h2, nlp_hess_row_result var row.1 row.2 nnz r1 h1]
    simp only [hessEntries, List.length_append]
    push_cast
    ring

theorem jacSlotsOf_length {α : Type} (con con' : ConPtr → Constraint α)
    (hvars : ∀ c, (con' c).vars = (con c).vars) :
    ∀ cs : List ConPtr,
      (jacSlotsOf con' cs).length = (cs.map fun c => (con c).vars.length).sum := by
  intro cs
  induction cs with
  | nil => rfl
  | cons c cs ih => simp [jacSlotsOf, hvars, ih]

/-- What a returning call of `get_nlp_info` reports and leaves behind on a model with
empty ordering vectors. -/
theorem get_nlp_info_result {α σ : Type} (M : IpoptModel α σ) (hvv : M.vars_vector = [])
    (hcv : M.cons_vector = []) (hnv : M.vars.Nodup) (hnc : M.cons.Nodup)
    (info : NlpInfo) (M' : IpoptModel α σ) (hinfo : get_nlp_info M = some (info, M')) :
    info.n = M.vars.length ∧ info.m = M.cons.length ∧
    info.index_style = IndexStyleEnum.C_STYLE ∧
    info.nnz_jac_g = ((jacSlots M').length : Int) ∧
    info.nnz_h_lag = ((hessEntries M'.var M'.hessian_map).length : Int) ∧
    M'.vars_vector = M.vars ∧ M'.cons_vector = M.cons ∧
    (∀ (k : Nat) v, M.vars[k]? = some v → (M'.var v).index = (k : Int)) ∧
    (∀ (k : Nat) c, M.cons[k]? = some c → (M'.con c).index = (k : Int)) ∧
    (∀ v, (M'.var v).lb = (M.var v).lb ∧ (M'.var v).ub = (M.var v).ub ∧
      (M'.var v).value = (M.var v).value) ∧
    (∀ c, (M'.con c).lb = (M.con c).lb ∧ (M'.con c).ub = (M.con c).ub ∧
      (M'.con c).vars = (M.con c).vars) ∧
    M'.vars = M.vars ∧ M'.cons = M.cons ∧ M'.hessian_map = M.hessian_map ∧
    M'.hessian_vector_var1 = M.hessian_vector_var1 ∧
    M'.hessian_vector_var2 = M.hessian_vector_var2 ∧ M'.cache = M.cache := by
  obtain ⟨_, v2, v3, _, v5⟩ := nlp_vars_loop_spec M.vars 0 [] M.var hnv
  obtain ⟨c1, c2, c3, _, c5⟩ := nlp_cons_loop_spec M.cons 0 0 [] M.con hnc
  simp only [get_nlp_info, hvv, hcv, Option.bind_eq_some, Option.some.injEq,
    Prod.mk.injEq] at hinfo
  obtain ⟨nnz, hnnz, hi, hm⟩ := hinfo
  have hh := nlp_hess_loop_result _ _ _ _ hnnz
  subst hi
  subst hm
  refine ⟨rfl, rfl, rfl, ?_, ?_, ?_, ?_, ?_, ?_, ?_, ?_, rfl, rfl, rfl, rfl, rfl, rfl⟩
  · show (nlp_cons_loop M.cons 0 0 [] M.con).1 = _
    rw [c1]
    simp only [jacSlots, c2, List.nil_append, zero_add]
    rw [jacSlotsOf_length M.con _ (fun c => (c5 c).2.2.2) M.cons]
  · show nnz = _
    rw [hh, zero_add]
  · show (nlp_vars_loop M.vars 0 [] M.var).2.1 = _
    rw [v2]; rfl
  · show (nlp_cons_loop M.cons 0 0 [] M.con).2.2.1 = _
    rw [c2]; rfl
  · intro k v hk
    have := v3 k v hk
    simpa using this
  · intro k c hk
    have := c3 k c hk
    simpa using this
  · intro v
    exact ⟨(v5 v).1, (v5 v).2.1, (v5 v).2.2.1⟩
  · intro c
    exact ⟨(c5 c).1, (c5 c).2.1, (c5 c).2.2.2⟩

/-- The method `get_nlp_info` returns when every cell of `hessian_map` passes the
`assert`. -/
theorem get_nlp_info_total {α σ : Type} (M : IpoptModel α σ)
    (hne : cellsNonempty M.hessian_map) : ∃ info M', get_nlp_info M = some (info, M') := by
  have hh := nlp_hess_loop_spec (nlp_vars_loop M.vars 0 M.vars_vector M.var).2.2
    M.hessian_map 0 hne
  simp only [get_nlp_info, hh, Option.some_bind]
  exact ⟨_, _, rfl⟩

/-- C12: on a model with empty ordering vectors, distinct variables and distinct
constraints, `get_nlp_info` reports `n` and `m` as the numbers of variables and
constraints and the index style `C_STYLE`, gives the `k`-th variable and the `k`-th
constraint the index `k`, makes `vars_vector` and `cons_vector` the lists of variables
and constraints in this order; then `get_bounds_info`, on arrays of `n` and `m` entries,
fills every entry, entry `i` with the bounds of the variable (constraint) of index `i`. -/
theorem get_nlp_info_assigns_indices {α σ : Type} (M : IpoptModel α σ)
    (hvv : M.vars_vector = []) (hcv : M.cons_vector = []) (hnv : M.vars.Nodup)
    (hnc : M.cons.Nodup) (hne : cellsNonempty M.hessian_map) (x_l x_u g_l g_u : List α)
    (hxl : x_l.length = M.vars.length) (hxu : x_u.length = M.vars.length)
    (hgl : g_l.length = M.cons.length) (hgu : g_u.length = M.cons.length) :
    ∃ info M', get_nlp_info M = some (info, M') ∧
      info.n = M.vars.length ∧ info.m = M.cons.length ∧
      info.index_style = IndexStyleEnum.C_STYLE ∧
      M'.vars_vector = M.vars ∧ M'.cons_vector = M.cons ∧
      (M'.vars_vector.length : Int) = info.n ∧ (M'.cons_vector.length : Int) = info.m ∧
      (∀ (k : Nat) v, M'.vars_vector[k]? = some v → (M'.var v).index = (k : Int)) ∧
      (∀ (k : Nat) c, M'.cons_vector[k]? = some c → (M'.con c).index = (k : Int)) ∧
      ∃ out, get_bounds_info M' x_l x_u g_l g_u = some out ∧
        (out.1.1.length : Int) = info.n ∧ (out.1.2.length : Int) = info.n ∧
        (out.2.1.length : Int) = info.m ∧ (out.2.2.length : Int) = info.m ∧
        (∀ (i : Nat) v, M'.vars_vector[i]? = some v →
          (M'.var v).index = (i : Int) ∧ out.1.1[i]? = some (M.var v).lb ∧
          out.1.2[i]? = some (M.var v).ub) ∧
        (∀ (i : Nat) c, M'.cons_vector[i]? = some c →
          (M'.con c).index = (i : Int) ∧ out.2.1[i]? = some (M.con c).lb ∧
          out.2.2[i]? = some (M.con c).ub) := by
  obtain ⟨info, M', hinfo⟩ := get_nlp_info_total M hne
  obtain ⟨hn, hm, hstyle, _, _, hvs, hcs, hvi, hci, hvb, hcb, _⟩ :=
    get_nlp_info_result M hvv hcv hnv hnc info M' hinfo
  have hbx := bounds_loop_spec (fun p => (M'.var p).lb) (fun p => (M'.var p).ub)
    M'.vars_vector [] x_l [] [] x_u [] rfl (by rw [hvs]; exact hxl) (by rw [hvs]; exact hxu)
  have hbg := bounds_loop_spec (fun p => (M'.con p).lb) (fun p => (M'.con p).ub)
    M'.cons_vector [] g_l [] [] g_u [] rfl (by rw [hcs]; exact hgl) (by rw [hcs]; exact hgu)
  simp only [List.length_nil, List.nil_append, List.append_nil] at hbx hbg
  have hb : get_bounds_info M' x_l x_u g_l g_u =
      some ((M'.vars_vector.map fun p => (M'.var p).lb,
             M'.vars_vector.map fun p => (M'.var p).ub),
            (M'.cons_vector.map fun p => (M'.con p).lb,
             M'.cons_vector.map fun p => (M'.con p).ub)) := by
    simp only [get_bounds_info, hbx, hbg, Option.some_bind]
  refine ⟨info, M', hinfo, hn, hm, hstyle, hvs, hcs, by rw [hvs, hn], by rw [hcs, hm],
    by rw [hvs]; exact hvi, by rw [hcs]; exact hci, _, hb, ?_, ?_, ?_, ?_, ?_, ?_⟩
  · simp [hvs, hn]
  · simp [hvs, hn]
  · simp [hcs, hm]
  · simp [hcs, hm]
  · intro i v hi
    refine ⟨hvi i v (by rw [← hvs]; exact hi), ?_, ?_⟩
    · simp only [List.getElem?_map, hi, Option.map_some', (hvb v).1]
    · simp only [List.getElem?_map, hi, Option.map_some', (hvb v).2.1]
  · intro i c hi
    refine ⟨hci i c (by rw [← hcs]; exact hi), ?_, ?_⟩
    · simp only [List.getElem?_map, hi, Option.map_some', (hcb c).1]
    · simp only [List.getElem?_map, hi, Option.map_some', (hcb c).2.1]

/-! ## `eval_jac_g` -/

theorem split_length {β : Type} (mid : List β) (a b : Nat) (h : mid.length = a + b) :
    ∃ m1 m2, mid = m1 ++ m2 ∧ m1.length = a ∧ m2.length = b :=
  ⟨mid.take a, mid.drop a, (List.take_append_drop a mid).symm, by simp [h], by simp [h]⟩

theorem jac_struct_inner_spec {α σ : Type} (M : IpoptModel α σ) (c : ConPtr) :
    ∀ (vs : List VarPtr) (pre_i mid_i rest_i pre_j mid_j rest_j : List Int),
      pre_j.length = pre_i.length → mid_i.length = vs.length → mid_j.length = vs.length →
      jac_struct_inner M c vs pre_i.length (pre_i ++ mid_i ++ rest_i)
          (pre_j ++ mid_j ++ rest_j) =
        some (pre_i.length + vs.length,
          pre_i ++ vs.map (fun _ => (M.con c).index) ++ rest_i,
          pre_j ++ vs.map (fun v => (M.var v).index) ++ rest_j) := by
  intro vs
  induction vs with
  | nil =>
    intro pre_i mid_i rest_i pre_j mid_j rest_j _ hi hj
    have h1 : mid_i = [] := List.length_eq_zero.mp hi
    have h2 : mid_j = [] := List.length_eq_zero.mp hj
    subst h1; subst h2
    simp [jac_struct_inner]
  | cons v vs ih =>
    intro pre_i mid_i rest_i pre_j mid_j rest_j hpre hi hj
    cases mid_i with
    | nil => simp at hi
    | cons y mid_i =>
      cases mid_j with
      | nil => simp at hj
      | cons z mid_j =>
        have w1 : writeArr (pre_i ++ y :: mid_i ++ rest_i) pre_i.length (M.con c).index =
            some (pre_i ++ (M.con c).index :: (mid_i ++ rest_i)) := by
          have := writeArr_append pre_i y (M.con c).index (mid_i ++ rest_i)
          simpa using this
        have w2 : writeArr (pre_j ++ z :: mid_j ++ rest_j) pre_i.length (M.var v).index =
            some (pre_j ++ (M.var v).index :: (mid_j ++ rest_j)) := by
          have := writeArr_append pre_j z (M.var v).index (mid_j ++ rest_j)
          rw [hpre] at this
          simpa using this
        simp only [jac_struct_inner, w1, w2, Option.some_bind]
        have := ih (pre_i ++ [(M.con c).index]) mid_i rest_i (pre_j ++ [(M.var v).index])
          mid_j rest_j (by simp [hpre]) (by simpa using hi) (by simpa using hj)
        simp only [List.length_append, List.length_singleton, List.append_assoc,
          List.singleton_append, List.cons_append, List.length_cons, List.map_cons,
          List.nil_append, List.length_nil, Nat.zero_add]
          at this ⊢
        rw [this]
        simp only [Option.some.injEq, Prod.mk.injEq, and_true]
        omega

/-- The structure mode of `eval_jac_g` overwrites the array entries from position
`pre.length` on with the constraint index and the variable index of each pair of the
enumeration, in order. -/
theorem jac_struct_outer_spec {α σ : Type} (M : IpoptModel α σ) :
    ∀ (cs : List ConPtr) (pre_i mid_i rest_i pre_j mid_j rest_j : List Int),
      pre_j.length = pre_i.length → mid_i.length = (jacSlotsOf M.con cs).length →
      mid_j.length = (jacSlotsOf M.con cs).length →
      jac_struct_outer M cs pre_i.length (pre_i ++ mid_i ++ rest_i)
          (pre_j ++ mid_j ++ rest_j) =
        some (pre_i.length + (jacSlotsOf M.con cs).length,
          pre_i ++ (jacSlotsOf M.con cs).map (fun s => (M.con s.1).index) ++ rest_i,
          pre_j ++ (jacSlotsOf M.con cs).map (fun s => (M.var s.2).index) ++ rest_j) := by
  intro cs
  induction cs with
  | nil =>
    intro pre_i mid_i rest_i pre_j mid_j rest_j _ hi hj
    have h1 : mid_i = [] := List.length_eq_zero.mp hi
    have h2 : mid_j = [] := List.length_eq_zero.mp hj
    subst h1; subst h2
    simp [jac_struct_outer, jacSlotsOf]
  | cons c cs ih =>
    intro pre_i mid_i rest_i pre_j mid_j rest_j hpre hi hj
    simp only [jacSlotsOf, List.length_append, List.length_map] at hi hj
    obtain ⟨a1, a2, ha, ha1, ha2⟩ := split_length mid_i _ _ hi
    obtain ⟨b1, b2, hb, hb1, hb2⟩ := split_length mid_j _ _ hj
    subst ha; subst hb
    have hin := jac_struct_inner_spec M c (M.con c).vars pre_i a1 (a2 ++ rest_i) pre_j b1
      (b2 ++ rest_j) hpre ha1 hb1
    have hout := ih (pre_i ++ (M.con c).vars.map (fun _ => (M.con c).index)) a2 rest_i
      (pre_j ++ (M.con c).vars.map (fun v => (M.var v).index)) b2 rest_j
      (by simp [hpre]) ha2 hb2
    simp only [List.length_append, List.length_map, List.append_assoc] at hin hout ⊢
    simp only [jac_struct_outer, hin, Option.some_bind, hout]
    simp only [jacSlotsOf, List.map_append, List.map_map, List.length_append,
      List.length_map, List.append_assoc, Option.some.injEq, Prod.mk.injEq]
    exact ⟨by omega, rfl, rfl⟩

theorem jac_value_inner_spec {α σ : Type} (L : ExprLayer α σ) (M : IpoptModel α σ)
    (c : ConPtr) :
    ∀ (vs : List VarPtr) (pre mid rest : List α), mid.length = vs.length →
      jac_value_inner L M c vs pre.length (pre ++ mid ++ rest) =
        some (pre.length + vs.length,
          pre ++ vs.map (fun v => L.con_ad M.cache M.var c v) ++ rest) := by
  intro vs
  induction vs with
  | nil =>
    intro pre mid rest hm
    have h1 : mid = [] := List.length_eq_zero.mp hm
    subst h1
    simp [jac_value_inner]
  | cons v vs ih =>
    intro pre mid rest hm
    cases mid with
    | nil => simp at hm
    | cons y mid =>
      have w1 : writeArr (pre ++ y :: mid ++ rest) pre.length (L.con_ad M.cache M.var c v) =
          some (pre ++ L.con_ad M.cache M.var c v :: (mid ++ rest)) := by
        have := writeArr_append pre y (L.con_ad M.cache M.var c v) (mid ++ rest)
        simpa using this
      simp only [jac_value_inner, w1, Option.some_bind]
      have := ih (pre ++ [L.con_ad M.cache M.var c v]) mid rest (by simpa using hm)
      simp only [List.length_append, List.length_singleton, List.append_assoc,
        List.singleton_append, List.cons_append, List.length_cons, List.map_cons,
          List.nil_append, List.length_nil, Nat.zero_add]
        at this ⊢
      rw [this]
      simp only [Option.some.injEq, Prod.mk.injEq, and_true]
      omega

/-- The value mode of `eval_jac_g` overwrites the array entries from position
`pre.length` on with the first derivative `ad` of each pair of the enumeration, in
order. -/
theorem jac_value_outer_spec {α σ : Type} (L : ExprLayer α σ) (M : IpoptModel α σ) :
    ∀ (cs : List ConPtr) (pre mid rest : List α),
      mid.length = (jacSlotsOf M.con cs).length →
      jac_value_outer L M cs pre.length (pre ++ mid ++ rest) =
        some (pre.length + (jacSlotsOf M.con cs).length,
          pre ++ (jacSlotsOf M.con cs).map (fun s => L.con_ad M.cache M.var s.1 s.2) ++
            rest) := by
  intro cs
  induction cs with
  | nil =>
    intro pre mid rest hm
    have h1 : mid = [] := List.length_eq_zero.mp hm
    subst h1
    simp [jac_value_outer, jacSlotsOf]
  | cons c cs ih =>
    intro pre mid rest hm
    simp only [jacSlotsOf, List.length_append, List.length_map] at hm
    obtain ⟨a1, a2, ha, ha1, ha2⟩ := split_length mid _ _ hm
    subst ha
    have hin := jac_value_inner_spec L M c (M.con c).vars pre a1 (a2 ++ rest) ha1
    have hout := ih (pre ++ (M.con c).vars.map (fun v => L.con_ad M.cache M.var c v)) a2 rest
      ha2
    simp only [List.length_append, List.length_map, List.append_assoc] at hin hout ⊢
    simp only [jac_value_outer, hin, Option.some_bind, hout]
    simp only [jacSlotsOf, List.map_append, List.map_map, List.length_append,
      List.length_map, List.append_assoc, Option.some.injEq, Prod.mk.injEq]
    exact ⟨by omega, rfl⟩

/-- The loop `ptr_to_var->value = x[ptr_to_var->index]` returns when every index is inside
`x`, and changes only the member `value`. -/
theorem sync_vars_loop_total {α : Type} (x : List α) :
    ∀ (ps : List VarPtr) (var : VarPtr → Var α),
      (∀ v, v ∈ ps → 0 ≤ (var v).index ∧ (var v).index < x.length) →
      ∃ var', sync_vars_loop x ps var = some var' ∧
        ∀ v, (var' v).index = (var v).index ∧ (var' v).lb = (var v).lb ∧
          (var' v).ub = (var v).ub := by
  intro ps
  induction ps with
  | nil => intro var _; exact ⟨var, rfl, fun v => ⟨rfl, rfl, rfl⟩⟩
  | cons p ps ih =>
    intro var hr
    obtain ⟨h0, h1⟩ := hr p (List.mem_cons_self _ _)
    obtain ⟨xv, hx⟩ := readArr_some_of_range x _ h0 h1
    have hupd : ∀ v, ((Function.update var p { var p with value := xv }) v).index =
          (var v).index ∧
        ((Function.update var p { var p with value := xv }) v).lb = (var v).lb ∧
        ((Function.update var p { var p with value := xv }) v).ub = (var v).ub := by
      intro v
      by_cases hvp : v = p
      · subst hvp; simp
      · simp [Function.update_noteq hvp]
    obtain ⟨var', hv', hfix⟩ := ih (Function.update var p { var p with value := xv })
      (by
        intro v hv
        rw [(hupd v).1]
        exact hr v (List.mem_cons_of_mem _ hv))
    refine ⟨var', by simp only [sync_vars_loop, hx, Option.some_bind, hv'], ?_⟩
    intro v
    obtain ⟨a1, a2, a3⟩ := hfix v
    obtain ⟨b1, b2, b3⟩ := hupd v
    exact ⟨a1.trans b1, a2.trans b2, a3.trans b3⟩

/-- The block for `new_x` returns when every index of `vars_vector` is inside `x`; it
changes the variable values and the state of the expression layer only. -/
theorem sync_new_x_total {α σ : Type} (L : ExprLayer α σ) (x : List α) (M : IpoptModel α σ)
    (hr : ∀ v, v ∈ M.vars_vector → 0 ≤ (M.var v).index ∧ (M.var v).index < x.length) :
    ∃ M1, sync_new_x L x M = some M1 ∧ M1.con = M.con ∧ M1.cons_vector = M.cons_vector ∧
      M1.vars_vector = M.vars_vector ∧ M1.hessian_map = M.hessian_map ∧
      M1.hessian_vector_var1 = M.hessian_vector_var1 ∧
      M1.hessian_vector_var2 = M.hessian_vector_var2 ∧
      ∀ v, (M1.var v).index = (M.var v).index := by
  obtain ⟨var', hv', hfix⟩ := sync_vars_loop_total x M.vars_vector M.var hr
  simp only [sync_new_x, hv', Option.some_bind]
  exact ⟨_, rfl, rfl, rfl, rfl, rfl, rfl, rfl, fun v => (hfix v).1⟩

theorem mem_jacSlotsOf {α : Type} (con : ConPtr → Constraint α) :
    ∀ (cs : List ConPtr) (c : ConPtr) (v : VarPtr),
      (c, v) ∈ jacSlotsOf con cs → c ∈ cs ∧ v ∈ (con c).vars := by
  intro cs
  induction cs with
  | nil => intro c v h; simp [jacSlotsOf] at h
  | cons c0 cs ih =>
    intro c v h
    simp only [jacSlotsOf, List.mem_append, List.mem_map, Prod.mk.injEq] at h
    rcases h with ⟨w, hw, rfl, rfl⟩ | h
    · exact ⟨List.mem_cons_self _ _, hw⟩
    · exact ⟨List.mem_cons_of_mem _ (ih c v h).1, (ih c v h).2⟩

/-- C13: after `get_nlp_info` on a model with empty ordering vectors, the two modes of
`eval_jac_g` enumerate the same (constraint, variable) pairs, the constraints in
`cons_vector` order and within each its variables in `get_vars()` order: position `k`
of `iRow` and `jCol` holds the indices of the `k`-th pair, position `k` of `values` holds
the first derivative `ad` of the `k`-th pair's constraint with respect to its variable,
that constraint is the one that `cons_vector` holds at index `iRow[k]`, and the number
of positions written in either mode is the `nnz_jac_g` that `get_nlp_info` reported. -/
theorem eval_jac_g_aligned {α σ : Type} (L : ExprLayer α σ) (M : IpoptModel α σ)
    (hvv : M.vars_vector = []) (hcv : M.cons_vector = []) (hnv : M.vars.Nodup)
    (hnc : M.cons.Nodup) (info : NlpInfo) (M1 : IpoptModel α σ)
    (hinfo : get_nlp_info M = some (info, M1)) (x : List α) (new_x : Bool)
    (iRow jCol : List Int) (vals : List α) (hx : x.length = M.vars.length)
    (hiRow : (iRow.length : Int) = info.nnz_jac_g)
    (hjCol : (jCol.length : Int) = info.nnz_jac_g)
    (hvals : (vals.length : Int) = info.nnz_jac_g) :
    ∃ rs rv vs, eval_jac_g L M1 x new_x iRow jCol none = some rs ∧
      eval_jac_g L M1 x new_x iRow jCol (some vals) = some rv ∧ rv.values = some vs ∧
      ((jacSlots M1).length : Int) = info.nnz_jac_g ∧
      rs.iRow = (jacSlots M1).map (fun s => (M1.con s.1).index) ∧
      rs.jCol = (jacSlots M1).map (fun s => (M1.var s.2).index) ∧
      vs = (jacSlots M1).map (fun s => L.con_ad rv.model.cache rv.model.var s.1 s.2) ∧
      ∀ (k : Nat) (c : ConPtr) (v : VarPtr), (jacSlots M1)[k]? = some (c, v) →
        rs.iRow[k]? = some (M1.con c).index ∧ rs.jCol[k]? = some (M1.var v).index ∧
        vs[k]? = some (L.con_ad rv.model.cache rv.model.var c v) ∧
        readArr M1.cons_vector (M1.con c).index = some c ∧ v ∈ (M1.con c).vars := by
  obtain ⟨_, _, _, hnnz, _, hvs, hcs, hvi, hci, _⟩ :=
    get_nlp_info_result M hvv hcv hnv hnc info M1 hinfo
  have hlen_i : iRow.length = (jacSlotsOf M1.con M1.cons_vector).length := by
    have : (iRow.length : Int) = ((jacSlots M1).length : Int) := by rw [hiRow, hnnz]
    exact_mod_cast this
  have hlen_j : jCol.length = (jacSlotsOf M1.con M1.cons_vector).length := by
    have : (jCol.length : Int) = ((jacSlots M1).length : Int) := by rw [hjCol, hnnz]
    exact_mod_cast this
  have hlen_v : vals.length = (jacSlotsOf M1.con M1.cons_vector).length := by
    have : (vals.length : Int) = ((jacSlots M1).length : Int) := by rw [hvals, hnnz]
    exact_mod_cast this
  -- structure mode
  have hstruct := jac_struct_outer_spec M1 M1.cons_vector [] iRow [] [] jCol [] rfl
    hlen_i hlen_j
  simp only [List.length_nil, List.nil_append, List.append_nil, zero_add] at hstruct
  -- the point is taken over
  have hrange : ∀ v, v ∈ M1.vars_vector → 0 ≤ (M1.var v).index ∧
      (M1.var v).index < x.length := by
    intro v hv
    rw [hvs] at hv
    obtain ⟨k, hk, hkv⟩ := List.getElem_of_mem hv
    have hidx := hvi k v (by rw [List.getElem?_eq_getElem hk, hkv])
    rw [hidx, hx]
    omega
  obtain ⟨M2, hM2, hM2con, hM2cv⟩ : ∃ M2, (if new_x then sync_new_x L x M1 else some M1) =
      some M2 ∧ M2.con = M1.con ∧ M2.cons_vector = M1.cons_vector := by
    cases new_x with
    | false => exact ⟨M1, rfl, rfl, rfl⟩
    | true =>
      obtain ⟨M2, h1, h2, h3, _⟩ := sync_new_x_total L x M1 hrange
      exact ⟨M2, h1, h2, h3⟩
  have hvalue := jac_value_outer_spec L M2 M2.cons_vector [] vals []
    (by rw [hM2con, hM2cv]; exact hlen_v)
  simp only [List.length_nil, List.nil_append, List.append_nil, zero_add] at hvalue
  have hslots2 : jacSlotsOf M2.con M2.cons_vector = jacSlots M1 := by
    rw [hM2con, hM2cv]; rfl
  rw [hslots2] at hvalue
  have hrs : eval_jac_g L M1 x new_x iRow jCol none =
      some { iRow := (jacSlots M1).map (fun s => (M1.con s.1).index),
             jCol := (jacSlots M1).map (fun s => (M1.var s.2).index),
             values := none, model := M1 } := by
    simp only [eval_jac_g, hstruct, Option.some_bind, jacSlots]
  have hrv : eval_jac_g L M1 x new_x iRow jCol (some vals) =
      some { iRow := iRow, jCol := jCol,
             values := some ((jacSlots M1).map (fun s => L.con_ad M2.cache M2.var s.1 s.2)),
             model := M2 } := by
    simp only [eval_jac_g, hM2, hvalue, Option.some_bind]
  refine ⟨_, _, _, hrs, hrv, rfl, hnnz.symm, rfl, rfl, rfl, ?_⟩
  intro k c v hk
  have hmem := mem_jacSlotsOf M1.con M1.cons_vector c v (List.getElem?_mem hk)
  refine ⟨by simp only [List.getElem?_map, jacSlots] at hk ⊢; rw [hk]; rfl,
    by simp only [List.getElem?_map, jacSlots] at hk ⊢; rw [hk]; rfl,
    by simp only [List.getElem?_map, hk]; rfl, ?_, hmem.2⟩
  have hc := hmem.1
  rw [hcs] at hc
  obtain ⟨j, hj, hjc⟩ := List.getElem_of_mem hc
  have hidx := hci j c (by rw [List.getElem?_eq_getElem hj, hjc])
  rw [hidx, hcs]
  simp [readArr, List.getElem?_eq_getElem hj, hjc]

/-! ## `eval_h` -/

theorem lookupKey_of_mem {β : Type} :
    ∀ (l : List (Nat × β)) (k : Nat) (v : β), keysNodup l → (k, v) ∈ l →
      lookupKey k l = some v := by
  intro l
  induction l with
  | nil => intro k v _ h; simp at h
  | cons a l ih =>
    intro k v hnd h
    obtain ⟨k', v'⟩ := a
    unfold keysNodup at hnd
    simp only [List.map_cons, List.nodup_cons] at hnd
    rcases List.mem_cons.mp h with heq | hmem
    · simp only [Prod.mk.injEq] at heq
      simp [lookupKey, heq.1, heq.2]
    · have hne : k' ≠ k := by
        intro hh
        apply hnd.1
        rw [hh]
        exact List.mem_map.mpr ⟨(k, v), hmem, rfl⟩
      simp only [lookupKey, hne, if_false]
      exact ih k v hnd.2 hmem

theorem mem_hessRowEntries {α : Type} (var : VarPtr → Var α) (row : VarPtr) :
    ∀ (cols : HessRow) (r c : VarPtr) (cell : HessCell),
      (r, c, cell) ∈ hessRowEntries var row cols ↔
        r = row ∧ (c, cell) ∈ cols ∧ (var c).index ≤ (var row).index := by
  intro cols
  induction cols with
  | nil => intro r c cell; simp [hessRowEntries]
  | cons col cols ih =>
    intro r c cell
    obtain ⟨c0, cell0⟩ := col
    by_cases hle : (var c0).index ≤ (var row).index
    · simp only [hessRowEntries, hle, if_true, List.mem_cons, Prod.mk.injEq, ih]
      constructor
      · rintro (⟨h1, h2, h3⟩ | ⟨h1, h2, h3⟩)
        · exact ⟨h1, Or.inl ⟨h2, h3⟩, by rw [h2]; exact hle⟩
        · exact ⟨h1, Or.inr h2, h3⟩
      · rintro ⟨h1, (⟨h2, h3⟩ | h2), h4⟩
        · exact Or.inl ⟨h1, h2, h3⟩
        · exact Or.inr ⟨h1, h2, h4⟩
    · simp only [hessRowEntries, hle, if_false, List.mem_cons, Prod.mk.injEq, ih]
      constructor
      · rintro ⟨h1, h2, h3⟩
        exact ⟨h1, Or.inr h2, h3⟩
      · rintro ⟨h1, (⟨h2, _⟩ | h2), h4⟩
        · exact absurd (by rw [← h2]; exact h4) hle
        · exact ⟨h1, h2, h4⟩

/-- The enumerated entries are exactly the entries of `hessian_map` whose column variable
index is `<=` the row variable index. -/
theorem mem_hessEntries {α : Type} (var : VarPtr → Var α) :
    ∀ (hm : HessMap) (r c : VarPtr) (cell : HessCell),
      (r, c, cell) ∈ hessEntries var hm ↔
        ∃ row, row ∈ hm ∧ row.1 = r ∧ (c, cell) ∈ row.2 ∧ (var c).index ≤ (var r).index := by
  intro hm
  induction hm with
  | nil => intro r c cell; simp [hessEntries]
  | cons row rows ih =>
    intro r c cell
    simp only [hessEntries, List.mem_append, mem_hessRowEntries, ih, List.mem_cons]
    constructor
    · rintro (⟨h1, h2, h3⟩ | ⟨row', h1, h2, h3, h4⟩)
      · exact ⟨row, Or.inl rfl, h1.symm, h2, by rw [h1]; exact h3⟩
      · exact ⟨row', Or.inr h1, h2, h3, h4⟩
    · rintro ⟨row', (h1 | h1), h2, h3, h4⟩
      · subst h1
        exact Or.inl ⟨h2.symm, h3, by rw [h2]; exact h4⟩
      · exact Or.inr ⟨row', h1, h2, h3, h4⟩

/-- On a map with distinct keys the expression `hessian_map[var1][var2]` at an
enumerated entry finds the cell of the entry and inserts nothing. -/
theorem cellAt_of_mem {α : Type} (var : VarPtr → Var α) (hm : HessMap)
    (hk : hessKeysOk hm) (r c : VarPtr) (cell : HessCell)
    (h : (r, c, cell) ∈ hessEntries var hm) : cellAt hm r c = (cell, hm) := by
  obtain ⟨row, hrow, hr, hc, _⟩ := (mem_hessEntries var hm r c cell).mp h
  obtain ⟨rk, cols⟩ := row
  simp only at hr hc
  subst hr
  have h1 := lookupKey_of_mem hm rk cols hk.1 hrow
  have h2 := lookupKey_of_mem cols c cell (hk.2 _ hrow) hc
  simp only [cellAt, h1, h2]

theorem hess_struct_row_spec {α : Type} (var : VarPtr → Var α) (row : VarPtr) :
    ∀ (cols : HessRow) (pre_i mid_i rest_i pre_j mid_j rest_j : List Int)
      (hv1 hv2 : List VarPtr),
      pre_j.length = pre_i.length → mid_i.length = (hessRowEntries var row cols).length →
      mid_j.length = (hessRowEntries var row cols).length →
      hess_struct_row var row cols pre_i.length (pre_i ++ mid_i ++ rest_i)
          (pre_j ++ mid_j ++ rest_j) hv1 hv2 =
        some (pre_i.length + (hessRowEntries var row cols).length,
          pre_i ++ (hessRowEntries var row cols).map (fun e => (var e.1).index) ++ rest_i,
          pre_j ++ (hessRowEntries var row cols).map (fun e => (var e.2.1).index) ++ rest_j,
          hv1 ++ (hessRowEntries var row cols).map (fun e => e.1),
          hv2 ++ (hessRowEntries var row cols).map (fun e => e.2.1)) := by
  intro cols
  induction cols with
  | nil =>
    intro pre_i mid_i rest_i pre_j mid_j rest_j hv1 hv2 _ hi hj
    have h1 : mid_i = [] := List.length_eq_zero.mp hi
    have h2 : mid_j = [] := List.length_eq_zero.mp hj
    subst h1; subst h2
    simp [hess_struct_row, hessRowEntries]
  | cons col cols ih =>
    intro pre_i mid_i rest_i pre_j mid_j rest_j hv1 hv2 hpre hi hj
    by_cases hle : (var col.1).index ≤ (var row).index
    · simp only [hessRowEntries, hle, if_true, List.length_cons] at hi hj
      cases mid_i with
      | nil => simp at hi
      | cons y mid_i =>
        cases mid_j with
        | nil => simp at hj
        | cons z mid_j =>
          have w1 : writeArr (pre_i ++ y :: mid_i ++ rest_i) pre_i.length (var row).index =
              some (pre_i ++ (var row).index :: (mid_i ++ rest_i)) := by
            have := writeArr_append pre_i y (var row).index (mid_i ++ rest_i)
            simpa using this
          have w2 : writeArr (pre_j ++ z :: mid_j ++ rest_j) pre_i.length (var col.1).index =
              some (pre_j ++ (var col.1).index :: (mid_j ++ rest_j)) := by
            have := writeArr_append pre_j z (var col.1).index (mid_j ++ rest_j)
            rw [hpre] at this
            simpa using this
          have := ih (pre_i ++ [(var row).index]) mid_i rest_i (pre_j ++ [(var col.1).index])
            mid_j rest_j (hv1 ++ [row]) (hv2 ++ [col.1]) (by simp [hpre])
            (by simpa using hi) (by simpa using hj)
          simp only [List.length_append, List.length_singleton, List.append_assoc,
            List.singleton_append, List.cons_append, List.length_cons, List.map_cons,
            List.nil_append, List.length_nil, Nat.zero_add] at this
          simp only [hess_struct_row, hessRowEntries, hle, if_true]
          simp only [List.length_cons, List.map_cons, List.append_assoc, List.cons_append]
            at w1 w2 ⊢
          rw [w1, Option.some_bind, w2, Option.some_bind, this]
          simp only [Option.some.injEq, Prod.mk.injEq, and_true]
          omega
    · simp only [hessRowEntries, hle, if_false] at hi hj
      simp only [hess_struct_row, hessRowEntries, hle, if_false]
      exact ih pre_i mid_i rest_i pre_j mid_j rest_j hv1 hv2 hpre hi hj

/-- The structure mode of `eval_h` overwrites the array entries from position
`pre.length` on with the row and column variable indices of the enumerated entries, in
order, and appends their variables to the two Hessian vectors. -/
theorem hess_struct_loop_spec {α : Type} (var : VarPtr → Var α) :
    ∀ (hm : HessMap) (pre_i mid_i rest_i pre_j mid_j rest_j : List Int)
      (hv1 hv2 : List VarPtr),
      pre_j.length = pre_i.length → mid_i.length = (hessEntries var hm).length →
      mid_j.length = (hessEntries var hm).length →
      hess_struct_loop var hm pre_i.length (pre_i ++ mid_i ++ rest_i)
          (pre_j ++ mid_j ++ rest_j) hv1 hv2 =
        some (pre_i.length + (hessEntries var hm).length,
          pre_i ++ (hessEntries var hm).map (fun e => (var e.1).index) ++ rest_i,
          pre_j ++ (hessEntries var hm).map (fun e => (var e.2.1).index) ++ rest_j,
          hv1 ++ (hessEntries var hm).map (fun e => e.1),
          hv2 ++ (hessEntries var hm).map (fun e => e.2.1)) := by
  intro hm
  induction hm with
  | nil =>
    intro pre_i mid_i rest_i pre_j mid_j rest_j hv1 hv2 _ hi hj
    have h1 : mid_i = [] := List.length_eq_zero.mp hi
    have h2 : mid_j = [] := List.length_eq_zero.mp hj
    subst h1; subst h2
    simp [hess_struct_loop, hessEntries]
  | cons row rows ih =>
    intro pre_i mid_i rest_i pre_j mid_j rest_j hv1 hv2 hpre hi hj
    simp only [hessEntries, List.length_append] at hi hj
    obtain ⟨a1, a2, ha, ha1, ha2⟩ := split_length mid_i _ _ hi
    obtain ⟨b1, b2, hb, hb1, hb2⟩ := split_length mid_j _ _ hj
    subst ha; subst hb
    have hin := hess_struct_row_spec var row.1 row.2 pre_i a1 (a2 ++ rest_i) pre_j b1
      (b2 ++ rest_j) hv1 hv2 hpre ha1 hb1
    have hout := ih (pre_i ++ (hessRowEntries var row.1 row.2).map (fun e => (var e.1).index))
      a2 rest_i (pre_j ++ (hessRowEntries var row.1 row.2).map (fun e => (var e.2.1).index))
      b2 rest_j (hv1 ++ (hessRowEntries var row.1 row.2).map (fun e => e.1))
      (hv2 ++ (hessRowEntries var row.1 row.2).map (fun e => e.2.1)) (by simp [hpre]) ha2 hb2
    simp only [List.length_append, List.length_map, List.append_assoc] at hin hout ⊢
    simp only [hess_struct_loop, hin, Option.some_bind, hout]
    simp only [hessEntries, List.map_append, List.length_append, List.append_assoc,
      Option.some.injEq, Prod.mk.injEq, and_true]
    omega

theorem getElem?_append_cons {β : Type} (pre : List β) (a : β) (t : List β) :
    (pre ++ a :: t)[pre.length]? = some a := by
  induction pre with
  | nil => simp
  | cons b pre ih => simpa using ih

theorem addAt_append {α : Type} [Field α] (pre : List α) (a d : α) (t : List α) :
    addAt (pre ++ a :: t) pre.length d = some (pre ++ (a + d) :: t) := by
  have hget : (pre ++ a :: t)[pre.length]? = some a := getElem?_append_cons pre a t
  simp only [addAt, hget, Option.some_bind]
  exact writeArr_append pre a (a + d) t

theorem hess_obj_loop_spec {α σ : Type} [Field α] (L : ExprLayer α σ) (M : IpoptModel α σ)
    (obj_factor : α) (var1 var2 : VarPtr) (pre t : List α) :
    ∀ (os : List ObjPtr) (a : α),
      hess_obj_loop L M obj_factor var1 var2 pre.length os (pre ++ a :: t) =
        some (pre ++ (a + obj_factor *
          (os.map fun o => L.obj_ad2 M.cache M.var o var1 var2).sum) :: t) := by
  intro os
  induction os with
  | nil => intro a; simp [hess_obj_loop]
  | cons o os ih =>
    intro a
    simp only [hess_obj_loop, addAt_append, Option.some_bind, ih, List.map_cons,
      List.sum_cons]
    congr 3
    ring

theorem hess_con_loop_spec {α σ : Type} [Field α] (L : ExprLayer α σ) (M : IpoptModel α σ)
    (lambda : List α) (var1 var2 : VarPtr) (pre t : List α) :
    ∀ (cs : List ConPtr) (a : α),
      (∀ c, c ∈ cs → 0 ≤ (M.con c).index ∧ (M.con c).index < lambda.length) →
      hess_con_loop L M lambda var1 var2 pre.length cs (pre ++ a :: t) =
        some (pre ++ (a + (cs.map fun c =>
          lamAt lambda (M.con c).index * L.con_ad2 M.cache M.var c var1 var2).sum) :: t) := by
  intro cs
  induction cs with
  | nil => intro a _; simp [hess_con_loop]
  | cons c cs ih =>
    intro a hr
    obtain ⟨h0, h1⟩ := hr c (List.mem_cons_self _ _)
    obtain ⟨l, hl⟩ := readArr_some_of_range lambda _ h0 h1
    have hlam : lamAt lambda (M.con c).index = l := by simp [lamAt, hl]
    simp only [hess_con_loop, hl, addAt_append, Option.some_bind,
      ih _ (fun c' hc' => hr c' (List.mem_cons_of_mem _ hc')), List.map_cons, List.sum_cons,
      hlam]
    congr 3
    ring

/-- The value mode of `eval_h`, run over the variable pairs of enumerated entries,
overwrites the array entries from position `pre.length` on with the Hessian values of
these entries, in order, and leaves `hessian_map` as it is. -/
theorem hess_value_loop_spec {α σ : Type} [Field α] (L : ExprLayer α σ)
    (M : IpoptModel α σ) (obj_factor : α) (lambda : List α) (vr : VarPtr → Var α)
    (hm : HessMap) (hk : hessKeysOk hm) :
    ∀ (es done : List (VarPtr × VarPtr × HessCell)) (pre mid rest : List α),
      (∀ e, e ∈ es → e ∈ hessEntries vr hm) →
      M.hessian_vector_var2 = (done ++ es).map (fun e => e.2.1) →
      pre.length = done.length → mid.length = es.length →
      (∀ e, e ∈ es → ∀ c, c ∈ e.2.2.cons →
        0 ≤ (M.con c).index ∧ (M.con c).index < lambda.length) →
      hess_value_loop L M obj_factor lambda (es.map fun e => e.1) pre.length hm
          (pre ++ mid ++ rest) =
        some (hm, pre ++ es.map (hessValueOf L M obj_factor lambda) ++ rest) := by
  intro es
  induction es with
  | nil =>
    intro done pre mid rest _ _ _ hmid _
    have h1 : mid = [] := List.length_eq_zero.mp hmid
    subst h1
    simp [hess_value_loop]
  | cons e es ih =>
    intro done pre mid rest hmem hv2 hpre hmid hrange
    obtain ⟨r, c, cell⟩ := e
    cases mid with
    | nil => simp at hmid
    | cons y mid =>
      have hget : M.hessian_vector_var2[pre.length]? = some c := by
        rw [hv2, hpre, List.map_append, List.map_cons]
        have := getElem?_append_cons (done.map fun e => e.2.1) c (es.map fun e => e.2.1)
        simpa using this
      have hw : writeArr (pre ++ y :: (mid ++ rest)) pre.length (0 : α) =
          some (pre ++ 0 :: (mid ++ rest)) := writeArr_append pre y 0 (mid ++ rest)
      have hcell := cellAt_of_mem vr hm hk r c cell (hmem _ (List.mem_cons_self _ _))
      have hobj := hess_obj_loop_spec L M obj_factor r c pre (mid ++ rest) cell.obj 0
      have hcon := hess_con_loop_spec L M lambda r c pre (mid ++ rest) cell.cons
        (0 + obj_factor * (cell.obj.map fun o => L.obj_ad2 M.cache M.var o r c).sum)
        (fun c' hc' => hrange _ (List.mem_cons_self _ _) c' hc')
      have hnext := ih (done ++ [(r, c, cell)])
        (pre ++ [hessValueOf L M obj_factor lambda (r, c, cell)]) mid rest
        (fun e he => hmem e (List.mem_cons_of_mem _ he))
        (by rw [hv2]; simp)
        (by simp [hpre]) (by simpa using hmid)
        (fun e he => hrange e (List.mem_cons_of_mem _ he))
      simp only [List.length_append, List.length_singleton, List.append_assoc,
        List.singleton_append, List.cons_append, List.nil_append] at hnext
      simp only [hess_value_loop, List.map_cons, List.append_assoc, List.cons_append]
      rw [hget, Option.some_bind, hw, Option.some_bind, hcell]
      simp only [hcell]
      rw [hobj, Option.some_bind, hcon, Option.some_bind]
      have hval : (0 : α) + obj_factor * (cell.obj.map fun o =>
          L.obj_ad2 M.cache M.var o r c).sum +
          (cell.cons.map fun c' => lamAt lambda (M.con c').index *
            L.con_ad2 M.cache M.var c' r c).sum =
          hessValueOf L M obj_factor lambda (r, c, cell) := by
        simp only [hessValueOf, zero_add]
      rw [hval, hnext]

/-- C14: after `get_nlp_info` on a model with empty per-solve vectors, the structure mode
of `eval_h` emits one pair `(iRow, jCol)` = (row variable index, column variable index)
for each entry of `hessian_map` whose column variable index is `<=` its row variable
index and for no other entry, so `iRow >= jCol` at every position; the number of pairs
is the `nnz_h_lag` that `get_nlp_info` reported; and the value mode then writes at
position `k` the value `obj_factor * (sum of the objectives' second derivatives) +
(sum over the listed constraints of lambda[constraint index] * second derivative)` of
the `k`-th emitted variable pair. -/
theorem eval_h_lower_triangular {α σ : Type} [Field α] (L : ExprLayer α σ)
    (M : IpoptModel α σ) (hvv : M.vars_vector = []) (hcv : M.cons_vector = [])
    (hh1 : M.hessian_vector_var1 = []) (hh2 : M.hessian_vector_var2 = [])
    (hnv : M.vars.Nodup) (hnc : M.cons.Nodup) (hk : hessKeysOk M.hessian_map)
    (hcons : hessConsIn M.hessian_map M.cons) (info : NlpInfo) (M1 : IpoptModel α σ)
    (hinfo : get_nlp_info M = some (info, M1)) (x lambda : List α) (new_x new_lambda : Bool)
    (obj_factor : α) (iRow jCol : List Int) (vals : List α)
    (hx : x.length = M.vars.length) (hlam : lambda.length = M.cons.length)
    (hiRow : (iRow.length : Int) = info.nnz_h_lag)
    (hjCol : (jCol.length : Int) = info.nnz_h_lag)
    (hvals : (vals.length : Int) = info.nnz_h_lag) :
    ∃ rs rv vs,
      eval_h L M1 x new_x obj_factor lambda new_lambda iRow jCol none = some rs ∧
      eval_h L rs.model x new_x obj_factor lambda new_lambda rs.iRow rs.jCol (some vals) =
        some rv ∧
      rv.values = some vs ∧
      ((hessEntries M1.var M1.hessian_map).length : Int) = info.nnz_h_lag ∧
      rs.iRow = (hessEntries M1.var M1.hessian_map).map (fun e => (M1.var e.1).index) ∧
      rs.jCol = (hessEntries M1.var M1.hessian_map).map (fun e => (M1.var e.2.1).index) ∧
      (∀ r c cell, (r, c, cell) ∈ hessEntries M1.var M1.hessian_map ↔
        ∃ row, row ∈ M1.hessian_map ∧ row.1 = r ∧ (c, cell) ∈ row.2 ∧
          (M1.var c).index ≤ (M1.var r).index) ∧
      (∀ (k : Nat) (a b : Int), rs.iRow[k]? = some a → rs.jCol[k]? = some b → b ≤ a) ∧
      vs = (hessEntries M1.var M1.hessian_map).map
        (hessValueOf L rv.model obj_factor lambda) := by
  obtain ⟨_, _, _, _, hnnz, hvs, hcs, hvi, hci, _, _, _, _, hhm, hv1, hv2, _⟩ :=
    get_nlp_info_result M hvv hcv hnv hnc info M1 hinfo
  have hlen_i : iRow.length = (hessEntries M1.var M1.hessian_map).length := by
    have : (iRow.length : Int) = ((hessEntries M1.var M1.hessian_map).length : Int) := by
      rw [hiRow, hnnz]
    exact_mod_cast this
  have hlen_j : jCol.length = (hessEntries M1.var M1.hessian_map).length := by
    have : (jCol.length : Int) = ((hessEntries M1.var M1.hessian_map).length : Int) := by
      rw [hjCol, hnnz]
    exact_mod_cast this
  have hlen_v : vals.length = (hessEntries M1.var M1.hessian_map).length := by
    have : (vals.length : Int) = ((hessEntries M1.var M1.hessian_map).length : Int) := by
      rw [hvals, hnnz]
    exact_mod_cast this
  -- structure mode
  have hstruct := hess_struct_loop_spec M1.var M1.hessian_map [] iRow [] [] jCol []
    M1.hessian_vector_var1 M1.hessian_vector_var2 rfl hlen_i hlen_j
  simp only [List.length_nil, List.nil_append, List.append_nil, zero_add] at hstruct
  rw [hv1, hh1, hv2, hh2] at hstruct
  simp only [List.nil_append] at hstruct
  have hrs : eval_h L M1 x new_x obj_factor lambda new_lambda iRow jCol none =
      some { iRow := (hessEntries M1.var M1.hessian_map).map (fun e => (M1.var e.1).index),
             jCol := (hessEntries M1.var M1.hessian_map).map (fun e => (M1.var e.2.1).index),
             values := none,
             model := { M1 with
               hessian_vector_var1 := (hessEntries M1.var M1.hessian_map).map (fun e => e.1),
               hessian_vector_var2 :=
                 (hessEntries M1.var M1.hessian_map).map (fun e => e.2.1) } } := by
    simp only [eval_h, hv1, hh1, hv2, hh2, hstruct, Option.some_bind]
  -- value mode: the point and the multipliers are taken over
  have hrange : ∀ v, v ∈ M1.vars_vector → 0 ≤ (M1.var v).index ∧
      (M1.var v).index < x.length := by
    intro v hv
    rw [hvs] at hv
    obtain ⟨k, hk', hkv⟩ := List.getElem_of_mem hv
    have hidx := hvi k v (by rw [List.getElem?_eq_getElem hk', hkv])
    rw [hidx, hx]
    omega
  have hcrange : ∀ c, c ∈ M.cons → 0 ≤ (M1.con c).index ∧
      (M1.con c).index < lambda.length := by
    intro c hc
    obtain ⟨k, hk', hkc⟩ := List.getElem_of_mem hc
    have hidx := hci k c (by rw [List.getElem?_eq_getElem hk', hkc])
    rw [hidx, hlam]
    omega
  obtain ⟨M2, hM2, hM2con, hM2cv, hM2h1, hM2h2, hM2hm⟩ :
      ∃ M2, (if new_x then sync_new_x L x
          { M1 with
            hessian_vector_var1 := (hessEntries M1.var M1.hessian_map).map (fun e => e.1),
            hessian_vector_var2 := (hessEntries M1.var M1.hessian_map).map (fun e => e.2.1) }
        else some
          { M1 with
            hessian_vector_var1 := (hessEntries M1.var M1.hessian_map).map (fun e => e.1),
            hessian_vector_var2 :=
              (hessEntries M1.var M1.hessian_map).map (fun e => e.2.1) }) = some M2 ∧
        M2.con = M1.con ∧ M2.cons_vector = M1.cons_vector ∧
        M2.hessian_vector_var1 = (hessEntries M1.var M1.hessian_map).map (fun e => e.1) ∧
        M2.hessian_vector_var2 = (hessEntries M1.var M1.hessian_map).map (fun e => e.2.1) ∧
        M2.hessian_map = M1.hessian_map := by
    cases new_x with
    | false => exact ⟨_, rfl, rfl, rfl, rfl, rfl, rfl⟩
    | true =>
      obtain ⟨M2, h1, h2, h3, _, h5, h6, h7, _⟩ := sync_new_x_total L x
        { M1 with
          hessian_vector_var1 := (hessEntries M1.var M1.hessian_map).map (fun e => e.1),
          hessian_vector_var2 := (hessEntries M1.var M1.hessian_map).map (fun e => e.2.1) }
        hrange
      exact ⟨M2, h1, h2, h3, h6, h7, h5⟩
  obtain ⟨M3, hM3, hM3idx, hM3h1, hM3h2, hM3hm⟩ :
      ∃ M3, (if new_lambda then
          (dual_loop lambda M2.cons_vector M2.con).bind fun con => some { M2 with con := con }
        else some M2) = some M3 ∧
        (∀ c, (M3.con c).index = (M1.con c).index) ∧
        M3.hessian_vector_var1 = (hessEntries M1.var M1.hessian_map).map (fun e => e.1) ∧
        M3.hessian_vector_var2 = (hessEntries M1.var M1.hessian_map).map (fun e => e.2.1) ∧
        M3.hessian_map = M1.hessian_map := by
    cases new_lambda with
    | false => exact ⟨M2, rfl, fun c => by rw [hM2con], hM2h1, hM2h2, hM2hm⟩
    | true =>
      obtain ⟨con', hcon'⟩ := dual_loop_total lambda M2.cons_vector M2.con (by
        intro c hc
        rw [hM2cv, hcs] at hc
        rw [hM2con]
        exact hcrange c hc)
      obtain ⟨hfix, _, _⟩ := dual_loop_spec lambda _ _ _ hcon'
      refine ⟨{ M2 with con := con' }, by simp only [if_true, hcon', Option.some_bind],
        fun c => ?_, hM2h1, hM2h2, hM2hm⟩
      show (con' c).index = _
      rw [(hfix c).1, hM2con]
  have hkeys : hessKeysOk M1.hessian_map := by rw [hhm]; exact hk
  have hvalue := hess_value_loop_spec L M3 obj_factor lambda M1.var M1.hessian_map hkeys
    (hessEntries M1.var M1.hessian_map) [] [] vals [] (fun e he => he)
    (by rw [hM3h2]; rfl) rfl hlen_v (by
      intro e he c hc
      obtain ⟨r, cc, cell⟩ := e
      obtain ⟨row, hrow, _, hcol, _⟩ := (mem_hessEntries M1.var M1.hessian_map r cc cell).mp he
      rw [hhm] at hrow
      rw [hM3idx c]
      exact hcrange c (hcons row hrow (cc, cell) hcol c hc))
  simp only [List.length_nil, List.nil_append, List.append_nil] at hvalue
  have hrv : eval_h L
      { M1 with
        hessian_vector_var1 := (hessEntries M1.var M1.hessian_map).map (fun e => e.1),
        hessian_vector_var2 := (hessEntries M1.var M1.hessian_map).map (fun e => e.2.1) }
      x new_x obj_factor lambda new_lambda
      ((hessEntries M1.var M1.hessian_map).map (fun e => (M1.var e.1).index))
      ((hessEntries M1.var M1.hessian_map).map (fun e => (M1.var e.2.1).index))
      (some vals) =
      some { iRow := (hessEntries M1.var M1.hessian_map).map (fun e => (M1.var e.1).index),
             jCol := (hessEntries M1.var M1.hessian_map).map (fun e => (M1.var e.2.1).index),
             values := some ((hessEntries M1.var M1.hessian_map).map
               (hessValueOf L M3 obj_factor lambda)),
             model := { M3 with hessian_map := M1.hessian_map } } := by
    simp only [eval_h, hM2, Option.some_bind, hM3, hM3h1, hM3hm, hvalue]
  refine ⟨_, _, _, hrs, hrv, rfl, hnnz.symm, rfl, rfl, mem_hessEntries M1.var M1.hessian_map,
    ?_, rfl⟩
  intro k a b ha hb
  simp only [List.getElem?_map] at ha hb
  cases he : (hessEntries M1.var M1.hessian_map)[k]? with
  | none => rw [he] at ha; simp at ha
  | some e =>
    obtain ⟨r, c, cell⟩ := e
    rw [he] at ha hb
    simp only [Option.map_some', Option.some.injEq] at ha hb
    obtain ⟨_, _, _, _, hle⟩ :=
      (mem_hessEntries M1.var M1.hessian_map r c cell).mp (List.getElem?_mem he)
    rw [← ha, ← hb]
    exact hle

/-! ## The end-to-end scenario through the solver adapter -/

theorem scenario_get_nlp_info :
    get_nlp_info scenarioModel = some (scenarioInfo, scenarioIndexed) := rfl

/-- Witness of `get_nlp_info_assigns_indices` on the scenario model. -/
theorem get_nlp_info_assigns_indices_witness :
    scenarioModel.vars_vector = [] ∧ scenarioModel.cons_vector = [] ∧
    scenarioModel.vars.Nodup ∧ scenarioModel.cons.Nodup ∧
    cellsNonempty scenarioModel.hessian_map ∧
    ∃ info M', get_nlp_info scenarioModel = some (info, M') ∧
      info.n = scenarioModel.vars.length ∧ info.m = scenarioModel.cons.length ∧
      info.index_style = IndexStyleEnum.C_STYLE ∧
      M'.vars_vector = scenarioModel.vars ∧ M'.cons_vector = scenarioModel.cons ∧
      (M'.vars_vector.length : Int) = info.n ∧ (M'.cons_vector.length : Int) = info.m ∧
      (∀ (k : Nat) v, M'.vars_vector[k]? = some v → (M'.var v).index = (k : Int)) ∧
      (∀ (k : Nat) c, M'.cons_vector[k]? = some c → (M'.con c).index = (k : Int)) ∧
      ∃ out, get_bounds_info M' [7, 7] [7, 7] [7] [7] = some out ∧
        (out.1.1.length : Int) = info.n ∧ (out.1.2.length : Int) = info.n ∧
        (out.2.1.length : Int) = info.m ∧ (out.2.2.length : Int) = info.m ∧
        (∀ (i : Nat) v, M'.vars_vector[i]? = some v →
          (M'.var v).index = (i : Int) ∧ out.1.1[i]? = some (scenarioModel.var v).lb ∧
          out.1.2[i]? = some (scenarioModel.var v).ub) ∧
        (∀ (i : Nat) c, M'.cons_vector[i]? = some c →
          (M'.con c).index = (i : Int) ∧ out.2.1[i]? = some (scenarioModel.con c).lb ∧
          out.2.2[i]? = some (scenarioModel.con c).ub) :=
  ⟨rfl, rfl, by decide, by decide, by decide,
    get_nlp_info_assigns_indices scenarioModel rfl rfl (by decide) (by decide) (by decide)
      [7, 7] [7, 7] [7] [7] rfl rfl rfl rfl⟩

/-- Witness of `eval_jac_g_aligned` on the scenario model at the point `x = [3, 4]`. -/
theorem eval_jac_g_aligned_witness :
    get_nlp_info scenarioModel = some (scenarioInfo, scenarioIndexed) ∧
    ∃ rs rv vs,
      eval_jac_g scenarioLayer scenarioIndexed [3, 4] true [0, 0] [0, 0] none = some rs ∧
      eval_jac_g scenarioLayer scenarioIndexed [3, 4] true [0, 0] [0, 0] (some [0, 0]) =
        some rv ∧
      rv.values = some vs ∧
      ((jacSlots scenarioIndexed).length : Int) = scenarioInfo.nnz_jac_g ∧
      rs.iRow = (jacSlots scenarioIndexed).map (fun s => (scenarioIndexed.con s.1).index) ∧
      rs.jCol = (jacSlots scenarioIndexed).map (fun s => (scenarioIndexed.var s.2).index) ∧
      vs = (jacSlots scenarioIndexed).map
        (fun s => scenarioLayer.con_ad rv.model.cache rv.model.var s.1 s.2) ∧
      ∀ (k : Nat) (c : ConPtr) (v : VarPtr), (jacSlots scenarioIndexed)[k]? = some (c, v) →
        rs.iRow[k]? = some (scenarioIndexed.con c).index ∧
        rs.jCol[k]? = some (scenarioIndexed.var v).index ∧
        vs[k]? = some (scenarioLayer.con_ad rv.model.cache rv.model.var c v) ∧
        readArr scenarioIndexed.cons_vector (scenarioIndexed.con c).index = some c ∧
        v ∈ (scenarioIndexed.con c).vars :=
  ⟨scenario_get_nlp_info,
    eval_jac_g_aligned scenarioLayer scenarioModel rfl rfl (by decide) (by decide)
      scenarioInfo scenarioIndexed scenario_get_nlp_info [3, 4] true [0, 0] [0, 0] [0, 0]
      rfl rfl rfl rfl⟩

/-- Witness of `eval_h_lower_triangular` on the scenario model at the point `x = [3, 4]`
with `obj_factor = 1` and `lambda = [1]`. -/
theorem eval_h_lower_triangular_witness :
    get_nlp_info scenarioModel = some (scenarioInfo, scenarioIndexed) ∧
    hessKeysOk scenarioModel.hessian_map ∧
    hessConsIn scenarioModel.hessian_map scenarioModel.cons ∧
    ∃ rs rv vs,
      eval_h scenarioLayer scenarioIndexed [3, 4] true 1 [1] true [0, 0] [0, 0] none =
        some rs ∧
      eval_h scenarioLayer rs.model [3, 4] true 1 [1] true rs.iRow rs.jCol (some [0, 0]) =
        some rv ∧
      rv.values = some vs ∧
      ((hessEntries scenarioIndexed.var scenarioIndexed.hessian_map).length : Int) =
        scenarioInfo.nnz_h_lag ∧
      rs.iRow = (hessEntries scenarioIndexed.var scenarioIndexed.hessian_map).map
        (fun e => (scenarioIndexed.var e.1).index) ∧
      rs.jCol = (hessEntries scenarioIndexed.var scenarioIndexed.hessian_map).map
        (fun e => (scenarioIndexed.var e.2.1).index) ∧
      (∀ r c cell, (r, c, cell) ∈ hessEntries scenarioIndexed.var scenarioIndexed.hessian_map ↔
        ∃ row, row ∈ scenarioIndexed.hessian_map ∧ row.1 = r ∧ (c, cell) ∈ row.2 ∧
          (scenarioIndexed.var c).index ≤ (scenarioIndexed.var r).index) ∧
      (∀ (k : Nat) (a b : Int), rs.iRow[k]? = some a → rs.jCol[k]? = some b → b ≤ a) ∧
      vs = (hessEntries scenarioIndexed.var scenarioIndexed.hessian_map).map
        (hessValueOf scenarioLayer rv.model 1 [1]) :=
  ⟨scenario_get_nlp_info, by decide, by decide,
    eval_h_lower_triangular scenarioLayer scenarioModel rfl rfl rfl rfl (by decide)
      (by decide) (by decide) (by decide) scenarioInfo scenarioIndexed scenario_get_nlp_info
      [3, 4] [1] true true 1 [0, 0] [0, 0] [0, 0] rfl rfl rfl rfl rfl⟩

/-! ## `evaluate()` changes nothing but its scratch array -/

/-- One iteration on the whole state is the iteration on the scratch array, with the
object and the heap carried along. -/
theorem EvalMachine.step_eq {α : Type} [Field α] (m : Libm α) (i : Nat)
    (s : EvalMachine α) :
    EvalMachine.step m i s =
      (_evaluate_step m s.self s.heap i s.values).map fun v => { s with values := v } := by
  unfold EvalMachine.step _evaluate_step
  cases h1 : s.self.operators[i]? with
  | none => rfl
  | some oper =>
    cases h2 : s.self.arg1_indices[i]? with
    | none => rfl
    | some a1 =>
      cases h3 : s.self.arg2_indices[i]? with
      | none => rfl
      | some a2 =>
        simp only [Option.some_bind]
        cases h4 : operand s.self s.heap s.values a1 with
        | none => rfl
        | some v1 =>
          simp only [Option.some_bind]
          cases h5 : operand s.self s.heap s.values a2 with
          | none => rfl
          | some v2 =>
            simp only [Option.some_bind]
            cases oper with
            | UNDEFINED c => rfl
            | ADD => cases writeSlot s.values i (some (v1 + v2)) <;> rfl
            | SUBTRACT => cases writeSlot s.values i (some (v1 - v2)) <;> rfl
            | VALUE => cases writeSlot s.values i (some v1) <;> rfl
            | MULTIPLY => cases writeSlot s.values i (some (v1 * v2)) <;> rfl
            | DIVIDE => cases writeSlot s.values i (some (v1 / v2)) <;> rfl
            | POWER => cases writeSlot s.values i (some (m.pow v1 v2)) <;> rfl

/-- The loop on the whole state keeps the object and the heap and runs the loop of
`_evaluate` on the scratch array. -/
theorem EvalMachine.loop_eq {α : Type} [Field α] (m : Libm α) :
    ∀ (k : Nat) (s : EvalMachine α),
      EvalMachine.loop m k s =
        (_evaluate_loop m s.self s.heap k s.values).map fun v => { s with values := v } := by
  intro k
  induction k with
  | zero => intro s; rfl
  | succ k ih =>
    intro s
    simp only [EvalMachine.loop, _evaluate_loop, ih]
    cases _evaluate_loop m s.self s.heap k s.values with
    | none => rfl
    | some v =>
      simp only [Option.map_some', Option.some_bind, EvalMachine.step_eq]

/-- C11: a call of `evaluate()` returns the object and the heap it was given, so every
leaf's value, every constant's reference count and the arrays `operators`,
`arg1_indices`, `arg2_indices`, `leaves` are unchanged; the value it returns is a
function of the tape and the leaf state; and a second call on the state the first call
left returns the same value and the same state. -/
theorem evaluate_call_pure {α : Type} [Field α] (m : Libm α) (e : Evaluator) (h : Heap α) :
    evaluate_call m e h = (evaluate m e h).map (fun r => (r, e, h)) ∧
    ∀ r e' h', evaluate_call m e h = some (r, e', h') →
      h' = h ∧ e' = e ∧
      (∀ p l, h p = some l → ∃ l', h' p = some l' ∧ l'.value = l.value ∧
        l'.refcount = l.refcount) ∧
      e'.operators = e.operators ∧ e'.arg1_indices = e.arg1_indices ∧
      e'.arg2_indices = e.arg2_indices ∧ e'.leaves = e.leaves ∧
      evaluate_call m e' h' = some (r, e', h') := by
  have hcall : evaluate_call m e h = (evaluate m e h).map (fun r => (r, e, h)) := by
    simp only [evaluate_call, EvalMachine.loop_eq, evaluate, _evaluate]
    cases _evaluate_loop m e h e.n_operators (List.replicate e.n_operators none) with
    | none => rfl
    | some v =>
      simp only [Option.map_some', Option.some_bind]
      cases readSlot v ((e.n_operators : Int) - 1) with
      | none => rfl
      | some r => rfl
  refine ⟨hcall, ?_⟩
  intro r e' h' hres
  have hres0 := hres
  rw [hcall] at hres
  cases hev : evaluate m e h with
  | none => rw [hev] at hres; simp at hres
  | some r0 =>
    rw [hev] at hres
    simp only [Option.map_some', Option.some.injEq, Prod.mk.injEq] at hres
    obtain ⟨_, he, hh⟩ := hres
    subst he; subst hh
    exact ⟨rfl, rfl, fun p l hl => ⟨l, hl, rfl, rfl⟩, rfl, rfl, rfl, rfl, hres0⟩

/-! ## Reverse mode and the sum over operand paths -/

theorem sum_map_mul_left_list {α : Type} [Field α] (d : α) (l : List α) :
    (l.map fun q => d * q).sum = d * l.sum := by
  induction l with
  | nil => simp
  | cons a l ih => simp [ih, mul_add]

/-- The sum over the operand paths below operation `i` is the tangent of operation
`i`. -/
theorem pathProducts_sum {α : Type} [Field α] (m : Libm α) (e : Evaluator) (h : Heap α)
    (L : LeafPtr) :
    ∀ i, (pathProducts m e h L i).sum = opTangent m e h L i := by
  intro i
  induction i using Nat.strong_induction_on with
  | _ i ih =>
    rw [pathProducts, opTangent]
    cases e.operators[i]? with
    | none => simp
    | some oper =>
      cases e.arg1_indices[i]? with
      | none => simp
      | some a1 =>
        cases e.arg2_indices[i]? with
        | none => simp
        | some a2 =>
          have key : ∀ (a : Int) (d : α),
              (if 0 ≤ a then (if leafAt e a = some L then [d] else [])
               else if _ : (-a - 1).toNat < i then
                 (pathProducts m e h L (-a - 1).toNat).map (fun q => d * q)
               else []).sum =
              d * (if 0 ≤ a then (if leafAt e a = some L then (1 : α) else 0)
               else if _ : (-a - 1).toNat < i then opTangent m e h L (-a - 1).toNat
               else 0) := by
            intro a d
            by_cases h0 : 0 ≤ a
            · by_cases hl : leafAt e a = some L <;> simp [h0, hl]
            · by_cases hj : (-a - 1).toNat < i
              · rw [if_neg h0, dif_pos hj, if_neg h0, dif_pos hj, sum_map_mul_left_list,
                  ih _ hj]
              · rw [if_neg h0, dif_neg hj, if_neg h0, dif_neg hj]
                simp
          simp only [List.sum_append]
          rw [key a1, key a2]

/-- C17: on a well-formed single-consumer tape of `ADD`, `SUBTRACT`, `MULTIPLY`,
`DIVIDE` and `VALUE` operations `rad()` returns, and the value it assigns to a leaf `L`
is the forward-mode derivative of the output with respect to `L`: the sum, over all
operand paths from the last operation down to an occurrence of `L`, of the product of
the local derivatives along the path. -/
theorem rad_eq_path_sum {α : Type} [Field α] (m : Libm α) (e : Evaluator) (h : Heap α)
    (hn : 1 ≤ e.n_operators) (ha : e.arraysOk) (hr : e.refsOk) (har : e.arithOnly)
    (hl : leavesLive e h) (hs : e.singleConsumer) :
    ∃ res, rad m e h = some res ∧
      ∀ L, (mapFind res L).getD 0 = (pathProducts m e h L (e.n_operators - 1)).sum ∧
        (pathProducts m e h L (e.n_operators - 1)).sum =
          opTangent m e h L (e.n_operators - 1) ∧
        ((∃ i, i < e.n_operators ∧ opRefs e L i = true) →
          mapFind res L = some (pathProducts m e h L (e.n_operators - 1)).sum) := by
  obtain ⟨res, hrad, hres⟩ := rad_eq_tangent m e h hn ha hr (arithOnly_opsDefined e har) hl hs
  refine ⟨res, hrad, fun L => ?_⟩
  obtain ⟨hget, hsome⟩ := hres L
  have hsum := pathProducts_sum m e h L (e.n_operators - 1)
  refine ⟨by rw [hget, hsum], hsum, fun href => ?_⟩
  obtain ⟨d, hd⟩ := Option.isSome_iff_exists.mp (hsome.mpr href)
  rw [hd, Option.getD_some] at hget
  rw [hd, hget, hsum]

/-- Witness of `rad_eq_path_sum` on the tape of `(a - b) / b + a` at `a.value = 3`,
`b.value = 5`. -/
theorem rad_eq_path_sum_witness :
    1 ≤ (chainTape 10 11).n_operators ∧ (chainTape 10 11).arraysOk ∧
    (chainTape 10 11).refsOk ∧ (chainTape 10 11).arithOnly ∧
    leavesLive (chainTape 10 11) (heap2 (3 : ℚ) 5) ∧ (chainTape 10 11).singleConsumer ∧
    ∃ res, rad ratLibm (chainTape 10 11) (heap2 3 5) = some res ∧
      ∀ L, (mapFind res L).getD 0 =
          (pathProducts ratLibm (chainTape 10 11) (heap2 3 5) L
            ((chainTape 10 11).n_operators - 1)).sum ∧
        (pathProducts ratLibm (chainTape 10 11) (heap2 3 5) L
            ((chainTape 10 11).n_operators - 1)).sum =
          opTangent ratLibm (chainTape 10 11) (heap2 3 5) L
            ((chainTape 10 11).n_operators - 1) ∧
        ((∃ i, i < (chainTape 10 11).n_operators ∧ opRefs (chainTape 10 11) L i = true) →
          mapFind res L = some (pathProducts ratLibm (chainTape 10 11) (heap2 3 5) L
            ((chainTape 10 11).n_operators - 1)).sum) :=
  ⟨by decide, by decide, by decide, by decide, by decide, by decide,
    rad_eq_path_sum ratLibm (chainTape 10 11) (heap2 3 5) (by decide) (by decide)
      (by decide) (by decide) (by decide) (by decide)⟩

/-! ## Index safety of the two passes -/

/-- A propagation with an in-range reference returns, and writes exactly the adjoint slot
of the operation it names. -/
theorem rad_propagate_total {α : Type} [Field α] (e : Evaluator) (ha : e.arraysOk)
    (k : Nat) (hk : k < e.n_operators) (a : Int) (hra : refOk e k a) (x : α)
    (ders : List (Option α)) (hlen : ders.length = e.n_operators)
    (res : List (LeafPtr × α)) :
    ∃ r, rad_propagate e a (some x) ders res = some r ∧ r.1.length = e.n_operators ∧
      ∀ j, isWritten r.1 j = (isWritten ders j || backRef a j) := by
  unfold refOk at hra
  by_cases h0 : 0 ≤ a
  · simp only [h0, if_true] at hra
    have hlt : a.toNat < e.leaves.length := by rw [ha.2.2.2]; omega
    have hleaf : leafAt e a = some e.leaves[a.toNat] := by
      simp [leafAt, h0, List.getElem?_eq_getElem hlt]
    refine ⟨(ders, mapAdd res e.leaves[a.toNat] x), ?_, hlen, ?_⟩
    · simp [rad_propagate, h0, hleaf]
    · intro j
      have : backRef a j = false := by
        rw [Bool.eq_false_iff]
        intro hb
        have := (backRef_iff a j).mp hb
        omega
      simp [this]
  · simp only [h0, if_false] at hra
    have hnn : 0 ≤ _arg_ndx_to_operator_ndx a := by
      unfold _arg_ndx_to_operator_ndx; omega
    have hj1 : (_arg_ndx_to_operator_ndx a).toNat < k := by omega
    have hj1' : (_arg_ndx_to_operator_ndx a).toNat < ders.length := by omega
    refine ⟨(ders.set (_arg_ndx_to_operator_ndx a).toNat (some x), res), ?_, ?_, ?_⟩
    · simp [rad_propagate, h0, writeSlot, hnn, hj1']
    · simp [hlen]
    · intro j
      rw [isWritten_set ders _ x hj1' j]
      congr 1
      rw [Bool.eq_iff_iff]
      simp only [decide_eq_true_eq, backRef_iff]
      constructor
      · intro hh; exact ⟨by omega, hh⟩
      · intro hh; exact hh.2

/-- One reverse iteration on a well-formed tape returns as soon as the adjoint slot it
reads has been written; it keeps the length of the adjoint array and writes the slots of
the operations that operation `k` uses. -/
theorem rad_step_total {α : Type} [Field α] (m : Libm α) (e : Evaluator) (h : Heap α)
    (ha : e.arraysOk) (hr : e.refsOk) (hd : e.opsDefined) (hl : leavesLive e h)
    (vals : List (Option α))
    (hv : ∀ i, i < e.n_operators → vals[i]? = some (some ((opValue m e h i).getD 0)))
    (k : Nat) (hk : k < e.n_operators) (s : RadState α)
    (hlen : s.ders.length = e.n_operators) (hwk : isWritten s.ders k = true) :
    ∃ s', rad_step m e h vals k s = some s' ∧ s'.ders.length = e.n_operators ∧
      ∀ j, isWritten s'.ders j = (isWritten s.ders j || usedBy e j k) := by
  have hko : k < e.operators.length := by rw [ha.1]; exact hk
  have hk1 : k < e.arg1_indices.length := by rw [ha.2.1]; exact hk
  have hk2 : k < e.arg2_indices.length := by rw [ha.2.2.1]; exact hk
  have hop : e.operators[k]? = some (e.operators.getD k Oper.VALUE) := by
    rw [List.getD_eq_getElem _ _ hko]; exact List.getElem?_eq_getElem hko
  have ha1 : e.arg1_indices[k]? = some (e.arg1_indices.getD k 0) := by
    rw [List.getD_eq_getElem _ _ hk1]; exact List.getElem?_eq_getElem hk1
  have ha2 : e.arg2_indices[k]? = some (e.arg2_indices.getD k 0) := by
    rw [List.getD_eq_getElem _ _ hk2]; exact List.getElem?_eq_getElem hk2
  have hdef : (e.operators.getD k Oper.VALUE).isDefined = true := by
    rw [List.getD_eq_getElem _ _ hko]; exact hd _ (List.getElem_mem hko)
  have hrk := hr k hk
  have hread : readSlot s.ders (k : Int) = some (dersVal s.ders k) := by
    unfold isWritten at hwk
    obtain ⟨y, hy⟩ := Option.isSome_iff_exists.mp hwk
    unfold readSlot dersVal
    rw [if_pos (by omega), Int.toNat_ofNat, hy]
    rfl
  have ho1 := operand_eq_argVal m e h ha hl vals hv k (by omega) _ hrk.1
  have ho2 := operand_eq_argVal m e h ha hl vals hv k (by omega) _ hrk.2
  have hloc := rad_local_defined m e h vals _ hdef (e.arg1_indices.getD k 0)
    (e.arg2_indices.getD k 0) _ _ (dersVal s.ders k) s.der1 s.der2 ho1 ho2
  obtain ⟨r1, hp1, hlen1, hw1⟩ := rad_propagate_total e ha k hk _ hrk.1
    (dersVal s.ders k * (localDer m (e.operators.getD k Oper.VALUE)
      (argVal m e h (e.arg1_indices.getD k 0)) (argVal m e h (e.arg2_indices.getD k 0))).1)
    s.ders hlen s.res
  obtain ⟨r2, hp2, hlen2, hw2⟩ := rad_propagate_total e ha k hk _ hrk.2
    (dersVal s.ders k * (localDer m (e.operators.getD k Oper.VALUE)
      (argVal m e h (e.arg1_indices.getD k 0)) (argVal m e h (e.arg2_indices.getD k 0))).2)
    r1.1 hlen1 r1.2
  obtain ⟨s', hstep, hders'⟩ : ∃ s', rad_step m e h vals k s = some s' ∧ s'.ders = r2.1 := by
    simp only [rad_step, hop, ha1, ha2, hread, hloc, hp1, hp2, Option.some_bind]
    exact ⟨_, rfl, rfl⟩
  refine ⟨s', hstep, by rw [hders']; exact hlen2, ?_⟩
  intro j
  rw [hders', hw2 j, hw1 j, Bool.or_assoc]
  rfl

/-- The reverse loop on a well-formed tape returns when every adjoint slot below `k` is
either written already or is the slot of an operation used by an operation still to be
processed. -/
theorem rad_loop_total {α : Type} [Field α] (m : Libm α) (e : Evaluator) (h : Heap α)
    (ha : e.arraysOk) (hr : e.refsOk) (hd : e.opsDefined) (hl : leavesLive e h)
    (vals : List (Option α))
    (hv : ∀ i, i < e.n_operators → vals[i]? = some (some ((opValue m e h i).getD 0))) :
    ∀ k, k ≤ e.n_operators → ∀ s : RadState α, s.ders.length = e.n_operators →
      (∀ j, j < k → isWritten s.ders j = true ∨ ∃ i, i < k ∧ usedBy e j i = true) →
      ∃ s', rad_loop m e h vals k s = some s' := by
  intro k
  induction k with
  | zero => intro _ s _ _; exact ⟨s, rfl⟩
  | succ k ih =>
    intro hk s hlen hw
    have hwk : isWritten s.ders k = true := by
      rcases hw k (by omega) with hh | ⟨i, hi, hu⟩
      · exact hh
      · have := usedBy_lt e hr k i (by omega) hu
        omega
    obtain ⟨s1, hstep, hlen1, hw1⟩ :=
      rad_step_total m e h ha hr hd hl vals hv k (by omega) s hlen hwk
    obtain ⟨s', hloop⟩ := ih (by omega) s1 hlen1 (by
      intro j hj
      rw [hw1 j, Bool.or_eq_true]
      rcases hw j (by omega) with hh | ⟨i, hi, hu⟩
      · exact Or.inl (Or.inl hh)
      · by_cases hik : i = k
        · subst hik; exact Or.inl (Or.inr hu)
        · exact Or.inr ⟨i, by omega, hu⟩)
    exact ⟨s', by simp only [rad_loop, hstep, Option.some_bind, hloop]⟩

/-- On a well-formed tape the reverse pass, started from an adjoint array of the allocated
length in which every slot of a non-final operation that no operation uses is already
written, returns a map, and the keys of the map are the leaves that some operand slot
references. -/
theorem rad_with_adjoints_total {α : Type} [Field α] (m : Libm α) (e : Evaluator)
    (h : Heap α) (hn : 1 ≤ e.n_operators) (ha : e.arraysOk) (hr : e.refsOk)
    (hd : e.opsDefined) (hl : leavesLive e h) (ders0 : List (Option α))
    (hlen : ders0.length = e.n_operators)
    (hw : ∀ j, j < e.n_operators - 1 →
      isWritten ders0 j = true ∨ ∃ i, i < e.n_operators ∧ usedBy e j i = true) :
    ∃ res, rad_with_adjoints m e h ders0 = some res ∧
      ∀ L, ((mapFind res L).isSome = true ↔ ∃ i, i < e.n_operators ∧ opRefs e L i = true) := by
  obtain ⟨vals, hvals, _, hv⟩ := forward_values m e h ha hr hd hl
  have hlt : e.n_operators - 1 < ders0.length := by omega
  have hws : writeSlot ders0 ((e.n_operators : Int) - 1) (some 1) =
      some (ders0.set (e.n_operators - 1) (some 1)) := by
    have h1 : (0 : Int) ≤ (e.n_operators : Int) - 1 := by omega
    have h2 : ((e.n_operators : Int) - 1).toNat = e.n_operators - 1 := by omega
    simp only [writeSlot, h1, h2, true_and]
    rw [if_pos hlt]
  obtain ⟨s0, hloop0⟩ := rad_loop_total m e h ha hr hd hl vals hv e.n_operators le_rfl
    { ders := ders0.set (e.n_operators - 1) (some 1), der1 := none, der2 := none, res := [] }
    (by simp [hlen]) (by
      intro j hj
      show isWritten (ders0.set (e.n_operators - 1) (some 1)) j = true ∨ _
      rw [isWritten_set ders0 _ _ hlt j, Bool.or_eq_true, decide_eq_true_eq]
      by_cases hjl : e.n_operators - 1 = j
      · exact Or.inl (Or.inr hjl)
      · rcases hw j (by omega) with hh | hh
        · exact Or.inl (Or.inl hh)
        · exact Or.inr hh)
  refine ⟨s0.res, by simp only [rad_with_adjoints, hvals, hws, hloop0, Option.some_bind], ?_⟩
  intro L
  have hiter := rad_loop_eq_iter m e h vals e.n_operators e.n_operators le_rfl
    { ders := ders0.set (e.n_operators - 1) (some 1), der1 := none, der2 := none, res := [] }
  rw [hloop0] at hiter
  obtain ⟨s1, hs1, hs2⟩ := Option.bind_eq_some.mp hiter
  have hs : s1 = s0 := by
    rw [Nat.sub_self] at hs2
    simpa [rad_loop] using hs2
  subst hs
  rw [rad_iter_isSome m e h vals e.n_operators _ rfl L e.n_operators le_rfl s1 hs1]
  constructor
  · rintro ⟨i, _, hi2, hi3⟩; exact ⟨i, hi2, hi3⟩
  · rintro ⟨i, hi2, hi3⟩; exact ⟨i, by omega, hi2, hi3⟩

theorem isWritten_map_some {α : Type} (g : List α) (j : Nat) (hj : j < g.length) :
    isWritten (g.map some) j = true := by
  simp [isWritten, List.getElem?_map, List.getElem?_eq_getElem hj]

/-- C19: on a tape with `n_operators >= 1`, arrays of the allocated lengths, the six
operator codes, live leaves, every leaf reference in `[0, n_leaves)` and every
back-reference of operation `i` decoding to an index in `[0, i)`: `evaluate()` returns a
value, so the forward pass makes no access outside the leaves or scratch array and reads
no scratch slot before it is written; `rad()` started from any numbers in the
uninitialised adjoint array returns a map, so it makes no access outside the leaves,
scratch or adjoint array; and when in addition every non-final operation is used by some
operation, `rad()` itself returns a map, so the reverse pass reads no adjoint slot before
it is written. -/
theorem index_safety {α : Type} [Field α] (m : Libm α) (e : Evaluator) (h : Heap α)
    (hn : 1 ≤ e.n_operators) (ha : e.arraysOk) (hr : e.refsOk) (hd : e.opsDefined)
    (hl : leavesLive e h) :
    (∃ v, evaluate m e h = some v) ∧
    (∀ g : List α, g.length = e.n_operators →
      ∃ res, rad_with_adjoints m e h (g.map some) = some res) ∧
    rad m e h = rad_with_adjoints m e h (List.replicate e.n_operators none) ∧
    (e.everyOpUsed → ∃ res, rad m e h = some res) := by
  refine ⟨?_, ?_, rfl, ?_⟩
  · obtain ⟨v, hv⟩ := opValue_isSome m e h ha hr hd hl (e.n_operators - 1) (by omega)
    exact ⟨v, by rw [evaluate_eq_last_opValue m e h hn ha hr hd hl, hv]⟩
  · intro g hg
    obtain ⟨res, hres, _⟩ := rad_with_adjoints_total m e h hn ha hr hd hl (g.map some)
      (by simp [hg]) (fun j hj => Or.inl (isWritten_map_some g j (by omega)))
    exact ⟨res, hres⟩
  · intro hu
    obtain ⟨res, hres, _⟩ := rad_with_adjoints_total m e h hn ha hr hd hl
      (List.replicate e.n_operators none) (by simp) (fun j hj => Or.inr (hu j hj))
    exact ⟨res, hres⟩

/-- Witness of `index_safety` on the tape of `(a - b) / b + a` at `a.value = 3`,
`b.value = 5`. -/
theorem index_safety_witness :
    1 ≤ (chainTape 10 11).n_operators ∧ (chainTape 10 11).arraysOk ∧
    (chainTape 10 11).refsOk ∧ (chainTape 10 11).opsDefined ∧
    leavesLive (chainTape 10 11) (heap2 (3 : ℚ) 5) ∧ (chainTape 10 11).everyOpUsed ∧
    ((∃ v, evaluate ratLibm (chainTape 10 11) (heap2 3 5) = some v) ∧
    (∀ g : List ℚ, g.length = (chainTape 10 11).n_operators →
      ∃ res, rad_with_adjoints ratLibm (chainTape 10 11) (heap2 3 5) (g.map some) =
        some res) ∧
    rad ratLibm (chainTape 10 11) (heap2 3 5) =
      rad_with_adjoints ratLibm (chainTape 10 11) (heap2 3 5)
        (List.replicate (chainTape 10 11).n_operators none) ∧
    ((chainTape 10 11).everyOpUsed →
      ∃ res, rad ratLibm (chainTape 10 11) (heap2 3 5) = some res)) :=
  ⟨by decide, by decide, by decide, by decide, by decide, by decide,
    index_safety ratLibm (chainTape 10 11) (heap2 3 5) (by decide) (by decide)
      (by decide) (by decide) (by decide)⟩

/-! ## The key set of the derivative map -/

/-- C18: on a well-formed tape in which every non-final operation is used, `rad()`
returns a map whose keys are exactly the leaves referenced by some operand slot; a leaf
of the leaves array that no operand slot references has no entry; and on the tape
`SUBTRACT(a, a)` the referenced leaf `a`, whose total derivative is zero, has the entry
`0`. -/
theorem rad_key_set {α : Type} [Field α] (m : Libm α) (e : Evaluator) (h : Heap α)
    (hn : 1 ≤ e.n_operators) (ha : e.arraysOk) (hr : e.refsOk) (hd : e.opsDefined)
    (hl : leavesLive e h) (hu : e.everyOpUsed) :
    (∃ res, rad m e h = some res ∧
      (∀ L, (mapFind res L).isSome = true ↔ ∃ i, i < e.n_operators ∧ opRefs e L i = true) ∧
      (∀ L, L ∈ e.leaves → (∀ i, i < e.n_operators → opRefs e L i = false) →
        mapFind res L = none)) ∧
    (∀ a la, h a = some la → rad m (squareTape Oper.SUBTRACT a) h = some [(a, 0)]) := by
  constructor
  · obtain ⟨res, hres, hkeys⟩ := rad_with_adjoints_total m e h hn ha hr hd hl
      (List.replicate e.n_operators none) (by simp) (fun j hj => Or.inr (hu j hj))
    refine ⟨res, hres, hkeys, ?_⟩
    intro L _ hno
    cases hf : mapFind res L with
    | none => rfl
    | some x =>
      have hs : (mapFind res L).isSome = true := by rw [hf]; rfl
      obtain ⟨i, hi, hri⟩ := (hkeys L).mp hs
      rw [hno i hi] at hri
      exact absurd hri (by decide)
  · intro a la hla
    simp [rad, rad_loop, rad_step, rad_local, rad_propagate, mapAdd, _evaluate,
      _evaluate_loop, _evaluate_step, operand, leafValue, leafAt, readSlot, writeSlot,
      squareTape, hla]

/-- Witness of `rad_key_set` on the tape `SUBTRACT(a, a)` over the leaves array `[a, b]`
at `a.value = 3`, `b.value = 5`: the map is `{a: 0}`, and `b` has no entry. -/
theorem rad_key_set_witness :
    1 ≤ (unusedLeafTape 10 11).n_operators ∧ (unusedLeafTape 10 11).arraysOk ∧
    (unusedLeafTape 10 11).refsOk ∧ (unusedLeafTape 10 11).opsDefined ∧
    leavesLive (unusedLeafTape 10 11) (heap2 (3 : ℚ) 5) ∧
    (unusedLeafTape 10 11).everyOpUsed ∧
    rad ratLibm (unusedLeafTape 10 11) (heap2 3 5) = some [(10, 0)] ∧
    ((∃ res, rad ratLibm (unusedLeafTape 10 11) (heap2 3 5) = some res ∧
      (∀ L, (mapFind res L).isSome = true ↔
        ∃ i, i < (unusedLeafTape 10 11).n_operators ∧
          opRefs (unusedLeafTape 10 11) L i = true) ∧
      (∀ L, L ∈ (unusedLeafTape 10 11).leaves →
        (∀ i, i < (unusedLeafTape 10 11).n_operators →
          opRefs (unusedLeafTape 10 11) L i = false) →
        mapFind res L = none)) ∧
    (∀ a la, heap2 (3 : ℚ) 5 a = some la →
      rad ratLibm (squareTape Oper.SUBTRACT a) (heap2 3 5) = some [(a, 0)])) :=
  ⟨by decide, by decide, by decide, by decide, by decide, by decide,
    by simp [rad, rad_loop, rad_step, rad_local, rad_propagate, mapAdd, _evaluate,
      _evaluate_loop, _evaluate_step, operand, leafValue, leafAt, readSlot, writeSlot,
      unusedLeafTape, heap2],
    rad_key_set ratLibm (unusedLeafTape 10 11) (heap2 3 5) (by decide) (by decide)
      (by decide) (by decide) (by decide) (by decide)⟩

/-! ## The construct-destroy round trip -/

theorem take_succ_getElem {β : Type} (l : List β) (k : Nat) (hk : k < l.length) :
    l.take (k + 1) = l.take k ++ [l[k]] := by
  rw [List.take_succ, List.getElem?_eq_getElem hk]
  rfl

theorem copyLoop_eq_take {β : Type} (src : List β) :
    ∀ k, k ≤ src.length → copyLoop src k = some (src.take k) := by
  intro k
  induction k with
  | zero => intro _; rfl
  | succ k ih =>
    intro hk
    have hlt : k < src.length := by omega
    simp only [copyLoop, ih (by omega), Option.some_bind, List.getElem?_eq_getElem hlt,
      take_succ_getElem src k hlt]

theorem count_take_succ (L : List LeafPtr) (k : Nat) (hk : k < L.length) (p : LeafPtr) :
    (L.take (k + 1)).count p = (L.take k).count p + (if L[k] = p then 1 else 0) := by
  rw [take_succ_getElem L k hk, List.count_append, List.count_singleton]
  by_cases hp : L[k] = p
  · simp [hp]
  · have : ¬ p = L[k] := fun hh => hp hh.symm
    simp [hp, this]

theorem count_take_le (L : List LeafPtr) (k : Nat) (p : LeafPtr) :
    (L.take k).count p ≤ L.count p :=
  (List.take_sublist k L).count_le p

/-- The leaf loop of the constructor over the first `k` leaf pointers, all live: the
pointers are copied, and each constant counts its occurrences. -/
theorem captureLoop_spec {α : Type} (src : List LeafPtr) (h : Heap α) :
    ∀ k, k ≤ src.length → (∀ p, p ∈ src.take k → (h p).isSome = true) →
      captureLoop src k h = some (src.take k, heapAfterCapture h (src.take k)) := by
  intro k
  induction k with
  | zero =>
    intro _ _
    have : heapAfterCapture h (List.take 0 src) = h := by
      funext p
      unfold heapAfterCapture
      cases h p with
      | none => rfl
      | some o => cases hf : o.is_float <;> simp
    rw [this]
    rfl
  | succ k ih =>
    intro hk hlive
    have hlt : k < src.length := by omega
    have hsub : ∀ p, p ∈ src.take k → (h p).isSome = true := by
      intro p hp
      apply hlive
      rw [take_succ_getElem src k hlt]
      exact List.mem_append_left _ hp
    have hleaf : (h src[k]).isSome = true := by
      apply hlive
      rw [take_succ_getElem src k hlt]
      exact List.mem_append_right _ (List.mem_singleton.mpr rfl)
    obtain ⟨o, ho⟩ := Option.isSome_iff_exists.mp hleaf
    have hcur : heapAfterCapture h (src.take k) src[k] =
        some (if o.is_float then
          { o with refcount := o.refcount + ((src.take k).count src[k] : Int) } else o) := by
      simp only [heapAfterCapture, ho, Option.map_some']
    simp only [captureLoop, ih (by omega) hsub, Option.some_bind,
      List.getElem?_eq_getElem hlt, hcur, Option.some.injEq, Prod.mk.injEq]
    refine ⟨(take_succ_getElem src k hlt).symm, ?_⟩
    funext p
    by_cases hf : o.is_float = true
    · simp only [hf, if_true]
      by_cases hp : p = src[k]
      · subst hp
        simp only [Function.update_same, heapAfterCapture, ho, Option.map_some', hf, if_true,
          count_take_succ src k hlt, Option.some.injEq]
        simp only [if_true, Nat.cast_add, Nat.cast_one, add_assoc]
      · rw [Function.update_noteq hp]
        have hne : ¬ src[k] = p := fun hh => hp hh.symm
        simp only [heapAfterCapture, count_take_succ src k hlt, hne, if_false, Nat.add_zero]
    · have hf' : o.is_float = false := by simpa using hf
      simp only [hf', Bool.false_eq_true, if_false]
      by_cases hp : p = src[k]
      · subst hp
        simp only [heapAfterCapture, ho, Option.map_some', hf', Bool.false_eq_true, if_false]
      · have hne : ¬ src[k] = p := fun hh => hp hh.symm
        simp only [heapAfterCapture, count_take_succ src k hlt, hne, if_false, Nat.add_zero]

/-- The leaf loop of the destructor on the heap left by the constructor, when no constant
of the leaves array had a negative `refcount` before construction: every iteration finds
a live leaf, and the heap after `k` iterations is `heapAfterDestroy`. -/
theorem destroyLoop_spec {α : Type} (e : Evaluator) (h : Heap α)
    (hlive : ∀ p, p ∈ e.leaves → (h p).isSome = true)
    (hcnt : ∀ p o, p ∈ e.leaves → h p = some o → o.is_float = true → 0 ≤ o.refcount) :
    ∀ k, k ≤ e.leaves.length →
      destroyLoop e k (heapAfterCapture h e.leaves) = some (heapAfterDestroy h e.leaves k) := by
  intro k
  induction k with
  | zero =>
    intro _
    have : heapAfterDestroy h e.leaves 0 = heapAfterCapture h e.leaves := by
      funext p
      unfold heapAfterDestroy heapAfterCapture
      cases h p with
      | none => rfl
      | some o => cases hf : o.is_float <;> simp [hf]
    rw [this]
    rfl
  | succ k ih =>
    intro hk
    have hlt : k < e.leaves.length := by omega
    have hmem : e.leaves[k] ∈ e.leaves := List.getElem_mem hlt
    obtain ⟨o, ho⟩ := Option.isSome_iff_exists.mp (hlive _ hmem)
    have hc1 := count_take_succ e.leaves k hlt e.leaves[k]
    rw [if_pos rfl] at hc1
    have hc2 := count_take_le e.leaves (k + 1) e.leaves[k]
    simp only [destroyLoop, ih (by omega), Option.some_bind, List.getElem?_eq_getElem hlt]
    by_cases hf : o.is_float = true
    · have hr := hcnt _ o hmem ho hf
      have hpos : ¬ (0 < (e.leaves.take k).count e.leaves[k] ∧
          o.refcount + (e.leaves.count e.leaves[k] : Int) -
            ((e.leaves.take k).count e.leaves[k] : Int) = 0) := by
        intro hh
        omega
      have hcur : heapAfterDestroy h e.leaves k e.leaves[k] =
          some { o with refcount := o.refcount + (e.leaves.count e.leaves[k] : Int) -
            ((e.leaves.take k).count e.leaves[k] : Int) } := by
        simp only [heapAfterDestroy, ho, Option.some_bind, hf, if_true, hpos, if_false]
      rw [hcur]
      simp only [Option.some_bind, hf, if_true]
      by_cases hz : o.refcount + (e.leaves.count e.leaves[k] : Int) -
            ((e.leaves.take k).count e.leaves[k] : Int) - 1 = 0
      · rw [if_pos hz]
        congr 1
        funext p
        by_cases hp : p = e.leaves[k]
        · subst hp
          have hcond : 0 < (e.leaves.take (k + 1)).count e.leaves[k] ∧
              o.refcount + (e.leaves.count e.leaves[k] : Int) -
                ((e.leaves.take (k + 1)).count e.leaves[k] : Int) = 0 := by
            constructor
            · omega
            · rw [hc1]; push_cast; omega
          simp only [Function.update_same, heapAfterDestroy, ho, Option.some_bind, hf,
            if_true, hcond, and_self]
        · rw [Function.update_noteq hp]
          have hne : ¬ e.leaves[k] = p := fun hh => hp hh.symm
          simp only [heapAfterDestroy, count_take_succ e.leaves k hlt, hne, if_false,
            Nat.add_zero]
      · rw [if_neg hz]
        congr 1
        funext p
        by_cases hp : p = e.leaves[k]
        · subst hp
          have harith : o.refcount + (e.leaves.count e.leaves[k] : Int) -
                ((e.leaves.take (k + 1)).count e.leaves[k] : Int) =
              o.refcount + (e.leaves.count e.leaves[k] : Int) -
                ((e.leaves.take k).count e.leaves[k] : Int) - 1 := by
            rw [hc1]; push_cast; omega
          simp only [Function.update_same, heapAfterDestroy, ho, Option.some_bind, hf,
            if_true, harith, hz, and_false, if_false]
        · rw [Function.update_noteq hp]
          have hne : ¬ e.leaves[k] = p := fun hh => hp hh.symm
          simp only [heapAfterDestroy, count_take_succ e.leaves k hlt, hne, if_false,
            Nat.add_zero]
    · have hf' : o.is_float = false := by simpa using hf
      have hcur : heapAfterDestroy h e.leaves k e.leaves[k] = some o := by
        simp only [heapAfterDestroy, ho, Option.some_bind, hf', Bool.false_eq_true, if_false]
      rw [hcur]
      simp only [Option.some_bind, hf', Bool.false_eq_true, if_false, Option.some.injEq]
      funext p
      by_cases hp : p = e.leaves[k]
      · subst hp
        simp only [heapAfterDestroy, ho, Option.some_bind, hf', Bool.false_eq_true, if_false]
      · have hne : ¬ e.leaves[k] = p := fun hh => hp hh.symm
        simp only [heapAfterDestroy, count_take_succ e.leaves k hlt, hne, if_false,
          Nat.add_zero]

/-- C20: for a composite expression whose first `num_leaves` leaf pointers are live and
whose constants have no negative `refcount`, constructing an `Evaluator` and then
destroying it both return; the constructor raises the `refcount` of every constant by the
number of its occurrences in the leaves array and the destructor lowers it by the same
number; a variable is never changed; a constant whose `refcount` before construction was
at least 1 is not freed and has its old `refcount` again; a constant of the leaves array
whose `refcount` before construction was 0 is deleted by the decrement that brings its
count back to 0; and nothing outside the leaves array is changed. -/
theorem ctor_dtor_round_trip {α : Type} (num_operators num_leaves : Nat)
    (operators : List Oper) (args1 args2 : List Int) (leaves : List LeafPtr) (h : Heap α)
    (hops : num_operators ≤ operators.length) (ha1 : num_operators ≤ args1.length)
    (ha2 : num_operators ≤ args2.length) (hlv : num_leaves ≤ leaves.length)
    (hlive : ∀ p, p ∈ leaves.take num_leaves → (h p).isSome = true)
    (hcnt : ∀ p o, p ∈ leaves.take num_leaves → h p = some o → o.is_float = true →
      0 ≤ o.refcount) :
    ∃ e h1 h2,
      Evaluator.ctor (ExpressionBase.expression num_operators num_leaves operators args1
        args2 leaves) h = some (e, h1) ∧
      Evaluator.dtor e h1 = some h2 ∧
      e.leaves = leaves.take num_leaves ∧
      (∀ p o, h p = some o → o.is_float = true →
        h1 p = some { o with refcount := o.refcount + (e.leaves.count p : Int) }) ∧
      (∀ p o, h p = some o → o.is_float = false → h1 p = some o ∧ h2 p = some o) ∧
      (∀ p o, h p = some o → o.is_float = true → 1 ≤ o.refcount → h2 p = some o) ∧
      (∀ p o, h p = some o → o.is_float = true → p ∈ e.leaves → o.refcount = 0 →
        h2 p = none) ∧
      (∀ p, p ∉ e.leaves → h1 p = h p ∧ h2 p = h p) := by
  have hlen : (leaves.take num_leaves).length = num_leaves := by
    rw [List.length_take]; omega
  have hctor : Evaluator.ctor (ExpressionBase.expression num_operators num_leaves operators
      args1 args2 leaves) h =
      some ({ n_operators := num_operators, n_leaves := num_leaves,
              operators := operators.take num_operators,
              arg1_indices := args1.take num_operators,
              arg2_indices := args2.take num_operators,
              leaves := leaves.take num_leaves },
            heapAfterCapture h (leaves.take num_leaves)) := by
    simp only [Evaluator.ctor, copyLoop_eq_take operators num_operators hops,
      copyLoop_eq_take args1 num_operators ha1, copyLoop_eq_take args2 num_operators ha2,
      captureLoop_spec leaves h num_leaves hlv hlive, Option.some_bind]
  have hdtor := destroyLoop_spec
    { n_operators := num_operators, n_leaves := num_leaves,
      operators := operators.take num_operators, arg1_indices := args1.take num_operators,
      arg2_indices := args2.take num_operators, leaves := leaves.take num_leaves }
    h hlive hcnt num_leaves (by simp only [hlen, le_refl])
  have htake : (leaves.take num_leaves).take num_leaves = leaves.take num_leaves := by
    rw [List.take_take, Nat.min_self]
  refine ⟨_, _, heapAfterDestroy h (leaves.take num_leaves) num_leaves, hctor, hdtor, rfl,
    ?_, ?_, ?_, ?_, ?_⟩
  · intro p o ho hf
    simp only [heapAfterCapture, ho, Option.map_some', hf, if_true]
  · intro p o ho hf
    constructor
    · simp only [heapAfterCapture, ho, Option.map_some', hf, Bool.false_eq_true, if_false]
    · simp only [heapAfterDestroy, ho, Option.some_bind, hf, Bool.false_eq_true, if_false]
  · intro p o ho hf hr
    have hr0 : ¬ o.refcount = 0 := by omega
    obtain ⟨v, f, r⟩ := o
    simp only at hf hr0
    subst hf
    simp only [heapAfterDestroy, ho, Option.some_bind, if_true, htake, add_sub_cancel_right,
      hr0, and_false, if_false]
  · intro p o ho hf hp hr
    have hpos : 0 < (leaves.take num_leaves).count p := List.count_pos_iff.mpr hp
    have hcond : 0 < (leaves.take num_leaves).count p ∧
        o.refcount + ((leaves.take num_leaves).count p : Int) -
          ((leaves.take num_leaves).count p : Int) = 0 := ⟨hpos, by omega⟩
    simp only [heapAfterDestroy, ho, Option.some_bind, hf, if_true, htake, hcond, and_self]
  · intro p hp
    have hzero : (leaves.take num_leaves).count p = 0 := List.count_eq_zero.mpr hp
    constructor
    · unfold heapAfterCapture
      cases hh : h p with
      | none => rfl
      | some o =>
        obtain ⟨v, f, r⟩ := o
        cases f <;> simp [hzero]
    · unfold heapAfterDestroy
      cases hh : h p with
      | none => rfl
      | some o =>
        obtain ⟨v, f, r⟩ := o
        cases f <;> simp [hzero, htake]

/-- Witness of `ctor_dtor_round_trip` on the expression `b * b + a` over the leaves array
`[11, 11, 10]`, with the variable `a` at address 10 and the constant `b` at address 11
holding `refcount` 1 before construction. -/
theorem ctor_dtor_round_trip_witness :
    (2 ≤ [Oper.MULTIPLY, Oper.ADD].length ∧ 2 ≤ [(0 : Int), -1].length ∧
      2 ≤ [(1 : Int), 2].length ∧ 3 ≤ [(11 : LeafPtr), 11, 10].length) ∧
    (∀ p, p ∈ [(11 : LeafPtr), 11, 10].take 3 → (heap2 (3 : ℚ) 5 p).isSome = true) ∧
    (∀ p o, p ∈ [(11 : LeafPtr), 11, 10].take 3 → heap2 (3 : ℚ) 5 p = some o →
      o.is_float = true → 0 ≤ o.refcount) ∧
    ∃ e h1 h2,
      Evaluator.ctor constSquareExpr (heap2 (3 : ℚ) 5) = some (e, h1) ∧
      Evaluator.dtor e h1 = some h2 ∧
      e.leaves = [(11 : LeafPtr), 11, 10].take 3 ∧
      (∀ p o, heap2 (3 : ℚ) 5 p = some o → o.is_float = true →
        h1 p = some { o with refcount := o.refcount + (e.leaves.count p : Int) }) ∧
      (∀ p o, heap2 (3 : ℚ) 5 p = some o → o.is_float = false →
        h1 p = some o ∧ h2 p = some o) ∧
      (∀ p o, heap2 (3 : ℚ) 5 p = some o → o.is_float = true → 1 ≤ o.refcount →
        h2 p = some o) ∧
      (∀ p o, heap2 (3 : ℚ) 5 p = some o → o.is_float = true → p ∈ e.leaves →
        o.refcount = 0 → h2 p = none) ∧
      (∀ p, p ∉ e.leaves → h1 p = heap2 (3 : ℚ) 5 p ∧ h2 p = heap2 (3 : ℚ) 5 p) :=
  have hcnt : ∀ p o, p ∈ [(11 : LeafPtr), 11, 10].take 3 → heap2 (3 : ℚ) 5 p = some o →
      o.is_float = true → 0 ≤ o.refcount := by
    intro p o hp ho hf
    simp only [List.take, List.mem_cons, List.mem_singleton, List.not_mem_nil,
      or_false] at hp
    rcases hp with hp | hp | hp <;> subst hp <;> simp [heap2] at ho <;> subst ho <;>
      simp at hf ⊢
  ⟨⟨by decide, by decide, by decide, by decide⟩, by decide, hcnt,
    ctor_dtor_round_trip 2 3 [Oper.MULTIPLY, Oper.ADD] [0, -1] [1, 2] [11, 11, 10]
      (heap2 (3 : ℚ) 5) (by decide) (by decide) (by decide) (by decide) (by decide) hcnt⟩

end WNTR
